import Mathlib

/-! Empirical: `MatchBin` and `WeightedSet`

A shallow embedding of `source/tools/MatchBin.h` (the tag-matching container,
its metrics and its selectors) and of `tools/WeightedSet.h` (the implicit
binary tree used for weighted sampling), followed by the properties proved
about them.

Conventions of the embedding.

* `double` values are rational numbers (`ℚ`), and arithmetic on them is exact,
  except where the rounding of `double` arithmetic is at stake: `roundDouble`
  is the IEEE 754 rounding of an exact result, and `WeightedSet.IndexFromR` is
  the descent of `Index` with each subtraction rounded.
* `std::unordered_map<K, V>` is modelled by `UMap K V`, a list of key/value
  pairs.  Its iteration order is the list order; the C++ order is unspecified,
  and no property below depends on it.  Keys are unique in every map the code
  can build (`UMap.WF`).
* `size_t` uids live in a `w`-bit identifier space: the stepper is advanced
  modulo `2 ^ w`.
* Vector indices and loop counters (`unsigned int i`, `int minIndex`, `int id`)
  are natural numbers: the vectors involved are shorter than `2 ^ 30`, so none
  of them wraps.
* A C++ exception, a failed emp_assert and an out-of-bounds vector access are
  values of `Error`; every operation returns `Except Error _`.  Loops whose
  termination is not structural run on fuel, and `Error.diverged` is the
  result of running out of it.
-/

namespace emp

/-! ## Failure conditions -/

/-- The ways in which an operation of the embedded code can fail. -/
inductive Error where
  /-- Source: `throw std::runtime_error("container full")` in `MatchBin::Put`. -/
  | container_full
  /-- Source: `std::out_of_range`, thrown by `unordered_map::at`. -/
  | out_of_range
  /-- An `emp::vector` access outside `[0, size)`. -/
  | out_of_bounds
  /-- A failed `emp_assert`. -/
  | assert_failed
  /-- The fuel of a loop ran out (never the case for the fuel the code is run with). -/
  | diverged
  deriving DecidableEq, Repr

deriving instance DecidableEq for Except

/-! ## `std::unordered_map` -/

/-- Association list standing for `std::unordered_map<K, V>`. -/
def UMap (K V : Type) : Type := List (K × V)

namespace UMap

variable {K V : Type}

instance [DecidableEq K] [DecidableEq V] : DecidableEq (UMap K V) :=
  inferInstanceAs (DecidableEq (List (K × V)))

/-- The empty map. -/
def empty : UMap K V := ([] : List (K × V))

/-- The entries, in iteration order. -/
def entries (m : UMap K V) : List (K × V) := m

/-- The keys, in iteration order. -/
def keys (m : UMap K V) : List K := List.map Prod.fst m.entries

/-- Source: `m.size()`. -/
def size (m : UMap K V) : Nat := List.length m.entries

/-- Source: `m.find(k)`: the value stored under `k`, `none` standing for `m.end()`. -/
def find [DecidableEq K] : UMap K V → K → Option V
  | [], _ => none
  | (k1, v) :: m, k => if k1 = k then some v else find m k

/-- Source: `m.at(k)`: throws `std::out_of_range` when `k` is absent. -/
def atKey [DecidableEq K] (m : UMap K V) (k : K) : Except Error V :=
  match m.find k with
  | some v => .ok v
  | none => .error .out_of_range

/-- Source: `m[k] = v`: overwrite the value under `k`, or add the entry. -/
def assign [DecidableEq K] : UMap K V → K → V → UMap K V
  | [], k, v => [(k, v)]
  | (k1, v1) :: m, k, v => if k1 = k then (k, v) :: m else (k1, v1) :: assign m k v

/-- Source: `m[k]` read as an rvalue: the value under `k`; when `k` is absent a
default-constructed value is inserted first. -/
def subscript [DecidableEq K] [Inhabited V] (m : UMap K V) (k : K) : V × UMap K V :=
  match m.find k with
  | some v => (v, m)
  | none => (default, m.assign k default)

/-- Source: `m.erase(k)`. -/
def erase [DecidableEq K] (m : UMap K V) (k : K) : UMap K V :=
  List.filter (fun e => decide (e.1 ≠ k)) m.entries

/-- Keys are unique: the representation invariant of `std::unordered_map`. -/
def WF (m : UMap K V) : Prop := m.keys.Nodup

end UMap

/-! ## `WeightedSet` (tools/WeightedSet.h) -/

/-- Source: `struct WeightInfo { double item=0.0; double tree=0.0; }`. -/
structure WeightInfo where
  item : ℚ := 0
  tree : ℚ := 0
  deriving DecidableEq

/-- Source: `class WeightedSet`: its only member is `emp::vector<WeightInfo> weight`. -/
structure WeightedSet where
  weight : List WeightInfo
  deriving DecidableEq

namespace WeightedSet

/-- Source: `int ParentID(int id) const { return (id-1) / 2; }`, used for `id > 0` only. -/
def ParentID (id : Nat) : Nat := (id - 1) / 2

/-- Source: `int LeftID(int id) const { return 2*id + 1; }`. -/
def LeftID (id : Nat) : Nat := 2 * id + 1

/-- Source: `int RightID(int id) const { return 2*id + 2; }`. -/
def RightID (id : Nat) : Nat := 2 * id + 2

/-- Source: `WeightedSet(int num_items) : weight(num_items)`: every entry is
value-initialised, so all item and subtree weights are zero. -/
def new (num_items : Nat) : WeightedSet :=
  ⟨List.replicate num_items { item := 0, tree := 0 }⟩

/-- Source: `int GetSize() const`. -/
def GetSize (ws : WeightedSet) : Nat := ws.weight.length

/-- Source: `weight[id].tree += d`. -/
def addTree (w : List WeightInfo) (id : Nat) (d : ℚ) : Except Error (List WeightInfo) :=
  match w[id]? with
  | none => .error .out_of_bounds
  | some wi => .ok (w.set id { wi with tree := wi.tree + d })

/-- The loop `while (id > 0) { id = ParentID(id); weight[id].tree += weight_diff; }`
of `Adjust`.  Each round strictly decreases `id`, so `id` rounds of fuel are
always enough. -/
def adjustLoop (d : ℚ) : Nat → Nat → List WeightInfo → Except Error (List WeightInfo)
  | 0, id, w => if 0 < id then .error .diverged else .ok w
  | fuel + 1, id, w =>
    if 0 < id then
      match addTree w (ParentID id) d with
      | .error e => .error e
      | .ok w1 => adjustLoop d fuel (ParentID id) w1
    else .ok w

/-- Source: `void Adjust(int id, const double new_weight)`. -/
def Adjust (ws : WeightedSet) (id : Nat) (new_weight : ℚ) : Except Error WeightedSet :=
  match ws.weight[id]? with
  | none => .error .out_of_bounds
  | some wi =>
    let weight_diff := new_weight - wi.item
    let w1 := ws.weight.set id { item := new_weight, tree := wi.tree + weight_diff }
    match adjustLoop weight_diff id id w1 with
    | .error e => .error e
    | .ok w2 => .ok ⟨w2⟩

/-- The recursion of `int Index(double index, int cur_id)`, in exact arithmetic
(`IndexFromR` is the same recursion with its subtractions rounded).  `cur_id`
grows at every call and a call with `cur_id` outside the vector fails, so
`weight.size() + 1` calls are always enough. -/
def IndexFrom (w : List WeightInfo) : Nat → ℚ → Nat → Except Error Nat
  | 0, _, _ => .error .diverged
  | fuel + 1, index, cur_id =>
    match w[cur_id]? with
    | none => .error .out_of_bounds
    | some c =>
      if index < c.item then .ok cur_id
      else
        match w[LeftID cur_id]? with
        | none => .error .out_of_bounds
        | some l =>
          if index - c.item < l.tree then IndexFrom w fuel (index - c.item) (LeftID cur_id)
          else IndexFrom w fuel (index - c.item - l.tree) (LeftID cur_id + 1)

/-- Source: `int Index(double index, int cur_id=0)` called with the default `cur_id`. -/
def Index (ws : WeightedSet) (index : ℚ) : Except Error Nat :=
  IndexFrom ws.weight (ws.weight.length + 1) index 0

/-- A run of `Adjust` calls, in order; it stops at the first failing call. -/
def AdjustAll : WeightedSet → List (Nat × ℚ) → Except Error WeightedSet
  | ws, [] => .ok ws
  | ws, (id, nw) :: rest =>
    match Adjust ws id nw with
    | .error e => .error e
    | .ok ws1 => AdjustAll ws1 rest

/-- The subtree weight read at `i`, a child index outside the vector
contributing nothing. -/
def treeAt (w : List WeightInfo) (i : Nat) : ℚ :=
  match w[i]? with
  | some wi => wi.tree
  | none => 0

/-- The item weight read at `i` (zero outside the vector). -/
def itemAt (w : List WeightInfo) (i : Nat) : ℚ :=
  match w[i]? with
  | some wi => wi.item
  | none => 0

/-- The sampler invariant: every node's subtree weight is its own item weight
plus the subtree weights of its two children. -/
def TreeInv (ws : WeightedSet) : Prop :=
  ∀ i, i < ws.weight.length →
    treeAt ws.weight i = itemAt ws.weight i + treeAt ws.weight (LeftID i) + treeAt ws.weight (RightID i)

/-- The state of the invariant while `Adjust` walks up from `id`: it holds
everywhere except at the parent of the node `c` updated last, whose subtree
weight still misses `d`. -/
def OffBy (w : List WeightInfo) (c : Nat) (d : ℚ) : Prop :=
  ∀ i, i < w.length →
    treeAt w i + (if 0 < c ∧ i = ParentID c then d else 0)
      = itemAt w i + treeAt w (LeftID i) + treeAt w (RightID i)

/-- Root-first traversal (node, then left subtree, then right subtree) of the
subtree rooted at node `i` of the implicit tree with `size` nodes.  A child
index is larger than its parent, so `size - i` rounds of fuel reach every node
of the subtree. -/
def preorder (size : Nat) : Nat → Nat → List Nat
  | 0, _ => []
  | fuel + 1, i =>
    if i < size then i :: (preorder size fuel (LeftID i) ++ preorder size fuel (RightID i))
    else []

/-- The sum of the item weights of the nodes that come before `id` in the
traversal `order`. -/
def weightBefore (w : List WeightInfo) (order : List Nat) (id : Nat) : ℚ :=
  ((order.takeWhile (fun j => decide (j ≠ id))).map (itemAt w)).sum

/-- As the specification words it: `cumulative_start(id)` is the sum of the
item weights of the nodes visited before `id` in the root-first traversal of
the whole tree. -/
def cumulative_start (ws : WeightedSet) (id : Nat) : ℚ :=
  weightBefore ws.weight (preorder ws.weight.length ws.weight.length 0) id

/-- The state reached from capacity 4 by `Adjust(0, 1.0)` and `Adjust(1, 3.0)`. -/
def sample4 : WeightedSet :=
  ⟨[{ item := 1, tree := 4 }, { item := 3, tree := 3 }, { item := 0, tree := 0 },
    { item := 0, tree := 0 }]⟩

end WeightedSet

/-! ## Collaborators that are not part of the two files -/

/-- Modelled from the spec: `emp_assert` of base/assert.h, which is not among
the sources.  A violated assertion makes the operation fail (the
`InvalidArgument` of the specification); `debug = false` is the build in which
assertions are compiled out and nothing is checked. -/
def emp_assert (debug : Bool) (cond : Bool) : Except Error Unit :=
  if debug && !cond then .error .assert_failed else .ok ()

/-- Modelled from the spec: a random source in the sense of
`emp::Random::GetDouble(max)`; `rand j max` is the value of the `j`-th draw,
"a uniform value in `[0, max)`". -/
def IsRandomSource (rand : Nat → ℚ → ℚ) : Prop :=
  ∀ j max, 0 < max → 0 ≤ rand j max ∧ rand j max < max

/-- A random source that always draws the middle of the range. -/
def midSource : Nat → ℚ → ℚ := fun _ max => max / 2

/-- What C++ guarantees of `std::sort(first, last, comp)` when `comp` compares
a key of the elements with `<`: the result is a rearrangement of the input in
which the keys never decrease.  The order among equal keys is unspecified. -/
def IsStdSort (sort : (Nat → Nat → Bool) → List Nat → List Nat) : Prop :=
  ∀ (key : Nat → ℚ) (l : List Nat),
    List.Perm (sort (fun a b => decide (key a < key b)) l) l ∧
    List.Pairwise (fun a b => key a ≤ key b) (sort (fun a b => decide (key a < key b)) l)

/-- One implementation of `std::sort`: insertion sort by the comparator. -/
def insertionStdSort (lt : Nat → Nat → Bool) (l : List Nat) : List Nat :=
  List.insertionSort (fun a b => lt b a = false) l

/-! ## Metrics (source/tools/MatchBin.h) -/

/-- Source: `struct Difference`: `(double)abs(a-b)` on integer tags (whose difference
fits an `int`). -/
def Difference (a b : Int) : ℚ := ((Int.natAbs (a - b) : Nat) : ℚ)

/-! ## Selectors (source/tools/MatchBin.h) -/

/-- A selector: `operator()(emp::vector<size_t>& uids,
std::unordered_map<size_t, double>& scores, size_t n)`.  The uid vector is
passed by reference, so a selector returns the selected uids together with the
vector as it leaves it. -/
abbrev Selector : Type := List Nat → UMap Nat ℚ → Nat → Except Error (List Nat × List Nat)

/-- Source: `uids[i]` on an `emp::vector`. -/
def vecGet (uids : List Nat) (i : Nat) : Except Error Nat :=
  match uids[i]? with
  | some u => .ok u
  | none => .error .out_of_bounds

/-- The score of `u` read as a value: what `scores.at(u)` returns when `u` has
a score, and what `scores[u]` returns in any case (zero, the default `double`,
when `u` has none). -/
def scoreOf (scores : UMap Nat ℚ) (u : Nat) : ℚ := (scores.find u).getD 0

/-- Source: `double thresh = ratio::num / ratio::den;`: both constants are integers,
so the quotient is the integer quotient, rounded towards zero, and only then
converted to `double`. -/
def threshOf (num den : Int) : ℚ := ((Int.tdiv num den : Int) : ℚ)

/-- The body of the inner `for` loop of the selection branch at index `j`;
`minIndex` is `none` for the sentinel `-1`.
```
if (minIndex == -1 || scores.at(uids[j]) < scores.at(uids[minIndex])) {
  if (scores.at(uids[j]) < thresh) { minIndex = j; }
}
``` -/
def scanStep (uids : List Nat) (scores : UMap Nat ℚ) (thresh : ℚ) (minIndex : Option Nat)
    (j : Nat) : Except Error (Option Nat) :=
  match vecGet uids j with
  | .error e => .error e
  | .ok uj =>
    match minIndex with
    | none =>
      match scores.atKey uj with
      | .error e => .error e
      | .ok sj => .ok (if sj < thresh then some j else none)
    | some m =>
      match scores.atKey uj with
      | .error e => .error e
      | .ok sj =>
        match vecGet uids m with
        | .error e => .error e
        | .ok um =>
          match scores.atKey um with
          | .error e => .error e
          | .ok sm => .ok (if sj < sm then (if sj < thresh then some j else some m) else some m)

/-- Source: `for (size_t j = i; j < uids.size(); ++j) { ... }`: `k` rounds are left,
the next index is `j`. -/
def scanMin (uids : List Nat) (scores : UMap Nat ℚ) (thresh : ℚ) :
    Nat → Nat → Option Nat → Except Error (Option Nat)
  | 0, _, minIndex => .ok minIndex
  | k + 1, j, minIndex =>
    match scanStep uids scores thresh minIndex j with
    | .error e => .error e
    | .ok m1 => scanMin uids scores thresh k (j + 1) m1

/-- Source: `std::swap(uids.at(i), uids.at(minIndex))`. -/
def swapAt (uids : List Nat) (i m : Nat) : Except Error (List Nat) :=
  match uids[i]?, uids[m]? with
  | some ui, some um => .ok ((uids.set i um).set m ui)
  | _, _ => .error .out_of_range

/-- The bounded selection sort `while (i < n) { ... }`: `k = n - i` rounds are
left.  It returns the final `i` and the vector. -/
def selectLoop (scores : UMap Nat ℚ) (thresh : ℚ) :
    Nat → Nat → List Nat → Except Error (Nat × List Nat)
  | 0, i, uids => .ok (i, uids)
  | k + 1, i, uids =>
    match scanMin uids scores thresh (uids.length - i) i none with
    | .error e => .error e
    | .ok none => .ok (i, uids)
    | .ok (some m) =>
      match swapAt uids i m with
      | .error e => .error e
      | .ok uids1 => selectLoop scores thresh k (i + 1) uids1

/-- Source: `while(i < uids.size() && i < n && scores.at(uids[i]) < thresh) ++i;`:
`k = n - i` rounds are left. -/
def countBelow (uids : List Nat) (scores : UMap Nat ℚ) (thresh : ℚ) : Nat → Nat → Except Error Nat
  | 0, i => .ok i
  | k + 1, i =>
    match uids[i]? with
    | none => .ok i
    | some u =>
      match scores.atKey u with
      | .error e => .error e
      | .ok s => if s < thresh then countBelow uids scores thresh k (i + 1) else .ok i

/-- Source: `ThreshSelector<ratio>::operator()`.  `num` and `den` are `ratio::num` and
`ratio::den`; `sort` is the implementation of `std::sort`.

* `n < log2(uids.size())` holds exactly when `2 ^ n < uids.size()`.
* The comparator handed to `std::sort` reads `scores.at` of both arguments.
  Sorting two or more elements compares each of them at least once, so the
  call throws `std::out_of_range` exactly when some uid has no score. -/
def ThreshSelector (sort : (Nat → Nat → Bool) → List Nat → List Nat) (num den : Int) : Selector :=
  fun uids scores n =>
    let thresh := threshOf num den
    if 2 ^ n < uids.length then
      match selectLoop scores thresh n 0 uids with
      | .error e => .error e
      | .ok (i, uids1) => .ok (uids1.take i, uids1)
    else
      if 2 ≤ uids.length ∧ ¬ (∀ u ∈ uids, (scores.find u).isSome = true) then
        .error .out_of_range
      else
        let sorted := sort (fun a b => decide (scoreOf scores a < scoreOf scores b)) uids
        match countBelow sorted scores thresh n 0 with
        | .error e => .error e
        | .ok i => .ok (sorted.take i, sorted)

/-- What the scan of the selection branch knows after looking at the indices
from `i` up to `j`: `cur` is the first index among them whose score is minimal
among the scores below the threshold, or the sentinel when no score is below it. -/
def IsMinFrom (sc : Nat → ℚ) (t : ℚ) (l : List Nat) (i j : Nat) : Option Nat → Prop
  | none => ∀ p, i ≤ p → p < j → ∀ u, l[p]? = some u → ¬ sc u < t
  | some m => i ≤ m ∧ m < j ∧ ∃ um, l[m]? = some um ∧ sc um < t ∧
      ∀ p, i ≤ p → p < j → ∀ u, l[p]? = some u → sc u < t → sc um ≤ sc u

/-- The state of the selection after `i` elements have been placed: the first
`i` entries are below the threshold, ascending by score, and no later entry
below the threshold has a smaller score than any of them. -/
def Selected (sc : Nat → ℚ) (t : ℚ) (i : Nat) (l : List Nat) : Prop :=
  i ≤ l.length ∧
  (∀ p, p < i → ∀ a, l[p]? = some a → sc a < t) ∧
  (∀ p q, p < q → q < i → ∀ a b, l[p]? = some a → l[q]? = some b → sc a ≤ sc b) ∧
  (∀ p q, p < i → i ≤ q → ∀ a b, l[p]? = some a → l[q]? = some b → sc b < t → sc a ≤ sc b)

/-- Source: `const double skew = 0.1;` -/
def skew : ℚ := 1 / 10

/-- Modelled from the spec: `IndexMap` (tools/IndexMap.h) is the weighted
sampler of the specification, which `WeightedSet` implements; its
`GetWeight()` is the total weight, the subtree weight of the root. -/
def GetWeight (ws : WeightedSet) : Except Error ℚ :=
  match ws.weight[0]? with
  | some r => .ok r.tree
  | none => .error .out_of_bounds

/-- The first loop of `RouletteSelector`, at index `i` with the uids from `i`
on still to do:
```
emp_assert(scores[uids[i]] >= 0);
match_index.Adjust(i, 1.0 / ( skew + scores[uids[i]] ));
```
`scores[u]` reads zero for a uid without a score; the entry it adds to the
score map in that case is not tracked, `Match` discards its score map. -/
def rouletteFill (debug : Bool) (scores : UMap Nat ℚ) :
    List Nat → Nat → WeightedSet → Except Error WeightedSet
  | [], _, ws => .ok ws
  | u :: rest, i, ws =>
    match emp_assert debug (decide (0 ≤ scoreOf scores u)) with
    | .error e => .error e
    | .ok _ =>
      match WeightedSet.Adjust ws i (1 / (skew + scoreOf scores u)) with
      | .error e => .error e
      | .ok ws1 => rouletteFill debug scores rest (i + 1) ws1

/-- The second loop of `RouletteSelector`: `k` draws are left, the next is
draw number `j`.
```
const double match_pos = random.GetDouble(match_index.GetWeight());
const size_t idx = match_index.Index(match_pos);
res.push_back(uids[idx]);
``` -/
def rouletteDraw (rand : Nat → ℚ → ℚ) (uids : List Nat) (ws : WeightedSet) :
    Nat → Nat → Except Error (List Nat)
  | 0, _ => .ok []
  | k + 1, j =>
    match GetWeight ws with
    | .error e => .error e
    | .ok total =>
      match WeightedSet.Index ws (rand j total) with
      | .error e => .error e
      | .ok idx =>
        match vecGet uids idx with
        | .error e => .error e
        | .ok u =>
          match rouletteDraw rand uids ws k (j + 1) with
          | .error e => .error e
          | .ok res => .ok (u :: res)

/-- Source: `RouletteSelector::operator()`; `rand` is the random source. -/
def RouletteSelector (debug : Bool) (rand : Nat → ℚ → ℚ) : Selector :=
  fun uids scores n =>
    match rouletteFill debug scores uids 0 (WeightedSet.new uids.length) with
    | .error e => .error e
    | .ok ws =>
      match rouletteDraw rand uids ws n 0 with
      | .error e => .error e
      | .ok res => .ok (res, uids)

/-! ## `MatchBin` (source/tools/MatchBin.h) -/

/-- The data members of `MatchBin<Val, Tag, Metric, Selector>`.  `Metric` and
`Selector` have no state; they are arguments of `Match`. -/
structure MatchBin (Val Tag : Type) where
  values : UMap Nat Val
  regulators : UMap Nat ℚ
  tags : UMap Nat Tag
  uids : List Nat
  uid_stepper : Nat

namespace MatchBin

variable {Val Tag : Type}

instance [DecidableEq Val] [DecidableEq Tag] : DecidableEq (MatchBin Val Tag) := fun a b =>
  decidable_of_iff
    (a.values = b.values ∧ a.regulators = b.regulators ∧ a.tags = b.tags ∧ a.uids = b.uids ∧
      a.uid_stepper = b.uid_stepper)
    (by
      cases a; cases b
      simp only [MatchBin.mk.injEq])

/-- Source: `MatchBin ():uid_stepper(0) { }`. -/
def new : MatchBin Val Tag :=
  { values := UMap.empty, regulators := UMap.empty, tags := UMap.empty, uids := [],
    uid_stepper := 0 }

/-- The loop of `Put`,
```
while(values.find(++uid_stepper) != values.end()) {
  if (uid_stepper == orig) throw std::runtime_error("container full");
}
```
over `w`-bit identifiers.  It returns the stepper it stops at, with the
exception if one was thrown. -/
def putLoop (w : Nat) (values : UMap Nat Val) (orig : Nat) : Nat → Nat → Option Error × Nat
  | 0, s => (some .diverged, s)
  | fuel + 1, s =>
    let s1 := (s + 1) % 2 ^ w
    match values.find s1 with
    | none => (none, s1)
    | some _ => if s1 = orig then (some .container_full, s1) else putLoop w values orig fuel s1

/-- Source: `size_t Put(const Val & v, const Tag & t)`.  The loop visits each of the
`2 ^ w` identifiers at most once, so it runs on `2 ^ w` rounds of fuel. -/
def Put (w : Nat) (mb : MatchBin Val Tag) (v : Val) (t : Tag) :
    Except Error Nat × MatchBin Val Tag :=
  match putLoop w mb.values mb.uid_stepper (2 ^ w) mb.uid_stepper with
  | (some e, s) => (.error e, { mb with uid_stepper := s })
  | (none, s) =>
    (.ok s,
      { values := mb.values.assign s v
        regulators := mb.regulators.assign s 1
        tags := mb.tags.assign s t
        uids := mb.uids ++ [s]
        uid_stepper := s })

/-- Source: `void Delete(size_t uid)`. -/
def Delete (mb : MatchBin Val Tag) (uid : Nat) : MatchBin Val Tag :=
  { values := mb.values.erase uid
    regulators := mb.regulators.erase uid
    tags := mb.tags.erase uid
    uids := mb.uids.filter (fun u => decide (u ≠ uid))
    uid_stepper := mb.uid_stepper }

/-- Source: `void Clear()`. -/
def Clear (mb : MatchBin Val Tag) : MatchBin Val Tag :=
  { values := UMap.empty, regulators := UMap.empty, tags := UMap.empty, uids := [],
    uid_stepper := mb.uid_stepper }

/-- Source: `Val & GetVal(const size_t uid)`. -/
def GetVal (mb : MatchBin Val Tag) (uid : Nat) : Except Error Val := mb.values.atKey uid

/-- Source: `Tag & GetTag(const size_t uid)`. -/
def GetTag (mb : MatchBin Val Tag) (uid : Nat) : Except Error Tag := mb.tags.atKey uid

/-- Source: `size_t Size()`. -/
def Size (mb : MatchBin Val Tag) : Nat := mb.values.size

/-- Source: `void AdjRegulator(size_t uid, double amt)`:
`regulators[uid] = std::max(0.0, regulators.at(uid) + amt);`.  The right-hand
side is evaluated first, so a missing uid throws before anything is written. -/
def AdjRegulator (mb : MatchBin Val Tag) (uid : Nat) (amt : ℚ) :
    Except Error Unit × MatchBin Val Tag :=
  match mb.regulators.atKey uid with
  | .error e => (.error e, mb)
  | .ok r => (.ok (), { mb with regulators := mb.regulators.assign uid (max 0 (r + amt)) })

/-- Source: `void SetRegulator(size_t uid, double amt)`:
`emp_assert(amt >= 0.0); regulators.at(uid) = amt;`. -/
def SetRegulator (debug : Bool) (mb : MatchBin Val Tag) (uid : Nat) (amt : ℚ) :
    Except Error Unit × MatchBin Val Tag :=
  match emp_assert debug (decide (0 ≤ amt)) with
  | .error e => (.error e, mb)
  | .ok _ =>
    match mb.regulators.atKey uid with
    | .error e => (.error e, mb)
    | .ok _ => (.ok (), { mb with regulators := mb.regulators.assign uid amt })

/-- The body of the first loop of `Match`, for the entry `(uid, tag)`:
`if (matches.find(tag) == matches.end()) { matches[tag] = metric(query, tag); }`. -/
def cacheStep [DecidableEq Tag] (metric : Tag → Tag → ℚ) (query : Tag) (cache : UMap Tag ℚ)
    (e : Nat × Tag) : UMap Tag ℚ :=
  match cache.find e.2 with
  | none => cache.assign e.2 (metric query e.2)
  | some _ => cache

/-- The first loop of `Match`: `for (const auto &[uid, tag] : tags) { ... }`. -/
def buildMatches [DecidableEq Tag] (metric : Tag → Tag → ℚ) (query : Tag) (tags : UMap Nat Tag) :
    UMap Tag ℚ :=
  tags.entries.foldl (cacheStep metric query) UMap.empty

/-- The maps the second loop of `Match` reads and writes; `cache` is the local
`matches`. -/
structure ScoreState (Tag : Type) where
  scores : UMap Nat ℚ
  cache : UMap Tag ℚ
  tags : UMap Nat Tag
  regulators : UMap Nat ℚ

/-- The body of the second loop of `Match`:
`scores[uid] = matches[tags[uid]] * regulators[uid] + regulators[uid];`.
Every `[]` is `operator[]`, which inserts a default entry for a missing key. -/
def scoreStep [DecidableEq Tag] [Inhabited Tag] (st : ScoreState Tag) (uid : Nat) :
    ScoreState Tag :=
  let tg := st.tags.subscript uid
  let ds := st.cache.subscript tg.1
  let rg := st.regulators.subscript uid
  { scores := st.scores.assign uid (ds.1 * rg.1 + rg.1)
    cache := ds.2
    tags := tg.2
    regulators := rg.2 }

/-- The state after both loops of `Match`, just before the selector is called. -/
def computeScores [DecidableEq Tag] [Inhabited Tag] (metric : Tag → Tag → ℚ)
    (mb : MatchBin Val Tag) (query : Tag) : ScoreState Tag :=
  mb.uids.foldl scoreStep
    { scores := UMap.empty
      cache := buildMatches metric query mb.tags
      tags := mb.tags
      regulators := mb.regulators }

/-- The last line of `Match`, `return select(uids, scores, n);`, given what
the selector returned: the member `uids` is the vector the selector worked on.
A selector that fails is taken to leave the vector as it was
(`RouletteSelector` never writes to it). -/
def finishMatch (mb1 : MatchBin Val Tag) (r : Except Error (List Nat × List Nat)) :
    Except Error (List Nat) × MatchBin Val Tag :=
  match r with
  | .error e => (.error e, mb1)
  | .ok (res, uids1) => (.ok res, { mb1 with uids := uids1 })

/-- Source: `emp::vector<size_t> Match(const Tag & query, size_t n=1)`. -/
def Match [DecidableEq Tag] [Inhabited Tag] (metric : Tag → Tag → ℚ) (select : Selector)
    (mb : MatchBin Val Tag) (query : Tag) (n : Nat) :
    Except Error (List Nat) × MatchBin Val Tag :=
  let st := computeScores metric mb query
  finishMatch { mb with tags := st.tags, regulators := st.regulators } (select mb.uids st.scores n)

/-- A run of `Put` calls, in order: the outcome of each call and the final store. -/
def PutAll (w : Nat) : MatchBin Val Tag → List (Val × Tag) →
    List (Except Error Nat) × MatchBin Val Tag
  | mb, [] => ([], mb)
  | mb, (v, t) :: rest =>
    let r := Put w mb v t
    let rs := PutAll w r.2 rest
    (r.1 :: rs.1, rs.2)

/-- The uid of a successful `Put`. -/
def returned : Except Error Nat → Option Nat
  | .ok u => some u
  | .error _ => none

/-- The store after a successful `Put` that returned `s`. -/
def afterPut (mb : MatchBin Val Tag) (s : Nat) (v : Val) (t : Tag) : MatchBin Val Tag :=
  { values := mb.values.assign s v
    regulators := mb.regulators.assign s 1
    tags := mb.tags.assign s t
    uids := mb.uids ++ [s]
    uid_stepper := s }

/-- The store invariant: the three maps have the same keys, each once, and the
live-uid list holds exactly these keys, each once. -/
def Inv (mb : MatchBin Val Tag) : Prop :=
  mb.values.WF ∧ mb.regulators.WF ∧ mb.tags.WF ∧ mb.uids.Nodup ∧
  (∀ u, u ∈ mb.values.keys ↔ u ∈ mb.uids) ∧
  (∀ u, u ∈ mb.regulators.keys ↔ u ∈ mb.uids) ∧
  (∀ u, u ∈ mb.tags.keys ↔ u ∈ mb.uids)

/-- Every distance in the cache is the metric's value for its tag. -/
def CacheOK [DecidableEq Tag] (metric : Tag → Tag → ℚ) (query : Tag) (cache : UMap Tag ℚ) : Prop :=
  ∀ t d, cache.find t = some d → d = metric query t

/-- The score the formula of the specification gives a uid with tag `t` and
regulator `r`. -/
def regulated [DecidableEq Tag] (metric : Tag → Tag → ℚ) (query : Tag) (mb : MatchBin Val Tag) (uid : Nat) : ℚ :=
  match mb.tags.find uid, mb.regulators.find uid with
  | some t, some r => metric query t * r + r
  | _, _ => 0

/-- The store after `Put("a", 0)` and `Put("b", 15)` over 2-bit uids. -/
def twoItems : MatchBin String Int := (PutAll 2 new [("a", 0), ("b", 15)]).2

end MatchBin

namespace MatchBin

variable {Val Tag : Type}

/-- A call of the public interface of `MatchBin`, with its arguments; `Match`
comes with the metric and the selector the store was instantiated with. -/
inductive Op (Val Tag : Type) where
  | put (v : Val) (t : Tag)
  | delete (uid : Nat)
  | clear
  | adjRegulator (uid : Nat) (amt : ℚ)
  | setRegulator (uid : Nat) (amt : ℚ)
  | matchQuery (metric : Tag → Tag → ℚ) (select : Selector) (query : Tag) (n : Nat)

/-- The store after one call, whatever the call returned or threw. -/
def step [DecidableEq Tag] [Inhabited Tag] (w : Nat) (debug : Bool) (mb : MatchBin Val Tag) :
    Op Val Tag → MatchBin Val Tag
  | .put v t => (Put w mb v t).2
  | .delete uid => Delete mb uid
  | .clear => Clear mb
  | .adjRegulator uid amt => (AdjRegulator mb uid amt).2
  | .setRegulator uid amt => (SetRegulator debug mb uid amt).2
  | .matchQuery metric select query n => (Match metric select mb query n).2

/-- The store reached from the newly constructed one by a sequence of calls. -/
def run [DecidableEq Tag] [Inhabited Tag] (w : Nat) (debug : Bool) (ops : List (Op Val Tag)) :
    MatchBin Val Tag :=
  ops.foldl (step w debug) new

/-- No regulator stored is negative. -/
def RegsNonneg (regulators : UMap Nat ℚ) : Prop :=
  ∀ u r, regulators.find u = some r → 0 ≤ r

/-- The score `Match(query, ...)` computes for `uid` in the store `mb`. -/
def scoreIn [DecidableEq Tag] [Inhabited Tag] (metric : Tag → Tag → ℚ) (query : Tag)
    (mb : MatchBin Val Tag) (uid : Nat) : Option ℚ :=
  (computeScores metric mb query).scores.find uid

end MatchBin

namespace MatchBin

variable {Val Tag : Type}

/-- The body of the first loop of `Match` for a metric object with an internal
state of type `σ` (the member `Metric metric`, whose `operator()` is free to
update the object): a call `metric(query, tag)` in state `s` returns the
distance `(metric query tag s).1` and leaves the object in state
`(metric query tag s).2`.
```
if (matches.find(tag) == matches.end()) { matches[tag] = metric(query, tag); }
``` -/
def cacheStepS {σ : Type} [DecidableEq Tag] (metric : Tag → Tag → σ → ℚ × σ) (query : Tag)
    (st : UMap Tag ℚ × σ) (e : Nat × Tag) : UMap Tag ℚ × σ :=
  match st.1.find e.2 with
  | none => (st.1.assign e.2 (metric query e.2 st.2).1, (metric query e.2 st.2).2)
  | some _ => st

/-- The first loop of `Match`, `for (const auto &[uid, tag] : tags) { ... }`,
for a metric object that starts in state `s`. -/
def buildMatchesS {σ : Type} [DecidableEq Tag] (metric : Tag → Tag → σ → ℚ × σ) (query : Tag)
    (tags : UMap Nat Tag) (s : σ) : UMap Tag ℚ × σ :=
  tags.entries.foldl (cacheStepS metric query) (UMap.empty, s)

/-- Source: `emp::vector<size_t> Match(const Tag & query, size_t n=1)` for a
metric object that starts in state `s`: what `Match` returns, the store it
leaves, and the state in which it leaves the metric object.  The first loop is
the only place where `metric` occurs in `Match`; the second loop reads the
local `matches`, and the selector is handed `uids`, `scores` and `n` only. -/
def MatchS {σ : Type} [DecidableEq Tag] [Inhabited Tag] (metric : Tag → Tag → σ → ℚ × σ)
    (select : Selector) (mb : MatchBin Val Tag) (s : σ) (query : Tag) (n : Nat) :
    (Except Error (List Nat) × MatchBin Val Tag) × σ :=
  let built := buildMatchesS metric query mb.tags s
  let st := mb.uids.foldl scoreStep
    { scores := UMap.empty
      cache := built.1
      tags := mb.tags
      regulators := mb.regulators }
  (finishMatch { mb with tags := st.tags, regulators := st.regulators }
    (select mb.uids st.scores n), built.2)

/-- A call-counting stub: the metric `metric` wrapped in an object whose state
is the list of the argument pairs it has been called with, in order. -/
def countingMetric (metric : Tag → Tag → ℚ) : Tag → Tag → List (Tag × Tag) → ℚ × List (Tag × Tag) :=
  fun a b calls => (metric a b, calls ++ [(a, b)])

/-- The calls of the metric that one call of `Match` makes, in order, as
recorded by the call-counting stub. -/
def MatchCalls [DecidableEq Tag] [Inhabited Tag] (metric : Tag → Tag → ℚ) (select : Selector)
    (mb : MatchBin Val Tag) (query : Tag) (n : Nat) : List (Tag × Tag) :=
  (MatchS (countingMetric metric) select mb [] query n).2

/-- The store after five `Put` calls with the same tag `7`, over 3-bit uids. -/
def fiveSameTag : MatchBin String Int :=
  (PutAll 3 new [("a", 7), ("b", 7), ("c", 7), ("d", 7), ("e", 7)]).2

end MatchBin

namespace WeightedSet

/-- The proper ancestors of node `id`, nearest first, up to the root: the
parent of a node `i > 0` is `ParentID i`, the root `0` has none.  A parent
index is smaller than the node's, so `id` rounds of fuel reach the root. -/
def ancestors : Nat → Nat → List Nat
  | 0, _ => []
  | fuel + 1, id => if 0 < id then ParentID id :: ancestors fuel (ParentID id) else []

end WeightedSet

/-- Modelled from the spec: `emp::BitSet<width>` (not among the sources) is a
fixed-width bit vector, here the natural number with these bits;
`CountOnes()` counts the positions, among the `width` of them, that hold a one. -/
def CountOnes (width : Nat) (bits : Nat) : Nat :=
  ((List.range width).filter (fun i => bits.testBit i)).length

/-- Source: `struct HammingDistance<width>`: `(double)(a^b).CountOnes()`, the
number of bit positions in which `a` and `b` differ. -/
def HammingDistance (width : Nat) (a b : Nat) : ℚ := ((CountOnes width (a ^^^ b) : Nat) : ℚ)

namespace MatchBin

/-- The store of the Hamming scenario: `Put(v1, 0b0000)` then `Put(v2, 0b1111)`
into a new store, uids being 64-bit. -/
def hammingStore : MatchBin String Nat := (PutAll 64 new [("v1", 0b0000), ("v2", 0b1111)]).2

end MatchBin

/-- The branch of `ThreshSelector` taken when `n < log2(uids.size())`: the
bounded selection sort, then `emp::vector<size_t>(uids.begin(), uids.begin()+i)`. -/
def threshSelectBranch (thresh : ℚ) : Selector :=
  fun uids scores n =>
    match selectLoop scores thresh n 0 uids with
    | .error e => .error e
    | .ok (i, uids1) => .ok (uids1.take i, uids1)

/-- The other branch of `ThreshSelector`: `std::sort`, then the count of the
leading entries below the threshold, then the same copy of the first `i`
entries. -/
def threshSortBranch (sort : (Nat → Nat → Bool) → List Nat → List Nat) (thresh : ℚ) : Selector :=
  fun uids scores n =>
    if 2 ≤ uids.length ∧ ¬ (∀ u ∈ uids, (scores.find u).isSome = true) then
      .error .out_of_range
    else
      let sorted := sort (fun a b => decide (scoreOf scores a < scoreOf scores b)) uids
      match countBelow sorted scores thresh n 0 with
      | .error e => .error e
      | .ok i => .ok (sorted.take i, sorted)

/-- Source: `struct Push<max_value>`, the `size_t` it computes before the
conversion to `double`:
```
size_t difference = ((max_value + 1) + b - a) % (max_value+1);
return (double)(difference % (max_value+1));
```
`max_value` is an `int` and `max_value + 1` is computed in `int`, then
converted to `size_t`; the sum, the difference and the remainders are `size_t`
arithmetic, modulo `2 ^ 64`.  `a` and `b` are `size_t` values.  The model
covers `max_value ≥ 0` with `max_value + 1` still an `int`: for
`max_value = INT_MAX` the addition overflows, which C++ leaves undefined. -/
def PushDifference (max_value a b : Nat) : Nat :=
  let m := (max_value + 1) % 2 ^ 64
  let difference := (((m + b) % 2 ^ 64 + (2 ^ 64 - a)) % 2 ^ 64) % m
  difference % m

/-- Source: `struct Push<max_value>`: `double operator()(const size_t a, const size_t b)`. -/
def Push (max_value a b : Nat) : ℚ := ((PushDifference max_value a b : Nat) : ℚ)

namespace WeightedSet

/-- The recursion of `Index` with the reads of the weight vector recorded: the
second component lists, in order, the node indices at which `weight[...]` is
read (`weight[cur_id].item`, then `weight[left_id].tree`), whether or not they
lie inside the vector. -/
def IndexFromReads (w : List WeightInfo) : Nat → ℚ → Nat → Except Error Nat × List Nat
  | 0, _, _ => (.error .diverged, [])
  | fuel + 1, index, cur_id =>
    match w[cur_id]? with
    | none => (.error .out_of_bounds, [cur_id])
    | some c =>
      if index < c.item then (.ok cur_id, [cur_id])
      else
        match w[LeftID cur_id]? with
        | none => (.error .out_of_bounds, [cur_id, LeftID cur_id])
        | some l =>
          if index - c.item < l.tree then
            ((IndexFromReads w fuel (index - c.item) (LeftID cur_id)).1,
              cur_id :: LeftID cur_id :: (IndexFromReads w fuel (index - c.item) (LeftID cur_id)).2)
          else
            ((IndexFromReads w fuel (index - c.item - l.tree) (LeftID cur_id + 1)).1,
              cur_id :: LeftID cur_id ::
                (IndexFromReads w fuel (index - c.item - l.tree) (LeftID cur_id + 1)).2)

/-- The node indices `Index(index)` reads, in order. -/
def IndexReads (ws : WeightedSet) (index : ℚ) : List Nat :=
  (IndexFromReads ws.weight (ws.weight.length + 1) index 0).2

end WeightedSet

/-! ## `double` arithmetic -/

/-- The integer nearest to `q`, the even one of the two when `q` lies half-way
between two integers. -/
def roundHalfEven (q : ℚ) : ℤ :=
  if q - ⌊q⌋ < 1 / 2 then ⌊q⌋
  else if 1 / 2 < q - ⌊q⌋ then ⌊q⌋ + 1
  else if ⌊q⌋ % 2 = 0 then ⌊q⌋ else ⌊q⌋ + 1

/-- The number of halvings that bring `n` below `2`, on `fuel` rounds. -/
def bitLength : Nat → Nat → Nat
  | 0, _ => 0
  | fuel + 1, n => if 2 ≤ n then bitLength fuel (n / 2) + 1 else 0

/-- The `r` with `2 ^ r ≤ n < 2 ^ (r + 1)`, for `n ≠ 0`. -/
def floorLog2 (n : Nat) : Nat := bitLength n n

/-- The binary exponent of `q ≠ 0`: the `e` with `2 ^ e ≤ |q| < 2 ^ (e + 1)`.
For `|q| = n / d` it is the difference of the exponents of `n` and `d`, or one
less. -/
def binaryExponent (q : ℚ) : ℤ :=
  if (2 : ℚ) ^ ((floorLog2 q.num.natAbs : ℤ) - (floorLog2 q.den : ℤ)) ≤ |q| then
    (floorLog2 q.num.natAbs : ℤ) - (floorLog2 q.den : ℤ)
  else (floorLog2 q.num.natAbs : ℤ) - (floorLog2 q.den : ℤ) - 1

/-- The `double` that an arithmetic operation with exact result `q` returns:
IEEE 754 binary64, round to nearest, ties to even.  A `double` has a 53-bit
significand, so in the binade of exponent `e` the representable values are the
multiples of `2 ^ (e - 52)`; below `2 ^ (-1022)` (subnormal values) the spacing
stays `2 ^ (-1074)`.  Overflow is not modelled: the value is the one IEEE 754
gives for every result of magnitude below `2 ^ 1024`. -/
def roundDouble (q : ℚ) : ℚ :=
  if q = 0 then 0
  else
    roundHalfEven (q / 2 ^ (max (binaryExponent q) (-1022) - 52))
      * 2 ^ (max (binaryExponent q) (-1022) - 52)

/-- The multiples of `2 ^ e`. -/
def OnGrid (e : ℤ) (q : ℚ) : Prop := ∃ k : ℤ, q = k * 2 ^ e

namespace WeightedSet

/-- The recursion of `int Index(double index, int cur_id)` with the result of
each of its two subtractions, `index -= cur_weight` and `index-left_weight`,
rounded by `rnd`; the comparisons of two `double` values are exact.  With
`rnd = roundDouble` this is the arithmetic of the compiled code, with `rnd`
the identity it is `IndexFrom`. -/
def IndexFromR (rnd : ℚ → ℚ) (w : List WeightInfo) : Nat → ℚ → Nat → Except Error Nat
  | 0, _, _ => .error .diverged
  | fuel + 1, index, cur_id =>
    match w[cur_id]? with
    | none => .error .out_of_bounds
    | some c =>
      if index < c.item then .ok cur_id
      else
        match w[LeftID cur_id]? with
        | none => .error .out_of_bounds
        | some l =>
          if rnd (index - c.item) < l.tree then
            IndexFromR rnd w fuel (rnd (index - c.item)) (LeftID cur_id)
          else
            IndexFromR rnd w fuel (rnd (rnd (index - c.item) - l.tree)) (LeftID cur_id + 1)

/-- Source: `int Index(double index, int cur_id=0)` called with the default
`cur_id`, in `double` arithmetic. -/
def IndexDouble (ws : WeightedSet) (index : ℚ) : Except Error Nat :=
  IndexFromR roundDouble ws.weight (ws.weight.length + 1) index 0

/-- Source: `weight[id].tree += d`, the sum rounded by `rnd`. -/
def addTreeR (rnd : ℚ → ℚ) (w : List WeightInfo) (id : Nat) (d : ℚ) :
    Except Error (List WeightInfo) :=
  match w[id]? with
  | none => .error .out_of_bounds
  | some wi => .ok (w.set id { wi with tree := rnd (wi.tree + d) })

/-- The loop `while (id > 0) { id = ParentID(id); weight[id].tree += weight_diff; }`
of `Adjust`, each sum rounded by `rnd`. -/
def adjustLoopR (rnd : ℚ → ℚ) (d : ℚ) : Nat → Nat → List WeightInfo → Except Error (List WeightInfo)
  | 0, id, w => if 0 < id then .error .diverged else .ok w
  | fuel + 1, id, w =>
    if 0 < id then
      match addTreeR rnd w (ParentID id) d with
      | .error e => .error e
      | .ok w1 => adjustLoopR rnd d fuel (ParentID id) w1
    else .ok w

/-- Source: `void Adjust(int id, const double new_weight)` with the result of
the subtraction `new_weight - weight[id].item` and of every `+=` rounded by
`rnd`: with `rnd = roundDouble` the arithmetic of the compiled code. -/
def AdjustR (rnd : ℚ → ℚ) (ws : WeightedSet) (id : Nat) (new_weight : ℚ) :
    Except Error WeightedSet :=
  match ws.weight[id]? with
  | none => .error .out_of_bounds
  | some wi =>
    let weight_diff := rnd (new_weight - wi.item)
    let w1 := ws.weight.set id { item := new_weight, tree := rnd (wi.tree + weight_diff) }
    match adjustLoopR rnd weight_diff id id w1 with
    | .error e => .error e
    | .ok w2 => .ok ⟨w2⟩

/-- A run of `Adjust` calls in the arithmetic of `rnd`, in order; it stops at
the first failing call. -/
def AdjustAllR (rnd : ℚ → ℚ) : WeightedSet → List (Nat × ℚ) → Except Error WeightedSet
  | ws, [] => .ok ws
  | ws, (id, nw) :: rest =>
    match AdjustR rnd ws id nw with
    | .error e => .error e
    | .ok ws1 => AdjustAllR rnd ws1 rest

/-- A state of capacity 5 with item weights `1 + 2^-52`, `2`, `3 * 2^-52`, `2`
and `1`; every item and subtree weight is a `double`. -/
def ulp5 : WeightedSet :=
  ⟨[{ item := 1 + 1 / 2 ^ 52, tree := 6 + 4 / 2 ^ 52 }, { item := 2, tree := 5 },
    { item := 3 / 2 ^ 52, tree := 3 / 2 ^ 52 }, { item := 2, tree := 2 },
    { item := 1, tree := 1 }]⟩

end WeightedSet

/-! ## Theorems -/

/-! ### `double` arithmetic -/

theorem roundHalfEven_intCast (m : ℤ) : roundHalfEven (m : ℚ) = m := by
  simp [roundHalfEven]

theorem bitLength_spec : ∀ (fuel n : Nat), n ≤ fuel → n ≠ 0 →
    2 ^ bitLength fuel n ≤ n ∧ n < 2 ^ (bitLength fuel n + 1) := by
  intro fuel
  induction fuel with
  | zero => intro n h h0; omega
  | succ fuel ih =>
    intro n h h0
    by_cases h2 : 2 ≤ n
    · simp only [bitLength, if_pos h2]
      obtain ⟨a, b⟩ := ih (n / 2) (by omega) (by omega)
      rw [Nat.pow_succ] at b ⊢
      rw [Nat.pow_succ]
      constructor <;> omega
    · simp only [bitLength, if_neg h2]
      constructor <;> omega

theorem floorLog2_spec (n : Nat) (h : n ≠ 0) :
    2 ^ floorLog2 n ≤ n ∧ n < 2 ^ (floorLog2 n + 1) :=
  bitLength_spec n n le_rfl h

/-- The binary exponent is the floor of the binary logarithm. -/
theorem binaryExponent_spec (q : ℚ) (hq : q ≠ 0) :
    (2 : ℚ) ^ binaryExponent q ≤ |q| ∧ |q| < 2 ^ (binaryExponent q + 1) := by
  have hn : q.num.natAbs ≠ 0 := by simpa using hq
  have hd : q.den ≠ 0 := q.den_nz
  have habs : |q| = (q.num.natAbs : ℚ) / (q.den : ℚ) := by
    conv_lhs => rw [← Rat.num_div_den q]
    rw [abs_div, Nat.abs_cast, Nat.cast_natAbs, Int.cast_abs]
  have hn1 : ((2 ^ floorLog2 q.num.natAbs : ℕ) : ℚ) ≤ (q.num.natAbs : ℚ) :=
    Nat.cast_le.2 (floorLog2_spec _ hn).1
  have hn2 : (q.num.natAbs : ℚ) < ((2 ^ (floorLog2 q.num.natAbs + 1) : ℕ) : ℚ) :=
    Nat.cast_lt.2 (floorLog2_spec _ hn).2
  have hd1 : ((2 ^ floorLog2 q.den : ℕ) : ℚ) ≤ (q.den : ℚ) :=
    Nat.cast_le.2 (floorLog2_spec _ hd).1
  have hd2 : (q.den : ℚ) < ((2 ^ (floorLog2 q.den + 1) : ℕ) : ℚ) :=
    Nat.cast_lt.2 (floorLog2_spec _ hd).2
  push_cast at hn1 hn2 hd1 hd2
  have hdpos : (0 : ℚ) < (q.den : ℚ) := by exact_mod_cast Nat.pos_of_ne_zero hd
  unfold binaryExponent
  split_ifs with h
  · refine ⟨h, ?_⟩
    rw [show (floorLog2 q.num.natAbs : ℤ) - (floorLog2 q.den : ℤ) + 1
        = ((floorLog2 q.num.natAbs + 1 : ℕ) : ℤ) - (floorLog2 q.den : ℤ) by push_cast; ring,
      zpow_sub₀ (by norm_num), zpow_natCast, zpow_natCast, habs,
      div_lt_div_iff₀ hdpos (by positivity)]
    calc (q.num.natAbs : ℚ) * 2 ^ floorLog2 q.den
        < 2 ^ (floorLog2 q.num.natAbs + 1) * 2 ^ floorLog2 q.den := by
          apply mul_lt_mul_of_pos_right hn2 (by positivity)
      _ ≤ 2 ^ (floorLog2 q.num.natAbs + 1) * (q.den : ℚ) := by
          apply mul_le_mul_of_nonneg_left hd1 (by positivity)
  · rw [sub_add_cancel]
    refine ⟨?_, not_le.1 h⟩
    rw [show (floorLog2 q.num.natAbs : ℤ) - (floorLog2 q.den : ℤ) - 1
        = (floorLog2 q.num.natAbs : ℤ) - ((floorLog2 q.den + 1 : ℕ) : ℤ) by push_cast; ring,
      zpow_sub₀ (by norm_num), zpow_natCast, zpow_natCast, habs,
      div_le_div_iff₀ (by positivity) hdpos]
    calc (2 : ℚ) ^ floorLog2 q.num.natAbs * (q.den : ℚ)
        ≤ 2 ^ floorLog2 q.num.natAbs * 2 ^ (floorLog2 q.den + 1) := by
          apply mul_le_mul_of_nonneg_left hd2.le (by positivity)
      _ ≤ (q.num.natAbs : ℚ) * 2 ^ (floorLog2 q.den + 1) := by
          apply mul_le_mul_of_nonneg_right hn1 (by positivity)

/-- A non-negative multiple of `2 ^ e` below `2 ^ (e + 53)`, for `e` no smaller
than the exponent `-1074` of the smallest `double`, is a `double`: rounding
leaves it unchanged. -/
theorem roundDouble_of_grid (e : ℤ) (he : -1074 ≤ e) (q : ℚ) (h0 : 0 ≤ q)
    (hq : q < 2 ^ (e + 53)) (hg : OnGrid e q) : roundDouble q = q := by
  rcases eq_or_lt_of_le h0 with h | hpos
  · simp [roundDouble, ← h]
  · obtain ⟨k, hk⟩ := hg
    have hE1 : (2 : ℚ) ^ binaryExponent q ≤ q := by
      have := (binaryExponent_spec q hpos.ne').1
      rwa [abs_of_pos hpos] at this
    have hlt : (2 : ℚ) ^ binaryExponent q < 2 ^ (e + 53) := lt_of_le_of_lt hE1 hq
    have hE : binaryExponent q < e + 53 := (zpow_lt_zpow_iff_right₀ (by norm_num)).1 hlt
    obtain ⟨n, hn⟩ : ∃ n : ℕ, e = max (binaryExponent q) (-1022) - 52 + n :=
      ⟨(e - (max (binaryExponent q) (-1022) - 52)).toNat, by omega⟩
    have h2 : (2 : ℚ) ^ (max (binaryExponent q) (-1022) - 52) ≠ 0 := zpow_ne_zero _ (by norm_num)
    have hdiv : q / 2 ^ (max (binaryExponent q) (-1022) - 52) = ((k * 2 ^ n : ℤ) : ℚ) := by
      rw [div_eq_iff h2]
      nth_rewrite 1 [hk, hn]
      rw [zpow_add₀ (by norm_num), zpow_natCast]
      push_cast
      ring
    unfold roundDouble
    rw [if_neg hpos.ne', hdiv, roundHalfEven_intCast, ← hdiv, div_mul_cancel₀ _ h2]

namespace WeightedSet

/-! ### Reading the weight vector after a write -/

theorem treeAt_set (w : List WeightInfo) (c : Nat) (x : WeightInfo) (hc : c < w.length) (i : Nat) :
    treeAt (w.set c x) i = if i = c then x.tree else treeAt w i := by
  unfold treeAt
  rw [List.getElem?_set]
  by_cases h : c = i
  · subst h; simp [hc]
  · have h2 : ¬ i = c := fun e => h e.symm
    simp [h, h2]

theorem itemAt_set (w : List WeightInfo) (c : Nat) (x : WeightInfo) (hc : c < w.length) (i : Nat) :
    itemAt (w.set c x) i = if i = c then x.item else itemAt w i := by
  unfold itemAt
  rw [List.getElem?_set]
  by_cases h : c = i
  · subst h; simp [hc]
  · have h2 : ¬ i = c := fun e => h e.symm
    simp [h, h2]

theorem treeAt_of_getElem? {w : List WeightInfo} {i : Nat} {x : WeightInfo} (h : w[i]? = some x) :
    treeAt w i = x.tree := by
  simp [treeAt, h]

theorem itemAt_of_getElem? {w : List WeightInfo} {i : Nat} {x : WeightInfo} (h : w[i]? = some x) :
    itemAt w i = x.item := by
  simp [itemAt, h]

theorem ParentID_lt {c : Nat} (h : 0 < c) : ParentID c < c := by
  unfold ParentID; omega

theorem child_iff_parent (i c : Nat) :
    (LeftID i = c ∨ RightID i = c) ↔ (0 < c ∧ i = ParentID c) := by
  unfold LeftID RightID ParentID; omega

theorem offBy_zero_iff (w : List WeightInfo) (d : ℚ) : OffBy w 0 d ↔ TreeInv ⟨w⟩ := by
  unfold OffBy TreeInv
  simp

theorem offBy_of_not_pos {w : List WeightInfo} {c : Nat} {d : ℚ} (hc : ¬ 0 < c)
    (h : OffBy w c d) : TreeInv ⟨w⟩ := by
  have : c = 0 := by omega
  subst this
  exact (offBy_zero_iff w d).1 h

/-- Adding `d` to the subtree weight of the parent of `c` moves the defect one
level up. -/
theorem offBy_step {w : List WeightInfo} {c : Nat} {d : ℚ} (hc : 0 < c) {x : WeightInfo}
    (hx : w[ParentID c]? = some x) (h : OffBy w c d) :
    OffBy (w.set (ParentID c) { x with tree := x.tree + d }) (ParentID c) d := by
  have hp : ParentID c < w.length := by
    rcases List.getElem?_eq_some.1 hx with ⟨hlt, _⟩; exact hlt
  intro i hi
  rw [List.length_set] at hi
  have hI := h i hi
  rw [treeAt_set w _ _ hp, itemAt_set w _ _ hp, treeAt_set w _ _ hp, treeAt_set w _ _ hp]
  have hL : LeftID i = ParentID c ↔ (0 < ParentID c ∧ i = ParentID (ParentID c) ∧ ParentID c % 2 = 1) := by
    unfold LeftID ParentID; omega
  have hR : RightID i = ParentID c ↔ (0 < ParentID c ∧ i = ParentID (ParentID c) ∧ ParentID c % 2 = 0) := by
    unfold RightID ParentID; omega
  have hxt := treeAt_of_getElem? hx
  have hxi := itemAt_of_getElem? hx
  by_cases hip : i = ParentID c
  · have h1 : ¬ (0 < ParentID c ∧ i = ParentID (ParentID c)) := by
      rintro ⟨a, b⟩
      have := ParentID_lt a
      omega
    have h2 : ¬ LeftID i = ParentID c := by unfold LeftID; omega
    have h3 : ¬ RightID i = ParentID c := by unfold RightID; omega
    have h4 : (0 < c ∧ i = ParentID c) := ⟨hc, hip⟩
    simp only [if_pos hip, if_neg h1, if_neg h2, if_neg h3, if_pos h4] at hI ⊢
    subst hip
    simp only [hxt, hxi] at hI
    simp only [add_zero]
    linarith
  · have h4 : ¬ (0 < c ∧ i = ParentID c) := fun a => hip a.2
    simp only [if_neg hip, if_neg h4, add_zero] at hI ⊢
    by_cases hch : 0 < ParentID c ∧ i = ParentID (ParentID c)
    · rw [if_pos hch]
      by_cases hpar : ParentID c % 2 = 1
      · have a : LeftID i = ParentID c := hL.2 ⟨hch.1, hch.2, hpar⟩
        have b : ¬ RightID i = ParentID c := by unfold LeftID RightID at *; omega
        rw [if_pos a, if_neg b]
        rw [a] at hI
        rw [hxt] at hI
        linarith
      · have b : RightID i = ParentID c := hR.2 ⟨hch.1, hch.2, by omega⟩
        have a : ¬ LeftID i = ParentID c := by unfold LeftID RightID at *; omega
        rw [if_pos b, if_neg a]
        rw [b] at hI
        rw [hxt] at hI
        linarith
    · have a : ¬ LeftID i = ParentID c := fun e => hch ⟨(hL.1 e).1, (hL.1 e).2.1⟩
      have b : ¬ RightID i = ParentID c := fun e => hch ⟨(hR.1 e).1, (hR.1 e).2.1⟩
      rw [if_neg hch, if_neg a, if_neg b]
      linarith

/-- The walk to the root succeeds on `c` rounds of fuel, keeps every item
weight and the length, and re-establishes the invariant. -/
theorem adjustLoop_spec (d : ℚ) :
    ∀ (fuel c : Nat) (w : List WeightInfo), c ≤ fuel → c < w.length → OffBy w c d →
      ∃ w2, adjustLoop d fuel c w = .ok w2 ∧ w2.length = w.length ∧
        (∀ i, itemAt w2 i = itemAt w i) ∧ TreeInv ⟨w2⟩ := by
  intro fuel
  induction fuel with
  | zero =>
    intro c w hcf _ h
    have hc0 : c = 0 := by omega
    subst hc0
    exact ⟨w, by simp [adjustLoop], rfl, fun _ => rfl, (offBy_zero_iff w d).1 h⟩
  | succ fuel ih =>
    intro c w hcf hcl h
    by_cases hc : 0 < c
    · have hp := ParentID_lt hc
      have hpl : ParentID c < w.length := by omega
      have hx : w[ParentID c]? = some w[ParentID c] := List.getElem?_eq_getElem hpl
      have hstep := offBy_step hc hx h
      obtain ⟨w2, e, hl, hit, hinv⟩ := ih (ParentID c) _ (by omega)
        (by rw [List.length_set]; exact hpl) hstep
      refine ⟨w2, ?_, ?_, ?_, hinv⟩
      · simp only [adjustLoop, if_pos hc, addTree, hx]
        exact e
      · rw [hl, List.length_set]
      · intro i
        rw [hit i, itemAt_set w _ _ hpl]
        by_cases hi : i = ParentID c
        · subst hi; simp [itemAt, hx]
        · simp [hi]
    · exact ⟨w, by simp [adjustLoop, hc], rfl, fun _ => rfl, offBy_of_not_pos hc h⟩

/-- The first write of `Adjust` (item weight and subtree weight of `id`)
leaves the invariant off by `d` at the parent of `id`. -/
theorem offBy_first {w : List WeightInfo} {id : Nat} {x : WeightInfo} (hx : w[id]? = some x)
    (nw : ℚ) (h : TreeInv ⟨w⟩) :
    OffBy (w.set id { item := nw, tree := x.tree + (nw - x.item) }) id (nw - x.item) := by
  have hp : id < w.length := by
    rcases List.getElem?_eq_some.1 hx with ⟨hlt, _⟩; exact hlt
  intro i hi
  rw [List.length_set] at hi
  have hI := h i hi
  simp only at hI
  rw [treeAt_set w _ _ hp, itemAt_set w _ _ hp, treeAt_set w _ _ hp, treeAt_set w _ _ hp]
  have hxt := treeAt_of_getElem? hx
  have hxi := itemAt_of_getElem? hx
  by_cases hip : i = id
  · have h1 : ¬ (0 < id ∧ i = ParentID id) := by
      rintro ⟨a, b⟩
      have := ParentID_lt a
      omega
    have h2 : ¬ LeftID i = id := by unfold LeftID; omega
    have h3 : ¬ RightID i = id := by unfold RightID; omega
    simp only [if_pos hip, if_neg h1, if_neg h2, if_neg h3]
    subst hip
    simp only [hxt, hxi] at hI
    linarith
  · simp only [if_neg hip]
    by_cases hch : 0 < id ∧ i = ParentID id
    · rw [if_pos hch]
      by_cases hpar : id % 2 = 1
      · have a : LeftID i = id := by unfold LeftID ParentID at *; omega
        have b : ¬ RightID i = id := by unfold LeftID RightID at *; omega
        rw [if_pos a, if_neg b]
        rw [a, hxt] at hI
        linarith
      · have b : RightID i = id := by unfold RightID ParentID at *; omega
        have a : ¬ LeftID i = id := by unfold LeftID RightID at *; omega
        rw [if_pos b, if_neg a]
        rw [b, hxt] at hI
        linarith
    · have a : ¬ LeftID i = id := fun e => hch ((child_iff_parent i id).1 (Or.inl e))
      have b : ¬ RightID i = id := fun e => hch ((child_iff_parent i id).1 (Or.inr e))
      rw [if_neg hch, if_neg a, if_neg b]
      linarith

/-- On an index inside the vector `Adjust` succeeds; it keeps the length and
the invariant, sets the item weight of `id` and no other item weight. -/
theorem Adjust_spec (ws : WeightedSet) (id : Nat) (nw : ℚ) (hid : id < ws.weight.length)
    (h : TreeInv ws) :
    ∃ ws2, Adjust ws id nw = .ok ws2 ∧ ws2.weight.length = ws.weight.length ∧
      (∀ i, itemAt ws2.weight i = if i = id then nw else itemAt ws.weight i) ∧ TreeInv ws2 := by
  have hx : ws.weight[id]? = some ws.weight[id] := List.getElem?_eq_getElem hid
  have h0 := offBy_first hx nw h
  obtain ⟨w2, e, hl, hit, hinv⟩ := adjustLoop_spec _ id id _ (le_refl _)
    (by rw [List.length_set]; exact hid) h0
  refine ⟨⟨w2⟩, ?_, ?_, ?_, hinv⟩
  · simp only [Adjust, hx, e]
  · simp only [hl, List.length_set]
  · intro i
    simp only [hit i]
    rw [itemAt_set _ _ _ hid]

theorem new_getElem? (cap i : Nat) :
    (new cap).weight[i]? = if i < cap then some { item := 0, tree := 0 } else none := by
  simp [new, List.getElem?_replicate]

theorem new_treeAt (cap i : Nat) : treeAt (new cap).weight i = 0 := by
  unfold treeAt
  rw [new_getElem?]
  split_ifs <;> rfl

theorem new_itemAt (cap i : Nat) : itemAt (new cap).weight i = 0 := by
  unfold itemAt
  rw [new_getElem?]
  split_ifs <;> rfl

theorem new_TreeInv (cap : Nat) : TreeInv (new cap) := by
  intro i _
  simp [new_treeAt, new_itemAt]

theorem AdjustAll_spec :
    ∀ (calls : List (Nat × ℚ)) (ws : WeightedSet), (∀ c ∈ calls, c.1 < ws.weight.length) →
      TreeInv ws →
      ∃ ws2, AdjustAll ws calls = .ok ws2 ∧ ws2.weight.length = ws.weight.length ∧ TreeInv ws2 := by
  intro calls
  induction calls with
  | nil => intro ws _ h; exact ⟨ws, rfl, rfl, h⟩
  | cons c rest ih =>
    intro ws hb h
    obtain ⟨id, nw⟩ := c
    obtain ⟨ws1, e1, hl1, _, hinv1⟩ := Adjust_spec ws id nw (hb (id, nw) (List.mem_cons_self _ _)) h
    obtain ⟨ws2, e2, hl2, hinv2⟩ := ih ws1
      (fun c hc => by rw [hl1]; exact hb c (List.mem_cons_of_mem _ hc)) hinv1
    exact ⟨ws2, by simp only [AdjustAll, e1, e2], by rw [hl2, hl1], hinv2⟩

/-- Claim C5 (sampler invariant).  A newly constructed `WeightedSet` of any
capacity has all item and subtree weights zero, and after any sequence of
`Adjust(id, w)` calls with `id < capacity` (every call succeeds) each node `i`
satisfies `tree[i] = item[i] + tree[2i+1] + tree[2i+2]`, a child index outside
the vector contributing zero. -/
theorem C5_sampler_invariant (capacity : Nat) (calls : List (Nat × ℚ))
    (hcalls : ∀ c ∈ calls, c.1 < capacity) :
    (∀ i, itemAt (new capacity).weight i = 0 ∧ treeAt (new capacity).weight i = 0) ∧
    ∃ ws, AdjustAll (new capacity) calls = .ok ws ∧ ws.weight.length = capacity ∧
      ∀ i, i < capacity →
        treeAt ws.weight i
          = itemAt ws.weight i + treeAt ws.weight (2 * i + 1) + treeAt ws.weight (2 * i + 2) := by
  refine ⟨fun i => ⟨new_itemAt _ _, new_treeAt _ _⟩, ?_⟩
  have hlen : (new capacity).weight.length = capacity := by simp [new]
  obtain ⟨ws, e, hl, hinv⟩ := AdjustAll_spec calls (new capacity)
    (fun c hc => by rw [hlen]; exact hcalls c hc) (new_TreeInv capacity)
  refine ⟨ws, e, by rw [hl, hlen], ?_⟩
  intro i hi
  exact hinv i (by rw [hl, hlen]; exact hi)

/-- Witness of claim C5: capacity 4, `Adjust(0, 1)`, `Adjust(1, 3)`, `Adjust(3, 1/2)`. -/
theorem C5_sampler_invariant_witness :
    (∀ i, itemAt (new 4).weight i = 0 ∧ treeAt (new 4).weight i = 0) ∧
    ∃ ws, AdjustAll (new 4) [(0, 1), (1, 3), (3, 1/2)] = .ok ws ∧ ws.weight.length = 4 ∧
      ∀ i, i < 4 →
        treeAt ws.weight i
          = itemAt ws.weight i + treeAt ws.weight (2 * i + 1) + treeAt ws.weight (2 * i + 2) :=
  C5_sampler_invariant 4 [(0, 1), (1, 3), (3, 1/2)] (by decide)

/-! ### `Index` and the root-first traversal -/

theorem preorder_sum (w : List WeightInfo) (h : TreeInv ⟨w⟩) :
    ∀ (fuel c : Nat), w.length - c ≤ fuel →
      ((preorder w.length fuel c).map (itemAt w)).sum = treeAt w c := by
  intro fuel
  induction fuel with
  | zero =>
    intro c hc
    have : w.length ≤ c := by omega
    simp [preorder, treeAt, List.getElem?_eq_none this]
  | succ fuel ih =>
    intro c hc
    by_cases hlt : c < w.length
    · have hL := ih (LeftID c) (by unfold LeftID; omega)
      have hR := ih (RightID c) (by unfold RightID; omega)
      have hI := h c hlt
      simp only at hI
      simp only [preorder, if_pos hlt, List.map_cons, List.map_append, List.sum_cons,
        List.sum_append, hL, hR]
      linarith
    · have : w.length ≤ c := by omega
      simp [preorder, hlt, treeAt, List.getElem?_eq_none this]

theorem preorder_lt (size : Nat) :
    ∀ (fuel c id : Nat), id ∈ preorder size fuel c → id < size ∧ c < size := by
  intro fuel
  induction fuel with
  | zero => intro c id h; simp [preorder] at h
  | succ fuel ih =>
    intro c id h
    by_cases hlt : c < size
    · simp only [preorder, if_pos hlt, List.mem_cons, List.mem_append] at h
      rcases h with h | h | h
      · subst h; exact ⟨hlt, hlt⟩
      · exact ⟨(ih _ _ h).1, hlt⟩
      · exact ⟨(ih _ _ h).1, hlt⟩
    · simp [preorder, hlt] at h

theorem weightBefore_cons_self (w : List WeightInfo) (c : Nat) (l : List Nat) :
    weightBefore w (c :: l) c = 0 := by
  simp [weightBefore, List.takeWhile]

theorem weightBefore_cons_ne (w : List WeightInfo) {c id : Nat} (l : List Nat) (h : c ≠ id) :
    weightBefore w (c :: l) id = itemAt w c + weightBefore w l id := by
  simp [weightBefore, List.takeWhile, h]

theorem takeWhile_ne_of_not_mem {id : Nat} :
    ∀ (l : List Nat), id ∉ l → l.takeWhile (fun j => decide (j ≠ id)) = l := by
  intro l
  induction l with
  | nil => intro _; rfl
  | cons a l ih =>
    intro h
    have ha : a ≠ id := fun e => h (by simp [e])
    have hl : id ∉ l := fun e => h (List.mem_cons_of_mem _ e)
    have hd : decide (a ≠ id) = true := decide_eq_true ha
    rw [List.takeWhile_cons, hd, if_pos rfl, ih hl]

theorem takeWhile_ne_append_of_mem {id : Nat} :
    ∀ (l r : List Nat), id ∈ l →
      (l ++ r).takeWhile (fun j => decide (j ≠ id)) = l.takeWhile (fun j => decide (j ≠ id)) := by
  intro l
  induction l with
  | nil => intro r h; simp at h
  | cons a l ih =>
    intro r h
    by_cases ha : a = id
    · have hd : decide (a ≠ id) = false := decide_eq_false (by simp [ha])
      rw [List.cons_append, List.takeWhile_cons, List.takeWhile_cons, hd]
      rfl
    · have hl : id ∈ l := by
        rcases List.mem_cons.1 h with e | e
        · exact absurd e.symm ha
        · exact e
      have hd : decide (a ≠ id) = true := decide_eq_true ha
      rw [List.cons_append, List.takeWhile_cons, List.takeWhile_cons, hd, if_pos rfl, if_pos rfl,
        ih r hl]

theorem weightBefore_append_left (w : List WeightInfo) {id : Nat} (l r : List Nat) (h : id ∈ l) :
    weightBefore w (l ++ r) id = weightBefore w l id := by
  unfold weightBefore
  rw [takeWhile_ne_append_of_mem l r h]

theorem weightBefore_append_right (w : List WeightInfo) {id : Nat} (l r : List Nat) (h : id ∉ l) :
    weightBefore w (l ++ r) id = (l.map (itemAt w)).sum + weightBefore w r id := by
  unfold weightBefore
  have : (l ++ r).takeWhile (fun j => decide (j ≠ id))
      = l ++ r.takeWhile (fun j => decide (j ≠ id)) := by
    rw [List.takeWhile_append, takeWhile_ne_of_not_mem l h]
    simp
  rw [this, List.map_append, List.sum_append]

/-- With non-negative item weights, the interval of a node ends inside the
total of the traversal it belongs to. -/
theorem weightBefore_add_le (w : List WeightInfo) (hnn : ∀ i, 0 ≤ itemAt w i) {id : Nat} :
    ∀ (l : List Nat), id ∈ l → weightBefore w l id + itemAt w id ≤ (l.map (itemAt w)).sum := by
  intro l
  induction l with
  | nil => intro h; simp at h
  | cons a l ih =>
    intro h
    by_cases ha : a = id
    · subst ha
      rw [weightBefore_cons_self, List.map_cons, List.sum_cons]
      have : 0 ≤ (l.map (itemAt w)).sum := List.sum_nonneg (by
        intro x hx
        obtain ⟨j, _, rfl⟩ := List.mem_map.1 hx
        exact hnn j)
      linarith
    · have hl : id ∈ l := by
        rcases List.mem_cons.1 h with e | e
        · exact absurd e.symm ha
        · exact e
      rw [weightBefore_cons_ne w l ha, List.map_cons, List.sum_cons]
      have := ih hl
      linarith

/-- The descent of `Index` from node `c` resolves every position of the
interval of `id`, measured inside the traversal of the subtree of `c`, to `id`. -/
theorem IndexFrom_preorder (w : List WeightInfo) (h : TreeInv ⟨w⟩) (hnn : ∀ i, 0 ≤ itemAt w i) :
    ∀ (fuel c g id : Nat) (x : ℚ), w.length - c ≤ fuel → w.length - c ≤ g →
      id ∈ preorder w.length fuel c →
      weightBefore w (preorder w.length fuel c) id ≤ x →
      x < weightBefore w (preorder w.length fuel c) id + itemAt w id →
      IndexFrom w g x c = .ok id := by
  intro fuel
  induction fuel with
  | zero => intro c g id x _ _ hm; simp [preorder] at hm
  | succ fuel ih =>
    intro c g id x hf hg hm hlo hhi
    have hc : c < w.length := (preorder_lt _ _ _ _ hm).2
    obtain ⟨g, rfl⟩ : ∃ g1, g = g1 + 1 := ⟨g - 1, by omega⟩
    have hwc : w[c]? = some w[c] := List.getElem?_eq_getElem hc
    have hic : itemAt w c = w[c].item := itemAt_of_getElem? hwc
    have hfL : w.length - LeftID c ≤ fuel := by unfold LeftID; omega
    have hfR : w.length - RightID c ≤ fuel := by unfold RightID; omega
    have hgL : w.length - LeftID c ≤ g := by unfold LeftID; omega
    have hgR : w.length - RightID c ≤ g := by unfold RightID; omega
    simp only [preorder, if_pos hc] at hm hlo hhi
    have hwb : ∀ l : List Nat, 0 ≤ weightBefore w l id := fun l =>
      List.sum_nonneg (by
        intro y hy
        obtain ⟨j, _, rfl⟩ := List.mem_map.1 hy
        exact hnn j)
    have hwbL := hwb (preorder w.length fuel (LeftID c))
    have hwbR := hwb (preorder w.length fuel (RightID c))
    by_cases hid : c = id
    · subst hid
      rw [weightBefore_cons_self] at hhi
      have : x < w[c].item := by rw [← hic]; linarith
      simp only [IndexFrom, hwc, if_pos this]
    · rw [weightBefore_cons_ne w _ hid] at hlo hhi
      have hm2 : id ∈ preorder w.length fuel (LeftID c) ++ preorder w.length fuel (RightID c) := by
        rcases List.mem_cons.1 hm with e | e
        · exact absurd e.symm hid
        · exact e
      by_cases hinL : id ∈ preorder w.length fuel (LeftID c)
      · have hl : LeftID c < w.length := (preorder_lt _ _ _ _ hinL).2
        have hwl : w[LeftID c]? = some w[LeftID c] := List.getElem?_eq_getElem hl
        have htl : treeAt w (LeftID c) = w[LeftID c].tree := treeAt_of_getElem? hwl
        rw [weightBefore_append_left w _ _ hinL] at hlo hhi
        have hle := weightBefore_add_le w hnn _ hinL
        rw [preorder_sum w h fuel (LeftID c) hfL, htl] at hle
        have hnot : ¬ x < w[c].item := by rw [← hic]; linarith
        have hgo : x - w[c].item < w[LeftID c].tree := by rw [← hic]; linarith
        simp only [IndexFrom, hwc, if_neg hnot, hwl, if_pos hgo]
        exact ih (LeftID c) g id _ hfL hgL hinL (by rw [← hic]; linarith) (by rw [← hic]; linarith)
      · have hinR : id ∈ preorder w.length fuel (RightID c) := by
          rcases List.mem_append.1 hm2 with e | e
          · exact absurd e hinL
          · exact e
        have hr : RightID c < w.length := (preorder_lt _ _ _ _ hinR).2
        have hl : LeftID c < w.length := by unfold LeftID RightID at *; omega
        have hwl : w[LeftID c]? = some w[LeftID c] := List.getElem?_eq_getElem hl
        have htl : treeAt w (LeftID c) = w[LeftID c].tree := treeAt_of_getElem? hwl
        rw [weightBefore_append_right w _ _ hinL, preorder_sum w h fuel (LeftID c) hfL, htl]
          at hlo hhi
        have htn : 0 ≤ w[LeftID c].tree := by
          rw [← htl, ← preorder_sum w h fuel (LeftID c) hfL]
          exact List.sum_nonneg (by
            intro y hy
            obtain ⟨j, _, rfl⟩ := List.mem_map.1 hy
            exact hnn j)
        have hnot : ¬ x < w[c].item := by rw [← hic]; linarith
        have hgo : ¬ x - w[c].item < w[LeftID c].tree := by rw [← hic]; linarith
        simp only [IndexFrom, hwc, if_neg hnot, hwl, if_neg hgo]
        have hRL : LeftID c + 1 = RightID c := rfl
        rw [hRL]
        exact ih (RightID c) g id _ hfR hgR hinR (by rw [← hic]; linarith)
          (by rw [← hic]; linarith)

theorem preorder_children (size : Nat) :
    ∀ (fuel c p : Nat), size - c ≤ fuel → p ∈ preorder size fuel c →
      (LeftID p < size → LeftID p ∈ preorder size fuel c) ∧
      (RightID p < size → RightID p ∈ preorder size fuel c) := by
  intro fuel
  induction fuel with
  | zero => intro c p _ h; simp [preorder] at h
  | succ fuel ih =>
    intro c p hf h
    have hc : c < size := (preorder_lt _ _ _ _ h).2
    have hfL : size - LeftID c ≤ fuel := by unfold LeftID; omega
    have hfR : size - RightID c ≤ fuel := by unfold RightID; omega
    have head : ∀ j, j < size → size - j ≤ fuel → j ∈ preorder size fuel j := by
      intro j hj hjf
      obtain ⟨f1, rfl⟩ : ∃ f1, fuel = f1 + 1 := ⟨fuel - 1, by omega⟩
      simp [preorder, hj]
    simp only [preorder, if_pos hc, List.mem_cons, List.mem_append] at h ⊢
    rcases h with h | h | h
    · subst h
      exact ⟨fun hl => Or.inr (Or.inl (head _ hl hfL)), fun hr => Or.inr (Or.inr (head _ hr hfR))⟩
    · have := ih _ _ hfL h
      exact ⟨fun hl => Or.inr (Or.inl (this.1 hl)), fun hr => Or.inr (Or.inl (this.2 hr))⟩
    · have := ih _ _ hfR h
      exact ⟨fun hl => Or.inr (Or.inr (this.1 hl)), fun hr => Or.inr (Or.inr (this.2 hr))⟩

/-- Every node of the vector is visited by the traversal from the root. -/
theorem mem_preorder_root (size : Nat) : ∀ id, id < size → id ∈ preorder size size 0 := by
  intro id
  induction id using Nat.strong_induction_on with
  | _ id ih =>
    intro hid
    by_cases h0 : id = 0
    · subst h0
      obtain ⟨s1, rfl⟩ : ∃ s1, size = s1 + 1 := ⟨size - 1, by omega⟩
      simp [preorder]
    · have hp : ParentID id < id := ParentID_lt (by omega)
      have hmem := ih (ParentID id) hp (by omega)
      have hch := preorder_children size size 0 (ParentID id) (by omega) hmem
      have : LeftID (ParentID id) = id ∨ RightID (ParentID id) = id :=
        (child_iff_parent (ParentID id) id).2 ⟨by omega, rfl⟩
      rcases this with e | e
      · have := hch.1 (by rw [e]; exact hid)
        rwa [e] at this
      · have := hch.2 (by rw [e]; exact hid)
        rwa [e] at this

/-! ### `Index` in `double` arithmetic -/

theorem IndexFromR_id (w : List WeightInfo) :
    ∀ (fuel : Nat) (x : ℚ) (c : Nat), IndexFromR id w fuel x c = IndexFrom w fuel x c := by
  intro fuel
  induction fuel with
  | zero => intro x c; rfl
  | succ fuel ih =>
    intro x c
    simp only [IndexFromR, IndexFrom, id, ih]

/-- The rounded descent is the exact one when `rnd` leaves unchanged every
value of a set `G` between `0` and the position asked for, `G` holding the
position and the weights and being closed under subtraction: every difference
the descent computes is then exact. -/
theorem IndexFromR_exact (rnd : ℚ → ℚ) (w : List WeightInfo) (G : ℚ → Prop) (X : ℚ)
    (hsub : ∀ a b, G a → G b → G (a - b))
    (hw : ∀ i, G (itemAt w i) ∧ G (treeAt w i) ∧ 0 ≤ itemAt w i ∧ 0 ≤ treeAt w i)
    (hr : ∀ q, 0 ≤ q → q ≤ X → G q → rnd q = q) :
    ∀ (fuel : Nat) (x : ℚ) (c : Nat), G x → x ≤ X →
      IndexFromR rnd w fuel x c = IndexFrom w fuel x c := by
  intro fuel
  induction fuel with
  | zero => intro x c _ _; rfl
  | succ fuel ih =>
    intro x c hgx hxX
    cases hc : w[c]? with
    | none => simp only [IndexFromR, IndexFrom, hc]
    | some wc =>
      have hic : itemAt w c = wc.item := itemAt_of_getElem? hc
      by_cases h1 : x < wc.item
      · simp only [IndexFromR, IndexFrom, hc, if_pos h1]
      · cases hl : w[LeftID c]? with
        | none => simp only [IndexFromR, IndexFrom, hc, if_neg h1, hl]
        | some wl =>
          have htl : treeAt w (LeftID c) = wl.tree := treeAt_of_getElem? hl
          obtain ⟨gi, _, ni, _⟩ := hw c
          obtain ⟨_, gt, _, nt⟩ := hw (LeftID c)
          rw [hic] at gi ni
          rw [htl] at gt nt
          have hg1 : G (x - wc.item) := hsub _ _ hgx gi
          have hx1 : x - wc.item ≤ X := by linarith
          have e1 : rnd (x - wc.item) = x - wc.item := hr _ (by linarith) hx1 hg1
          by_cases h2 : x - wc.item < wl.tree
          · simp only [IndexFromR, IndexFrom, hc, if_neg h1, hl, e1, if_pos h2]
            exact ih _ _ hg1 hx1
          · have hg2 : G (x - wc.item - wl.tree) := hsub _ _ hg1 gt
            have hx2 : x - wc.item - wl.tree ≤ X := by linarith
            have e2 : rnd (x - wc.item - wl.tree) = x - wc.item - wl.tree :=
              hr _ (by linarith) hx2 hg2
            simp only [IndexFromR, IndexFrom, hc, if_neg h1, hl, e1, if_neg h2, e2]
            exact ih _ _ hg2 hx2

theorem OnGrid_sub (e : ℤ) (a b : ℚ) (ha : OnGrid e a) (hb : OnGrid e b) : OnGrid e (a - b) := by
  obtain ⟨k, rfl⟩ := ha
  obtain ⟨j, rfl⟩ := hb
  exact ⟨k - j, by push_cast; ring⟩

theorem treeAt_nonneg (w : List WeightInfo) (h : TreeInv ⟨w⟩) (hnn : ∀ i, 0 ≤ itemAt w i)
    (i : Nat) : 0 ≤ treeAt w i := by
  by_cases hi : i < w.length
  · rw [← preorder_sum w h w.length i (by omega)]
    exact List.sum_nonneg (by
      intro y hy
      obtain ⟨j, _, rfl⟩ := List.mem_map.1 hy
      exact hnn j)
  · have : w[i]? = none := List.getElem?_eq_none (by omega)
    simp [treeAt, this]

/-- Counterexample to claim C6 as stated, which is not limited to exact
arithmetic.  The state of capacity 5 with item weights `1 + 2^-52`, `2`,
`3 * 2^-52`, `2`, `1` is reached by five `Adjust` calls (in `double` arithmetic
as in exact arithmetic), satisfies the sampler invariant exactly and holds
`double` values only.  The position `5.0` lies in
the interval of id 3, which starts at `3 + 2^-52`.  In `double` arithmetic the
first subtraction, `5 - (1 + 2^-52)`, is a tie and rounds to `4`; the descent
then finds `4 - 2 = 2` not below the subtree weight `2` of node 3 and returns
id 4.  In exact arithmetic the descent returns id 3. -/
theorem C6_index_rounding_counterexample :
    AdjustAllR roundDouble (new 5)
      [(2, 3 / 2 ^ 52), (0, 1 + 1 / 2 ^ 52), (1, 2), (3, 2), (4, 1)] = .ok ulp5 ∧
    AdjustAll (new 5) [(2, 3 / 2 ^ 52), (0, 1 + 1 / 2 ^ 52), (1, 2), (3, 2), (4, 1)]
      = .ok ulp5 ∧
    TreeInv ulp5 ∧
    (∀ wi ∈ ulp5.weight,
      0 ≤ wi.item ∧ roundDouble wi.item = wi.item ∧ roundDouble wi.tree = wi.tree) ∧
    roundDouble 5 = 5 ∧
    0 < itemAt ulp5.weight 3 ∧ cumulative_start ulp5 3 = 3 + 1 / 2 ^ 52 ∧
    cumulative_start ulp5 3 ≤ 5 ∧ 5 < cumulative_start ulp5 3 + itemAt ulp5.weight 3 ∧
    roundDouble (5 - (1 + 1 / 2 ^ 52)) = 4 ∧
    IndexDouble ulp5 5 = .ok 4 ∧ Index ulp5 5 = .ok 3 := by
  refine ⟨by decide!, by decide!, ?_, by decide!, by decide!, by decide!, by decide!, by decide!,
    by decide!, by decide!, by decide!, by decide!⟩
  unfold TreeInv
  decide!

/-- Claim C6, as amended (sampler index correctness).  In a state that satisfies
the sampler invariant and has no negative item weight, take an `id` of positive
item weight and an `x` with
`cumulative_start(id) ≤ x < cumulative_start(id) + item_weight[id]`, where
`cumulative_start(id)` sums the item weights of the nodes that the root-first
traversal visits before `id`.  In exact arithmetic `Index(x)` returns `id`.
In `double` arithmetic `Index(x)` returns `id` whenever `x` and all item and
subtree weights are multiples of one power of two `2 ^ e` (no smaller than
the smallest `double`, `2 ^ (-1074)`) with `x < 2 ^ (e + 53) ≤ 2 ^ 1024`:
every subtraction of the descent is then exact. -/
theorem C6_index_correct (ws : WeightedSet) (hinv : TreeInv ws)
    (hnn : ∀ i, 0 ≤ itemAt ws.weight i) (id : Nat) (hpos : 0 < itemAt ws.weight id) (x : ℚ)
    (hlo : cumulative_start ws id ≤ x)
    (hhi : x < cumulative_start ws id + itemAt ws.weight id) :
    Index ws x = .ok id ∧
    ∀ e : ℤ, -1074 ≤ e → e ≤ 971 → x < 2 ^ (e + 53) → OnGrid e x →
      (∀ i, OnGrid e (itemAt ws.weight i) ∧ OnGrid e (treeAt ws.weight i)) →
      IndexDouble ws x = .ok id := by
  have hid : id < ws.weight.length := by
    by_contra hge
    have : ws.weight[id]? = none := List.getElem?_eq_none (by omega)
    simp [itemAt, this] at hpos
  have hexact : Index ws x = .ok id := by
    unfold Index
    exact IndexFrom_preorder ws.weight hinv hnn ws.weight.length 0 _ id x (by omega) (by omega)
      (mem_preorder_root _ id hid) hlo hhi
  refine ⟨hexact, ?_⟩
  intro e he _ hx hgx hgw
  unfold IndexDouble
  rw [IndexFromR_exact roundDouble ws.weight (OnGrid e) x (OnGrid_sub e)
    (fun i => ⟨(hgw i).1, (hgw i).2, hnn i, treeAt_nonneg ws.weight hinv hnn i⟩)
    (fun q h0 hq hg => roundDouble_of_grid e he q h0 (lt_of_le_of_lt hq hx) hg)
    _ x 0 hgx le_rfl]
  exact hexact

theorem sample4_TreeInv : TreeInv sample4 := by
  unfold TreeInv
  decide!

theorem sample4_nonneg : ∀ i, 0 ≤ itemAt sample4.weight i := by
  intro i
  by_cases h : i < 4
  · interval_cases i <;> decide!
  · have : sample4.weight[i]? = none := List.getElem?_eq_none (by simp [sample4]; omega)
    simp [itemAt, this]

/-- Every weight of `sample4` is a multiple of `1 / 2`. -/
theorem sample4_grid :
    ∀ i, OnGrid (-1) (itemAt sample4.weight i) ∧ OnGrid (-1) (treeAt sample4.weight i) := by
  intro i
  by_cases h : i < 4
  · interval_cases i
    · exact ⟨⟨2, by decide!⟩, ⟨8, by decide!⟩⟩
    · exact ⟨⟨6, by decide!⟩, ⟨6, by decide!⟩⟩
    · exact ⟨⟨0, by decide!⟩, ⟨0, by decide!⟩⟩
    · exact ⟨⟨0, by decide!⟩, ⟨0, by decide!⟩⟩
  · have : sample4.weight[i]? = none := List.getElem?_eq_none (by simp [sample4]; omega)
    exact ⟨⟨0, by simp [itemAt, this]⟩, ⟨0, by simp [treeAt, this]⟩⟩

/-- Witness of claim C6, the scenario of the specification: capacity 4,
`Adjust(0, 1.0)`, `Adjust(1, 3.0)`; then `Index(0.5) = 0` and `Index(1.5) = 1`,
in exact and in `double` arithmetic (all the values are multiples of `1 / 2`). -/
theorem C6_index_correct_witness :
    AdjustAll (new 4) [(0, 1), (1, 3)] = .ok sample4 ∧
    TreeInv sample4 ∧ cumulative_start sample4 0 = 0 ∧ cumulative_start sample4 1 = 1 ∧
    (Index sample4 (1 / 2) = .ok 0 ∧ IndexDouble sample4 (1 / 2) = .ok 0) ∧
    (Index sample4 (3 / 2) = .ok 1 ∧ IndexDouble sample4 (3 / 2) = .ok 1) :=
  ⟨by decide!, sample4_TreeInv, by decide!, by decide!,
    ⟨(C6_index_correct sample4 sample4_TreeInv sample4_nonneg 0 (by decide!) (1 / 2)
        (by decide!) (by decide!)).1,
      (C6_index_correct sample4 sample4_TreeInv sample4_nonneg 0 (by decide!) (1 / 2)
        (by decide!) (by decide!)).2 (-1) (by decide) (by decide) (by decide!) ⟨1, by decide!⟩
        sample4_grid⟩,
    ⟨(C6_index_correct sample4 sample4_TreeInv sample4_nonneg 1 (by decide!) (3 / 2)
        (by decide!) (by decide!)).1,
      (C6_index_correct sample4 sample4_TreeInv sample4_nonneg 1 (by decide!) (3 / 2)
        (by decide!) (by decide!)).2 (-1) (by decide) (by decide) (by decide!) ⟨3, by decide!⟩
        sample4_grid⟩⟩

end WeightedSet

/-! ### `std::unordered_map` -/

namespace UMap

variable {K V : Type}

theorem keys_cons (k1 : K) (v : V) (m : UMap K V) :
    keys ((k1, v) :: m : UMap K V) = k1 :: keys m := rfl

theorem size_eq_length_keys (m : UMap K V) : m.size = m.keys.length := by
  simp [size, keys]

variable [DecidableEq K]

theorem find_nil (k : K) : find ([] : UMap K V) k = none := rfl

theorem find_cons (k1 : K) (v : V) (m : UMap K V) (k : K) :
    find ((k1, v) :: m : UMap K V) k = if k1 = k then some v else find m k := rfl

theorem find_eq_none_iff (m : UMap K V) (k : K) : m.find k = none ↔ k ∉ m.keys := by
  induction m with
  | nil => simp [find, keys, entries]
  | cons e m ih =>
    obtain ⟨k1, v⟩ := e
    rw [find_cons, keys_cons]
    by_cases h : k1 = k
    · simp [h]
    · have h2 : ¬ k = k1 := fun e => h e.symm
      simp [h, h2, ih]

theorem find_isSome_iff (m : UMap K V) (k : K) : (m.find k).isSome = true ↔ k ∈ m.keys := by
  rw [← not_iff_not, ← find_eq_none_iff]
  cases m.find k <;> simp

theorem assign_cons (k1 : K) (v1 : V) (m : UMap K V) (k : K) (v : V) :
    assign ((k1, v1) :: m : UMap K V) k v
      = if k1 = k then ((k, v) :: m : UMap K V) else ((k1, v1) :: assign m k v : UMap K V) := rfl

theorem erase_cons (k1 : K) (v1 : V) (m : UMap K V) (k : K) :
    erase ((k1, v1) :: m : UMap K V) k
      = if k1 = k then erase m k else ((k1, v1) :: erase m k : UMap K V) := by
  unfold erase entries
  by_cases h : k1 = k <;> simp [List.filter_cons, h]

theorem find_assign (m : UMap K V) (k : K) (v : V) (k2 : K) :
    (m.assign k v).find k2 = if k2 = k then some v else m.find k2 := by
  induction m with
  | nil =>
    show find ([(k, v)] : UMap K V) k2 = _
    rw [find_cons, find_nil]
    by_cases h : k = k2
    · simp [h]
    · have h2 : ¬ k2 = k := fun e => h e.symm
      simp [h, h2]
  | cons e m ih =>
    obtain ⟨k1, v1⟩ := e
    rw [assign_cons]
    by_cases h1 : k1 = k
    · rw [if_pos h1, find_cons, find_cons]
      by_cases h : k = k2
      · have h3 : k1 = k2 := h1.trans h
        simp [h]
      · have h2 : ¬ k2 = k := fun e => h e.symm
        have h3 : ¬ k1 = k2 := fun e => h (h1.symm.trans e)
        simp [h, h2, h3]
    · rw [if_neg h1, find_cons, find_cons, ih]
      by_cases h : k1 = k2
      · have : ¬ k2 = k := fun e => h1 (h.trans e)
        simp [h, this]
      · simp [h]

theorem assign_of_not_mem (m : UMap K V) (k : K) (v : V) (h : k ∉ m.keys) :
    m.assign k v = (m.entries ++ [(k, v)] : List (K × V)) := by
  induction m with
  | nil => rfl
  | cons e m ih =>
    obtain ⟨k1, v1⟩ := e
    rw [keys_cons] at h
    have h1 : ¬ k1 = k := fun e => h (by simp [e])
    have h2 : k ∉ keys m := fun e => h (List.mem_cons_of_mem _ e)
    simp only [assign, if_neg h1]
    rw [ih h2]
    rfl

theorem keys_assign_of_not_mem (m : UMap K V) (k : K) (v : V) (h : k ∉ m.keys) :
    (m.assign k v).keys = m.keys ++ [k] := by
  rw [assign_of_not_mem m k v h]
  simp [keys, entries]

theorem size_assign_of_not_mem (m : UMap K V) (k : K) (v : V) (h : k ∉ m.keys) :
    (m.assign k v).size = m.size + 1 := by
  rw [assign_of_not_mem m k v h]
  simp [size, entries]

theorem keys_assign_of_mem (m : UMap K V) (k : K) (v : V) (h : k ∈ m.keys) :
    (m.assign k v).keys = m.keys := by
  induction m with
  | nil => simp [keys, entries] at h
  | cons e m ih =>
    obtain ⟨k1, v1⟩ := e
    by_cases h1 : k1 = k
    · rw [assign_cons, if_pos h1, keys_cons, keys_cons, h1]
    · rw [keys_cons] at h
      have h2 : k ∈ keys m := by
        rcases List.mem_cons.1 h with e | e
        · exact absurd e.symm h1
        · exact e
      rw [assign_cons, if_neg h1, keys_cons, keys_cons, ih h2]

theorem mem_keys_assign (m : UMap K V) (k : K) (v : V) (k2 : K) :
    k2 ∈ (m.assign k v).keys ↔ k2 = k ∨ k2 ∈ m.keys := by
  rw [← find_isSome_iff, find_assign, ← find_isSome_iff]
  by_cases h : k2 = k <;> simp [h]

theorem WF_assign (m : UMap K V) (k : K) (v : V) (h : m.WF) : (m.assign k v).WF := by
  unfold WF at *
  by_cases hk : k ∈ m.keys
  · rw [keys_assign_of_mem m k v hk]; exact h
  · rw [keys_assign_of_not_mem m k v hk]
    exact List.Nodup.append h (List.nodup_singleton k) (by
      intro a ha hb
      rw [List.mem_singleton] at hb
      exact hk (hb ▸ ha))

theorem keys_erase (m : UMap K V) (k : K) :
    (m.erase k).keys = m.keys.filter (fun a => decide (a ≠ k)) := by
  induction m with
  | nil => rfl
  | cons e m ih =>
    obtain ⟨k1, v1⟩ := e
    rw [erase_cons, keys_cons, List.filter_cons]
    by_cases h : k1 = k
    · have hd : decide (k1 ≠ k) = false := decide_eq_false (by simp [h])
      rw [if_pos h, hd, ih]
      rfl
    · have hd : decide (k1 ≠ k) = true := decide_eq_true h
      rw [if_neg h, hd, keys_cons, ih]
      rfl

theorem find_erase (m : UMap K V) (k k2 : K) :
    (m.erase k).find k2 = if k2 = k then none else m.find k2 := by
  induction m with
  | nil =>
    show find ([] : UMap K V) k2 = _
    simp [find_nil]
  | cons e m ih =>
    obtain ⟨k1, v1⟩ := e
    rw [erase_cons, find_cons]
    by_cases h : k1 = k
    · rw [if_pos h, ih]
      by_cases h2 : k2 = k
      · simp [h2]
      · have : ¬ k1 = k2 := fun e => h2 (e ▸ h)
        simp [h2, this]
    · rw [if_neg h, find_cons, ih]
      by_cases h2 : k2 = k
      · have : ¬ k1 = k2 := fun e => h (e.trans h2)
        simp [h2, this, h]
      · simp [h2]

theorem erase_of_not_mem (m : UMap K V) (k : K) (h : k ∉ m.keys) : m.erase k = m := by
  unfold erase entries
  apply List.filter_eq_self.2
  intro e he
  have : e.1 ∈ m.keys := List.mem_map_of_mem Prod.fst he
  exact decide_eq_true (fun eq => h (eq ▸ this))

theorem WF_erase (m : UMap K V) (k : K) (h : m.WF) : (m.erase k).WF := by
  unfold WF at *
  rw [keys_erase]
  exact h.filter _

theorem mem_keys_erase (m : UMap K V) (k k2 : K) :
    k2 ∈ (m.erase k).keys ↔ k2 ≠ k ∧ k2 ∈ m.keys := by
  rw [keys_erase, List.mem_filter]
  simp [and_comm]

theorem atKey_eq_ok_iff (m : UMap K V) (k : K) (v : V) : m.atKey k = .ok v ↔ m.find k = some v := by
  unfold atKey
  cases m.find k <;> simp

theorem atKey_eq_error_iff (m : UMap K V) (k : K) (e : Error) :
    m.atKey k = .error e ↔ (m.find k = none ∧ e = .out_of_range) := by
  unfold atKey
  cases m.find k <;> simp [eq_comm]

end UMap

/-! ### `MatchBin::Put` -/

namespace MatchBin

variable {Val Tag : Type}

theorem cyc_eq_orig_iff (N orig k : Nat) (ho : orig < N) (h1 : 1 ≤ k) (h2 : k ≤ N) :
    (orig + k) % N = orig ↔ k = N := by
  constructor
  · intro h
    by_contra hne
    by_cases hlt : orig + k < N
    · rw [Nat.mod_eq_of_lt hlt] at h; omega
    · have e : (orig + k) % N = orig + k - N := by
        rw [Nat.mod_eq_sub_mod (by omega)]
        exact Nat.mod_eq_of_lt (by omega)
      rw [e] at h; omega
  · intro h
    subst h
    rw [Nat.add_mod_right]
    exact Nat.mod_eq_of_lt ho

/-- Every identifier of the space is reached from `orig` in at most `N` steps. -/
theorem cyc_surj (N orig id : Nat) (ho : orig < N) (hi : id < N) :
    ∃ k, 1 ≤ k ∧ k ≤ N ∧ (orig + k) % N = id := by
  by_cases h : orig < id
  · exact ⟨id - orig, by omega, by omega, by
      have : orig + (id - orig) = id := by omega
      rw [this]; exact Nat.mod_eq_of_lt hi⟩
  · refine ⟨id + N - orig, by omega, by omega, ?_⟩
    have : orig + (id + N - orig) = id + N := by omega
    rw [this, Nat.add_mod_right]
    exact Nat.mod_eq_of_lt hi

/-- The loop of `Put`, `j` steps away from `orig` with all identifiers passed
so far occupied: it stops at the first free identifier, or it comes back to
`orig` having found every identifier occupied. -/
theorem putLoop_spec (w : Nat) (values : UMap Nat Val) (orig : Nat) (ho : orig < 2 ^ w) :
    ∀ (fuel j : Nat), j + fuel = 2 ^ w → 0 < fuel →
      (∀ k, 1 ≤ k → k ≤ j → values.find ((orig + k) % 2 ^ w) ≠ none) →
      (∃ k, j < k ∧ k ≤ 2 ^ w ∧ values.find ((orig + k) % 2 ^ w) = none ∧
          (∀ k2, 1 ≤ k2 → k2 < k → values.find ((orig + k2) % 2 ^ w) ≠ none) ∧
          putLoop w values orig fuel ((orig + j) % 2 ^ w) = (none, (orig + k) % 2 ^ w)) ∨
      ((∀ k, 1 ≤ k → k ≤ 2 ^ w → values.find ((orig + k) % 2 ^ w) ≠ none) ∧
        putLoop w values orig fuel ((orig + j) % 2 ^ w) = (some .container_full, orig)) := by
  intro fuel
  induction fuel with
  | zero => intro j _ h; omega
  | succ fuel ih =>
    intro j hj _ hocc
    have hs1 : ((orig + j) % 2 ^ w + 1) % 2 ^ w = (orig + (j + 1)) % 2 ^ w := by
      rw [Nat.mod_add_mod]; rfl
    cases hfind : values.find ((orig + (j + 1)) % 2 ^ w) with
    | none =>
      left
      refine ⟨j + 1, by omega, by omega, hfind, ?_, ?_⟩
      · intro k2 h1 h2
        exact hocc k2 h1 (by omega)
      · simp only [putLoop, hs1, hfind]
    | some x =>
      have hocc2 : ∀ k, 1 ≤ k → k ≤ j + 1 → values.find ((orig + k) % 2 ^ w) ≠ none := by
        intro k h1 h2
        by_cases hk : k = j + 1
        · subst hk; rw [hfind]; simp
        · exact hocc k h1 (by omega)
      by_cases hback : (orig + (j + 1)) % 2 ^ w = orig
      · right
        have hN : j + 1 = 2 ^ w := (cyc_eq_orig_iff _ _ _ ho (by omega) (by omega)).1 hback
        refine ⟨fun k h1 h2 => hocc2 k h1 (by omega), ?_⟩
        have hfind2 := hfind
        rw [hback] at hfind2
        simp only [putLoop, hs1, hback, hfind2, if_true]
      · have hN : j + 1 ≠ 2 ^ w := fun e =>
          hback ((cyc_eq_orig_iff _ _ _ ho (by omega) (by omega)).2 e)
        have hstep : putLoop w values orig (fuel + 1) ((orig + j) % 2 ^ w)
            = putLoop w values orig fuel ((orig + (j + 1)) % 2 ^ w) := by
          simp only [putLoop, hs1, hfind, if_neg hback]
        rw [hstep]
        rcases ih (j + 1) (by omega) (by omega) hocc2 with ⟨k, a, b, c, d, e⟩ | ⟨a, b⟩
        · exact Or.inl ⟨k, by omega, b, c, d, e⟩
        · exact Or.inr ⟨a, b⟩

/-- Whatever the fuel, an identifier the loop stops at without an exception is free. -/
theorem putLoop_none (w : Nat) (values : UMap Nat Val) (orig : Nat) :
    ∀ (fuel s u : Nat), putLoop w values orig fuel s = (none, u) → values.find u = none := by
  intro fuel
  induction fuel with
  | zero => intro s u h; simp [putLoop] at h
  | succ fuel ih =>
    intro s u h
    cases hfind : values.find ((s + 1) % 2 ^ w) with
    | none =>
      simp only [putLoop, hfind, Prod.mk.injEq, true_and] at h
      rw [← h]; exact hfind
    | some x =>
      by_cases hback : (s + 1) % 2 ^ w = orig
      · have hfind2 := hfind
        rw [hback] at hfind2
        simp [putLoop, hback, hfind2] at h
      · simp only [putLoop, hfind, if_neg hback] at h
        exact ih _ u h

theorem Put_eq (w : Nat) (mb : MatchBin Val Tag) (v : Val) (t : Tag) :
    (∃ s, putLoop w mb.values mb.uid_stepper (2 ^ w) mb.uid_stepper = (none, s) ∧
        Put w mb v t = (.ok s, afterPut mb s v t)) ∨
    (∃ e s, putLoop w mb.values mb.uid_stepper (2 ^ w) mb.uid_stepper = (some e, s) ∧
        Put w mb v t = (.error e, { mb with uid_stepper := s })) := by
  rcases h : putLoop w mb.values mb.uid_stepper (2 ^ w) mb.uid_stepper with ⟨o, s⟩
  cases o with
  | none => exact Or.inl ⟨s, rfl, by simp only [Put, h, afterPut]⟩
  | some e => exact Or.inr ⟨e, s, rfl, by simp only [Put, h]⟩

theorem Put_ok (w : Nat) (mb : MatchBin Val Tag) (v : Val) (t : Tag) (uid : Nat)
    (h : (Put w mb v t).1 = .ok uid) :
    mb.values.find uid = none ∧ (Put w mb v t).2 = afterPut mb uid v t := by
  rcases Put_eq w mb v t with ⟨s, hl, he⟩ | ⟨e, s, _, he⟩
  · rw [he] at h ⊢
    simp only [Except.ok.injEq] at h
    subst h
    exact ⟨putLoop_none w mb.values mb.uid_stepper _ _ _ hl, rfl⟩
  · rw [he] at h; simp at h

theorem Put_error (w : Nat) (mb : MatchBin Val Tag) (v : Val) (t : Tag) (e : Error)
    (h : (Put w mb v t).1 = .error e) :
    ∃ s, (Put w mb v t).2 = { mb with uid_stepper := s } := by
  rcases Put_eq w mb v t with ⟨s, _, he⟩ | ⟨e, s, _, he⟩
  · rw [he] at h; simp at h
  · exact ⟨s, by rw [he]⟩

end MatchBin

/-! ### The store invariant under `Put`, `Delete`, `Clear` and the regulator operations -/

namespace MatchBin

variable {Val Tag : Type}

theorem Inv_new : Inv (new : MatchBin Val Tag) := by
  unfold Inv new UMap.WF
  simp [UMap.keys, UMap.entries, UMap.empty]

theorem Inv_stepper (mb : MatchBin Val Tag) (s : Nat) (h : Inv mb) :
    Inv { mb with uid_stepper := s } := h

theorem Inv_not_live {mb : MatchBin Val Tag} (h : Inv mb) {uid : Nat}
    (hf : mb.values.find uid = none) : uid ∉ mb.uids := by
  obtain ⟨_, _, _, _, hv, _, _⟩ := h
  exact fun hu => (UMap.find_eq_none_iff _ _).1 hf ((hv uid).2 hu)

theorem Inv_afterPut {mb : MatchBin Val Tag} (h : Inv mb) {uid : Nat}
    (hf : mb.values.find uid = none) (v : Val) (t : Tag) : Inv (afterPut mb uid v t) := by
  have hnl := Inv_not_live h hf
  obtain ⟨w1, w2, w3, nd, hv, hr, ht⟩ := h
  refine ⟨UMap.WF_assign _ _ _ w1, UMap.WF_assign _ _ _ w2, UMap.WF_assign _ _ _ w3, ?_, ?_, ?_, ?_⟩
  · exact List.Nodup.append nd (List.nodup_singleton uid) (by
      intro a ha hb
      rw [List.mem_singleton] at hb
      exact hnl (hb ▸ ha))
  · intro u
    simp only [afterPut, UMap.mem_keys_assign, List.mem_append, List.mem_singleton, hv u]
    exact or_comm
  · intro u
    simp only [afterPut, UMap.mem_keys_assign, List.mem_append, List.mem_singleton, hr u]
    exact or_comm
  · intro u
    simp only [afterPut, UMap.mem_keys_assign, List.mem_append, List.mem_singleton, ht u]
    exact or_comm

theorem Inv_Put (w : Nat) {mb : MatchBin Val Tag} (h : Inv mb) (v : Val) (t : Tag) :
    Inv (Put w mb v t).2 := by
  rcases Put_eq w mb v t with ⟨s, hl, he⟩ | ⟨e, s, _, he⟩
  · rw [he]
    exact Inv_afterPut h (putLoop_none w mb.values mb.uid_stepper _ _ _ hl) v t
  · rw [he]; exact h

theorem Inv_Delete {mb : MatchBin Val Tag} (h : Inv mb) (uid : Nat) : Inv (Delete mb uid) := by
  obtain ⟨w1, w2, w3, nd, hv, hr, ht⟩ := h
  refine ⟨UMap.WF_erase _ _ w1, UMap.WF_erase _ _ w2, UMap.WF_erase _ _ w3, nd.filter _, ?_, ?_, ?_⟩
  · intro u
    simp only [Delete, UMap.mem_keys_erase, List.mem_filter, hv u, decide_eq_true_eq]
    exact and_comm
  · intro u
    simp only [Delete, UMap.mem_keys_erase, List.mem_filter, hr u, decide_eq_true_eq]
    exact and_comm
  · intro u
    simp only [Delete, UMap.mem_keys_erase, List.mem_filter, ht u, decide_eq_true_eq]
    exact and_comm

theorem Inv_Clear (mb : MatchBin Val Tag) : Inv (Clear mb) := by
  unfold Inv Clear UMap.WF
  simp [UMap.keys, UMap.entries, UMap.empty]

theorem Inv_regulators {mb : MatchBin Val Tag} (h : Inv mb) {uid : Nat}
    (hu : uid ∈ mb.regulators.keys) (r : ℚ) :
    Inv { mb with regulators := mb.regulators.assign uid r } := by
  obtain ⟨w1, w2, w3, nd, hv, hr, ht⟩ := h
  refine ⟨w1, UMap.WF_assign _ _ _ w2, w3, nd, hv, ?_, ht⟩
  intro u
  simp only [UMap.keys_assign_of_mem _ _ _ hu]
  exact hr u

theorem Inv_AdjRegulator {mb : MatchBin Val Tag} (h : Inv mb) (uid : Nat) (amt : ℚ) :
    Inv (AdjRegulator mb uid amt).2 := by
  unfold AdjRegulator UMap.atKey
  cases hf : mb.regulators.find uid with
  | none => exact h
  | some r =>
    have hu : uid ∈ mb.regulators.keys := (UMap.find_isSome_iff _ _).1 (by rw [hf]; rfl)
    exact Inv_regulators h hu _

theorem Inv_SetRegulator (debug : Bool) {mb : MatchBin Val Tag} (h : Inv mb) (uid : Nat)
    (amt : ℚ) : Inv (SetRegulator debug mb uid amt).2 := by
  unfold SetRegulator UMap.atKey
  cases emp_assert debug (decide (0 ≤ amt)) with
  | error e => exact h
  | ok _ =>
    cases hf : mb.regulators.find uid with
    | none => exact h
    | some r =>
      have hu : uid ∈ mb.regulators.keys := (UMap.find_isSome_iff _ _).1 (by rw [hf]; rfl)
      exact Inv_regulators h hu _

/-- Under the invariant `Size()` counts the live uids. -/
theorem Size_eq_length {mb : MatchBin Val Tag} (h : Inv mb) : Size mb = mb.uids.length := by
  obtain ⟨w1, _, _, nd, hv, _, _⟩ := h
  unfold Size
  rw [UMap.size_eq_length_keys]
  exact List.Perm.length_eq ((List.perm_ext_iff_of_nodup w1 nd).2 hv)

theorem PutAll_spec (w : Nat) :
    ∀ (items : List (Val × Tag)) (mb : MatchBin Val Tag), Inv mb →
      Inv (PutAll w mb items).2 ∧
      (PutAll w mb items).2.uids = mb.uids ++ (PutAll w mb items).1.filterMap returned := by
  intro items
  induction items with
  | nil => intro mb h; exact ⟨h, by simp [PutAll]⟩
  | cons it rest ih =>
    intro mb h
    obtain ⟨v, t⟩ := it
    have h1 := Inv_Put w h v t
    obtain ⟨i2, u2⟩ := ih (Put w mb v t).2 h1
    refine ⟨i2, ?_⟩
    show (PutAll w (Put w mb v t).2 rest).2.uids
      = mb.uids ++ ((Put w mb v t).1 :: (PutAll w (Put w mb v t).2 rest).1).filterMap returned
    rw [u2]
    rcases Put_eq w mb v t with ⟨s, hl, he⟩ | ⟨e, s, _, he⟩
    · rw [he]
      simp [afterPut, returned, List.filterMap_cons]
    · rw [he]
      simp [returned, List.filterMap_cons]

/-- Claim C3 (uid uniqueness).  On a store that satisfies the invariant, a
successful `Put` returns a uid that was not live before the call; and in any
run of `Put` calls (no `Delete` in between) the uids returned are pairwise
distinct and none of them was live at the start. -/
theorem C3_put_uid_fresh (w : Nat) (mb : MatchBin Val Tag) (hinv : Inv mb) :
    (∀ v t uid, (Put w mb v t).1 = .ok uid → uid ∉ mb.uids) ∧
    (∀ items : List (Val × Tag),
      ((PutAll w mb items).1.filterMap returned).Nodup ∧
      ∀ uid ∈ (PutAll w mb items).1.filterMap returned, uid ∉ mb.uids) := by
  constructor
  · intro v t uid h
    exact Inv_not_live hinv (Put_ok w mb v t uid h).1
  · intro items
    obtain ⟨i2, u2⟩ := PutAll_spec w items mb hinv
    have nd : (PutAll w mb items).2.uids.Nodup := i2.2.2.2.1
    rw [u2] at nd
    refine ⟨(List.nodup_append.1 nd).2.1, ?_⟩
    intro uid hu hl
    exact (List.nodup_append.1 nd).2.2 hl hu

/-- Claim C8 (effect of a successful `Put`).  After `uid = Put(v, t)` on a store
that satisfies the invariant: `GetVal(uid) = v`, `GetTag(uid) = t`, the
regulator of `uid` is `1.0`, `Size()` has grown by one, the live-uid list is
the old one with `uid` appended (so `uid` is last and every older uid keeps
its position), and every previously live uid keeps its value, tag and
regulator. -/
theorem C8_put_effect (w : Nat) (mb : MatchBin Val Tag) (hinv : Inv mb) (v : Val) (t : Tag)
    (uid : Nat) (h : (Put w mb v t).1 = .ok uid) :
    GetVal (Put w mb v t).2 uid = .ok v ∧
    GetTag (Put w mb v t).2 uid = .ok t ∧
    (Put w mb v t).2.regulators.find uid = some 1 ∧
    Size (Put w mb v t).2 = Size mb + 1 ∧
    (Put w mb v t).2.uids = mb.uids ++ [uid] ∧
    (Put w mb v t).2.uids.getLast? = some uid ∧
    (∀ i, i < mb.uids.length → (Put w mb v t).2.uids[i]? = mb.uids[i]?) ∧
    (∀ u ∈ mb.uids,
      (Put w mb v t).2.values.find u = mb.values.find u ∧
      (Put w mb v t).2.tags.find u = mb.tags.find u ∧
      (Put w mb v t).2.regulators.find u = mb.regulators.find u) := by
  obtain ⟨hfree, hst⟩ := Put_ok w mb v t uid h
  have hnl := Inv_not_live hinv hfree
  have hk : uid ∉ mb.values.keys := (UMap.find_eq_none_iff _ _).1 hfree
  rw [hst]
  refine ⟨?_, ?_, ?_, ?_, rfl, ?_, ?_, ?_⟩
  · simp [GetVal, afterPut, UMap.atKey, UMap.find_assign]
  · simp [GetTag, afterPut, UMap.atKey, UMap.find_assign]
  · simp [afterPut, UMap.find_assign]
  · simp only [Size, afterPut]
    exact UMap.size_assign_of_not_mem _ _ _ hk
  · simp [afterPut]
  · intro i hi
    simp only [afterPut]
    exact List.getElem?_append_left hi
  · intro u hu
    have hne : u ≠ uid := fun e => hnl (e ▸ hu)
    simp [afterPut, UMap.find_assign, hne]

end MatchBin

namespace MatchBin

variable {Val Tag : Type}

/-- Witness of claim C3: three `Put` calls on the empty store over 2-bit uids. -/
theorem C3_put_uid_fresh_witness :
    Inv (new : MatchBin Nat Nat) ∧
    (PutAll 2 (new : MatchBin Nat Nat) [(10, 0), (11, 1), (12, 0)]).1 = [.ok 1, .ok 2, .ok 3] ∧
    ([1, 2, 3] : List Nat).Nodup :=
  ⟨Inv_new, by decide,
    ((C3_put_uid_fresh 2 (new : MatchBin Nat Nat) Inv_new).2 [(10, 0), (11, 1), (12, 0)]).1⟩

/-- Witness of claim C8: the first `Put` into the empty store over 2-bit uids. -/
theorem C8_put_effect_witness :
    (Put 2 (new : MatchBin Nat Nat) 10 7).1 = .ok 1 ∧
    GetVal (Put 2 (new : MatchBin Nat Nat) 10 7).2 1 = .ok 10 ∧
    GetTag (Put 2 (new : MatchBin Nat Nat) 10 7).2 1 = .ok 7 ∧
    Size (Put 2 (new : MatchBin Nat Nat) 10 7).2 = 1 :=
  have h := C8_put_effect 2 (new : MatchBin Nat Nat) Inv_new 10 7 1 (by decide)
  ⟨by decide, h.1, h.2.1, h.2.2.2.1⟩

/-- Claim C9 (container full).  Over `w`-bit identifiers, with the stepper inside
the space: `Put` throws "container full" exactly when every identifier is
occupied, and it fails in no other way; a failing `Put` leaves the whole store,
stepper included, as it was; a successful `Put` returns the first unoccupied
identifier in the cyclic order `stepper+1, stepper+2, ...`, and the stepper
becomes that uid. -/
theorem C9_put_container_full (w : Nat) (mb : MatchBin Val Tag) (hs : mb.uid_stepper < 2 ^ w)
    (v : Val) (t : Tag) :
    ((Put w mb v t).1 = .error .container_full ↔
      ∀ id, id < 2 ^ w → (mb.values.find id).isSome = true) ∧
    (∀ e, (Put w mb v t).1 = .error e → e = .container_full ∧ (Put w mb v t).2 = mb) ∧
    (∀ uid, (Put w mb v t).1 = .ok uid →
      (Put w mb v t).2.uid_stepper = uid ∧
      ∃ k, 1 ≤ k ∧ k ≤ 2 ^ w ∧ uid = (mb.uid_stepper + k) % 2 ^ w ∧
        mb.values.find uid = none ∧
        ∀ k2, 1 ≤ k2 → k2 < k →
          (mb.values.find ((mb.uid_stepper + k2) % 2 ^ w)).isSome = true) := by
  have h0 : (mb.uid_stepper + 0) % 2 ^ w = mb.uid_stepper := Nat.mod_eq_of_lt hs
  have hsp := putLoop_spec w mb.values mb.uid_stepper hs (2 ^ w) 0 (by omega)
    (Nat.two_pow_pos w) (by intro k h1 h2; omega)
  rw [h0] at hsp
  have some_of_ne : ∀ o : Option Val, o ≠ none → o.isSome = true := by
    intro o ho; cases o <;> simp at ho ⊢
  rcases hsp with ⟨k, hk0, hkN, hfree, hocc, hl⟩ | ⟨hall, hl⟩
  · have hput : Put w mb v t
        = (.ok ((mb.uid_stepper + k) % 2 ^ w), afterPut mb ((mb.uid_stepper + k) % 2 ^ w) v t) := by
      simp only [Put, hl, afterPut]
    rw [hput]
    refine ⟨⟨fun h => by simp at h, fun h => ?_⟩, fun e h => by simp at h, ?_⟩
    · have := h ((mb.uid_stepper + k) % 2 ^ w) (Nat.mod_lt _ (Nat.two_pow_pos w))
      rw [hfree] at this
      simp at this
    · intro uid hu
      simp only [Except.ok.injEq] at hu
      subst hu
      exact ⟨rfl, k, by omega, hkN, rfl, hfree, fun k2 a b => some_of_ne _ (hocc k2 a b)⟩
  · have hput : Put w mb v t = (.error .container_full, mb) := by
      simp only [Put, hl]
    rw [hput]
    refine ⟨⟨fun _ => ?_, fun _ => rfl⟩, fun e h => ?_, fun uid h => by simp at h⟩
    · intro id hid
      obtain ⟨k, h1, h2, h3⟩ := cyc_surj (2 ^ w) mb.uid_stepper id hs hid
      rw [← h3]
      exact some_of_ne _ (hall k h1 h2)
    · simp only [Except.error.injEq] at h
      exact ⟨h.symm, rfl⟩

/-- Witness of claim C9: over 1-bit uids the third `Put` finds both identifiers
occupied, fails, and leaves the store untouched. -/
theorem C9_put_container_full_witness :
    (PutAll 1 (new : MatchBin Nat Nat) [(10, 0), (11, 1)]).1 = [.ok 1, .ok 0] ∧
    (Put 1 (PutAll 1 (new : MatchBin Nat Nat) [(10, 0), (11, 1)]).2 12 2).1
      = .error .container_full ∧
    (Put 1 (PutAll 1 (new : MatchBin Nat Nat) [(10, 0), (11, 1)]).2 12 2).2
      = (PutAll 1 (new : MatchBin Nat Nat) [(10, 0), (11, 1)]).2 :=
  have h := C9_put_container_full 1 (PutAll 1 (new : MatchBin Nat Nat) [(10, 0), (11, 1)]).2
    (by decide) 12 2
  ⟨by decide, h.1.2 (by decide), (h.2.1 _ (h.1.2 (by decide))).2⟩

theorem erase_erase_self {K V : Type} [DecidableEq K] (m : UMap K V) (k : K) :
    (m.erase k).erase k = m.erase k :=
  UMap.erase_of_not_mem _ _ (fun h => ((UMap.mem_keys_erase m k k).1 h).1 rfl)

/-- Claim C10 (Delete).  On a store that satisfies the invariant, after
`Delete(uid)`: `uid` is not live and `GetVal(uid)`, `GetTag(uid)` throw
`std::out_of_range`; every other uid keeps its value, tag and regulator; the
live-uid list is the old one without `uid`, in the same relative order; the
stepper is unchanged.  If `uid` was not live the store is unchanged, and a
second `Delete(uid)` changes nothing. -/
theorem C10_delete (mb : MatchBin Val Tag) (hinv : Inv mb) (uid : Nat) :
    uid ∉ (Delete mb uid).uids ∧
    GetVal (Delete mb uid) uid = .error .out_of_range ∧
    GetTag (Delete mb uid) uid = .error .out_of_range ∧
    (Delete mb uid).regulators.find uid = none ∧
    (∀ u, u ≠ uid →
      (Delete mb uid).values.find u = mb.values.find u ∧
      (Delete mb uid).tags.find u = mb.tags.find u ∧
      (Delete mb uid).regulators.find u = mb.regulators.find u ∧
      (u ∈ (Delete mb uid).uids ↔ u ∈ mb.uids)) ∧
    (Delete mb uid).uids = mb.uids.filter (fun u => decide (u ≠ uid)) ∧
    List.Sublist (Delete mb uid).uids mb.uids ∧
    (Delete mb uid).uid_stepper = mb.uid_stepper ∧
    (uid ∉ mb.uids → Delete mb uid = mb) ∧
    Delete (Delete mb uid) uid = Delete mb uid := by
  obtain ⟨w1, w2, w3, nd, hv, hr, ht⟩ := hinv
  refine ⟨?_, ?_, ?_, ?_, ?_, rfl, ?_, rfl, ?_, ?_⟩
  · simp [Delete, List.mem_filter]
  · simp [GetVal, Delete, UMap.atKey, UMap.find_erase]
  · simp [GetTag, Delete, UMap.atKey, UMap.find_erase]
  · simp [Delete, UMap.find_erase]
  · intro u hu
    simp [Delete, UMap.find_erase, hu, List.mem_filter]
  · exact List.filter_sublist _
  · intro hnl
    have a : uid ∉ mb.values.keys := fun h => hnl ((hv uid).1 h)
    have b : uid ∉ mb.regulators.keys := fun h => hnl ((hr uid).1 h)
    have c : uid ∉ mb.tags.keys := fun h => hnl ((ht uid).1 h)
    have d : mb.uids.filter (fun u => decide (u ≠ uid)) = mb.uids :=
      List.filter_eq_self.2 (fun u hu => decide_eq_true (fun e => hnl (e ▸ hu)))
    cases mb
    simp only [Delete, MatchBin.mk.injEq] at a b c d ⊢
    exact ⟨UMap.erase_of_not_mem _ _ a, UMap.erase_of_not_mem _ _ b,
      UMap.erase_of_not_mem _ _ c, d, trivial⟩
  · simp only [Delete, erase_erase_self, List.filter_filter, Bool.and_self]

/-- Witness of claim C10: deleting uid 1 from the store holding uids 1 and 2. -/
theorem C10_delete_witness :
    (Delete (PutAll 2 (new : MatchBin Nat Nat) [(10, 0), (11, 1)]).2 1).uids = [2] ∧
    GetVal (Delete (PutAll 2 (new : MatchBin Nat Nat) [(10, 0), (11, 1)]).2 1) 1
      = .error .out_of_range ∧
    GetVal (Delete (PutAll 2 (new : MatchBin Nat Nat) [(10, 0), (11, 1)]).2 1) 2 = .ok 11 :=
  have h := C10_delete (PutAll 2 (new : MatchBin Nat Nat) [(10, 0), (11, 1)]).2
    (PutAll_spec 2 [(10, 0), (11, 1)] new Inv_new).1 1
  ⟨by decide, h.2.1, by decide⟩

end MatchBin

/-! ### `MatchBin::Match`: the distance cache and the scores -/

namespace UMap

variable {K V : Type} [DecidableEq K]

theorem mem_entries_of_find (m : UMap K V) (k : K) (v : V) (h : m.find k = some v) :
    (k, v) ∈ m.entries := by
  induction m with
  | nil => simp [find] at h
  | cons e m ih =>
    obtain ⟨k1, v1⟩ := e
    rw [find_cons] at h
    by_cases hk : k1 = k
    · rw [if_pos hk] at h
      simp only [Option.some.injEq] at h
      subst hk; subst h
      exact List.mem_cons_self _ _
    · rw [if_neg hk] at h
      exact List.mem_cons_of_mem _ (ih h)

theorem subscript_of_find [Inhabited V] (m : UMap K V) (k : K) (v : V) (h : m.find k = some v) :
    m.subscript k = (v, m) := by
  simp only [subscript, h]

end UMap

namespace MatchBin

variable {Val Tag : Type} [DecidableEq Tag]

theorem cacheStep_ok (metric : Tag → Tag → ℚ) (query : Tag) (cache : UMap Tag ℚ) (e : Nat × Tag)
    (h : CacheOK metric query cache) : CacheOK metric query (cacheStep metric query cache e) := by
  unfold cacheStep
  cases hf : cache.find e.2 with
  | some d => exact h
  | none =>
    intro t d ht
    rw [UMap.find_assign] at ht
    by_cases he : t = e.2
    · rw [if_pos he] at ht
      simp only [Option.some.injEq] at ht
      rw [← ht, he]
    · rw [if_neg he] at ht
      exact h t d ht

theorem cacheStep_mono (metric : Tag → Tag → ℚ) (query : Tag) (cache : UMap Tag ℚ) (e : Nat × Tag)
    (t : Tag) (h : (cache.find t).isSome = true) :
    ((cacheStep metric query cache e).find t).isSome = true := by
  unfold cacheStep
  cases hf : cache.find e.2 with
  | some d => exact h
  | none =>
    rw [UMap.find_assign]
    by_cases he : t = e.2
    · simp [he]
    · rw [if_neg he]; exact h

theorem cacheStep_has (metric : Tag → Tag → ℚ) (query : Tag) (cache : UMap Tag ℚ) (e : Nat × Tag) :
    ((cacheStep metric query cache e).find e.2).isSome = true := by
  unfold cacheStep
  cases hf : cache.find e.2 with
  | some d => simp [hf]
  | none => simp [UMap.find_assign]

theorem foldl_cacheStep (metric : Tag → Tag → ℚ) (query : Tag) :
    ∀ (l : List (Nat × Tag)) (cache : UMap Tag ℚ), CacheOK metric query cache →
      CacheOK metric query (l.foldl (cacheStep metric query) cache) ∧
      (∀ t, (cache.find t).isSome = true →
        ((l.foldl (cacheStep metric query) cache).find t).isSome = true) ∧
      (∀ e ∈ l, ((l.foldl (cacheStep metric query) cache).find e.2).isSome = true) := by
  intro l
  induction l with
  | nil => intro cache h; exact ⟨h, fun _ ht => ht, fun e he => by simp at he⟩
  | cons a l ih =>
    intro cache h
    obtain ⟨ok, mono, has⟩ := ih (cacheStep metric query cache a) (cacheStep_ok _ _ _ _ h)
    refine ⟨ok, fun t ht => mono t (cacheStep_mono _ _ _ _ t ht), ?_⟩
    intro e he
    rcases List.mem_cons.1 he with rfl | he
    · exact mono _ (cacheStep_has _ _ _ _)
    · exact has e he

/-- The cache holds, for every stored tag, the metric's distance from the query. -/
theorem buildMatches_find (metric : Tag → Tag → ℚ) (query : Tag) (tags : UMap Nat Tag)
    (uid : Nat) (t : Tag) (h : tags.find uid = some t) :
    (buildMatches metric query tags).find t = some (metric query t) := by
  have h0 : CacheOK metric query (UMap.empty : UMap Tag ℚ) := by
    intro t d hd; simp [UMap.empty, UMap.find] at hd
  obtain ⟨ok, _, has⟩ := foldl_cacheStep metric query tags.entries UMap.empty h0
  have hs := has (uid, t) (UMap.mem_entries_of_find _ _ _ h)
  unfold buildMatches
  cases hf : (List.foldl (cacheStep metric query) UMap.empty tags.entries).find t with
  | none => rw [hf] at hs; simp at hs
  | some d => rw [ok t d hf]

variable [Inhabited Tag]

theorem scoreStep_live (st : ScoreState Tag) (uid : Nat) (t : Tag) (d r : ℚ)
    (h1 : st.tags.find uid = some t) (h2 : st.cache.find t = some d)
    (h3 : st.regulators.find uid = some r) :
    scoreStep st uid = { st with scores := st.scores.assign uid (d * r + r) } := by
  simp only [scoreStep, UMap.subscript_of_find _ _ _ h1, UMap.subscript_of_find _ _ _ h2,
    UMap.subscript_of_find _ _ _ h3]

/-- The second loop of `Match` over uids that all have a tag, a cached distance
and a regulator: no map but `scores` changes, and `scores` gets the regulated
distance of each uid. -/
theorem foldl_scoreStep (T : UMap Nat Tag) (C : UMap Tag ℚ) (R : UMap Nat ℚ) (val : Nat → ℚ) :
    ∀ (l : List Nat) (st : ScoreState Tag), st.tags = T → st.cache = C → st.regulators = R →
      (∀ u ∈ l, ∃ t d r, T.find u = some t ∧ C.find t = some d ∧ R.find u = some r ∧
        val u = d * r + r) →
      (l.foldl scoreStep st).tags = T ∧ (l.foldl scoreStep st).cache = C ∧
      (l.foldl scoreStep st).regulators = R ∧
      ∀ u, (l.foldl scoreStep st).scores.find u
        = if u ∈ l then some (val u) else st.scores.find u := by
  intro l
  induction l with
  | nil => intro st a b c _; exact ⟨a, b, c, fun u => by simp⟩
  | cons x l ih =>
    intro st a b c hl
    obtain ⟨t, d, r, h1, h2, h3, hv⟩ := hl x (List.mem_cons_self _ _)
    have hstep := scoreStep_live st x t d r (by rw [a]; exact h1) (by rw [b]; exact h2)
      (by rw [c]; exact h3)
    obtain ⟨a2, b2, c2, sc⟩ := ih (scoreStep st x) (by rw [hstep]; exact a) (by rw [hstep]; exact b)
      (by rw [hstep]; exact c) (fun u hu => hl u (List.mem_cons_of_mem _ hu))
    refine ⟨a2, b2, c2, ?_⟩
    intro u
    rw [List.foldl_cons, sc u, hstep]
    simp only [UMap.find_assign]
    by_cases hul : u ∈ l
    · simp [hul]
    · by_cases hux : u = x
      · subst hux; simp [hul, hv]
      · simp [hul, hux]

theorem computeScores_spec (metric : Tag → Tag → ℚ) (mb : MatchBin Val Tag) (hinv : Inv mb)
    (query : Tag) :
    (computeScores metric mb query).tags = mb.tags ∧
    (computeScores metric mb query).cache = buildMatches metric query mb.tags ∧
    (computeScores metric mb query).regulators = mb.regulators ∧
    ∀ u, (computeScores metric mb query).scores.find u
      = if u ∈ mb.uids then some (regulated metric query mb u) else none := by
  obtain ⟨w1, w2, w3, nd, hv, hr, ht⟩ := hinv
  have := foldl_scoreStep mb.tags (buildMatches metric query mb.tags) mb.regulators
    (regulated metric query mb) mb.uids
    { scores := UMap.empty, cache := buildMatches metric query mb.tags, tags := mb.tags,
      regulators := mb.regulators } rfl rfl rfl (by
      intro u hu
      have h1 : (mb.tags.find u).isSome = true := (UMap.find_isSome_iff _ _).2 ((ht u).2 hu)
      have h2 : (mb.regulators.find u).isSome = true := (UMap.find_isSome_iff _ _).2 ((hr u).2 hu)
      obtain ⟨t, e1⟩ := Option.isSome_iff_exists.1 h1
      obtain ⟨r, e2⟩ := Option.isSome_iff_exists.1 h2
      exact ⟨t, metric query t, r, e1, buildMatches_find metric query mb.tags u t e1, e2, by
        simp only [regulated, e1, e2]⟩)
  obtain ⟨a, b, c, d⟩ := this
  exact ⟨a, b, c, fun u => by
    have := d u
    simpa [UMap.empty, UMap.find] using this⟩

/-- Claim C1 (scores handed to the selector).  On a store that satisfies the
invariant, `Match(query, n)` returns what the selector makes of the live-uid
list, the score map and `n`, the maps of the store being untouched up to that
point.  The score map has an entry for exactly the live uids; the score of a
live uid with tag `t` and regulator `r` is `metric(query, t) * r + r`, the
distance being the one cached for `t`.  With regulator `1.0` the score is
`metric(query, t) + 1`, with regulator `0` it is `0`. -/
theorem C1_match_scores (metric : Tag → Tag → ℚ) (mb : MatchBin Val Tag) (hinv : Inv mb)
    (query : Tag) (n : Nat) :
    (∀ select : Selector,
      Match metric select mb query n
        = finishMatch mb (select mb.uids (computeScores metric mb query).scores n)) ∧
    (∀ uid, ((computeScores metric mb query).scores.find uid).isSome = true ↔ uid ∈ mb.uids) ∧
    (∀ uid, uid ∈ mb.uids → ∃ t r, mb.tags.find uid = some t ∧ mb.regulators.find uid = some r ∧
      (computeScores metric mb query).cache.find t = some (metric query t) ∧
      (computeScores metric mb query).scores.find uid = some (metric query t * r + r)) ∧
    (∀ uid t, uid ∈ mb.uids → mb.tags.find uid = some t → mb.regulators.find uid = some 1 →
      (computeScores metric mb query).scores.find uid = some (metric query t + 1)) ∧
    (∀ uid, uid ∈ mb.uids → mb.regulators.find uid = some 0 →
      (computeScores metric mb query).scores.find uid = some 0) := by
  obtain ⟨a, b, c, d⟩ := computeScores_spec metric mb hinv query
  have live : ∀ uid, uid ∈ mb.uids → ∃ t r, mb.tags.find uid = some t ∧
      mb.regulators.find uid = some r ∧
      (computeScores metric mb query).cache.find t = some (metric query t) ∧
      (computeScores metric mb query).scores.find uid = some (metric query t * r + r) := by
    intro uid hu
    obtain ⟨_, _, _, _, _, hr, ht⟩ := hinv
    have h1 : (mb.tags.find uid).isSome = true := (UMap.find_isSome_iff _ _).2 ((ht uid).2 hu)
    have h2 : (mb.regulators.find uid).isSome = true :=
      (UMap.find_isSome_iff _ _).2 ((hr uid).2 hu)
    obtain ⟨t, e1⟩ := Option.isSome_iff_exists.1 h1
    obtain ⟨r, e2⟩ := Option.isSome_iff_exists.1 h2
    refine ⟨t, r, e1, e2, ?_, ?_⟩
    · rw [b]; exact buildMatches_find metric query mb.tags uid t e1
    · rw [d uid, if_pos hu]
      simp only [regulated, e1, e2]
  refine ⟨?_, ?_, live, ?_, ?_⟩
  · intro select
    simp only [Match, a, c]
  · intro uid
    rw [d uid]
    by_cases hu : uid ∈ mb.uids <;> simp [hu]
  · intro uid t hu ht hr
    obtain ⟨t2, r2, e1, e2, _, e4⟩ := live uid hu
    rw [ht] at e1; rw [hr] at e2
    simp only [Option.some.injEq] at e1 e2
    subst e1; subst e2
    rw [e4]; simp
  · intro uid hu hr
    obtain ⟨t2, r2, _, e2, _, e4⟩ := live uid hu
    rw [hr] at e2
    simp only [Option.some.injEq] at e2
    subst e2
    rw [e4]; simp

end MatchBin

/-! ### Selectors and the uid vector they are handed -/

theorem set_head_perm {α : Type} (x : α) :
    ∀ (l : List α) (m : Nat) (b : α), l[m]? = some b → List.Perm (b :: l.set m x) (x :: l) := by
  intro l
  induction l with
  | nil => intro m b h; simp at h
  | cons y l ih =>
    intro m b h
    cases m with
    | zero =>
      simp only [List.getElem?_cons_zero, Option.some.injEq] at h
      subst h
      exact List.Perm.swap _ _ _
    | succ m =>
      simp only [List.getElem?_cons_succ] at h
      simp only [List.set_cons_succ]
      exact ((List.Perm.swap y b _).trans ((ih m b h).cons y)).trans (List.Perm.swap x y l)

theorem swap_perm_le {α : Type} :
    ∀ (l : List α) (i m : Nat) (a b : α), i ≤ m → l[i]? = some a → l[m]? = some b →
      List.Perm ((l.set i b).set m a) l := by
  intro l
  induction l with
  | nil => intro i m a b _ h; simp at h
  | cons x l ih =>
    intro i m a b him hi hm
    cases i with
    | zero =>
      simp only [List.getElem?_cons_zero, Option.some.injEq] at hi
      subst hi
      cases m with
      | zero =>
        simp only [List.getElem?_cons_zero, Option.some.injEq] at hm
        subst hm
        simp
      | succ m =>
        simp only [List.getElem?_cons_succ] at hm
        simp only [List.set_cons_zero, List.set_cons_succ]
        exact set_head_perm x l m b hm
    | succ i =>
      cases m with
      | zero => omega
      | succ m =>
        simp only [List.getElem?_cons_succ] at hi hm
        simp only [List.set_cons_succ]
        exact (ih i m a b (by omega) hi hm).cons x

/-- Exchanging two elements of a list rearranges it. -/
theorem swap_perm {α : Type} (l : List α) (i m : Nat) (a b : α) (hi : l[i]? = some a)
    (hm : l[m]? = some b) : List.Perm ((l.set i b).set m a) l := by
  by_cases h : i ≤ m
  · exact swap_perm_le l i m a b h hi hm
  · have hne : i ≠ m := by omega
    rw [List.set_comm b a l hne]
    exact swap_perm_le l m i b a (by omega) hm hi

theorem swapAt_perm (uids : List Nat) (i m : Nat) (uids1 : List Nat)
    (h : swapAt uids i m = .ok uids1) : List.Perm uids1 uids := by
  unfold swapAt at h
  cases hi : uids[i]? with
  | none => simp [hi] at h
  | some a =>
    cases hm : uids[m]? with
    | none => simp [hi, hm] at h
    | some b =>
      simp only [hi, hm, Except.ok.injEq] at h
      rw [← h]
      exact swap_perm uids i m a b hi hm

theorem selectLoop_perm (scores : UMap Nat ℚ) (thresh : ℚ) :
    ∀ (k i : Nat) (uids : List Nat) (r : Nat × List Nat),
      selectLoop scores thresh k i uids = .ok r → List.Perm r.2 uids := by
  intro k
  induction k with
  | zero =>
    intro i uids r h
    simp only [selectLoop, Except.ok.injEq] at h
    rw [← h]
  | succ k ih =>
    intro i uids r h
    simp only [selectLoop] at h
    cases hs : scanMin uids scores thresh (uids.length - i) i none with
    | error e => simp [hs] at h
    | ok o =>
      cases o with
      | none =>
        simp only [hs, Except.ok.injEq] at h
        rw [← h]
      | some m =>
        simp only [hs] at h
        cases hw : swapAt uids i m with
        | error e => simp [hw] at h
        | ok uids1 =>
          simp only [hw] at h
          exact (ih (i + 1) uids1 r h).trans (swapAt_perm uids i m uids1 hw)

/-- All that `ThreshSelector` does to the vector it is handed is rearrange it. -/
theorem ThreshSelector_perm (sort : (Nat → Nat → Bool) → List Nat → List Nat)
    (hsort : IsStdSort sort) (num den : Int) (uids : List Nat) (scores : UMap Nat ℚ) (n : Nat)
    (res uids1 : List Nat) (h : ThreshSelector sort num den uids scores n = .ok (res, uids1)) :
    List.Perm uids1 uids := by
  unfold ThreshSelector at h
  simp only at h
  split_ifs at h with h1 h2
  · cases hs : selectLoop scores (threshOf num den) n 0 uids with
    | error e => simp [hs] at h
    | ok r =>
      obtain ⟨i, u⟩ := r
      simp only [hs, Except.ok.injEq, Prod.mk.injEq] at h
      rw [← h.2]
      exact selectLoop_perm scores _ n 0 uids (i, u) hs
  · cases hc : countBelow (sort (fun a b => decide (scoreOf scores a < scoreOf scores b)) uids)
        scores (threshOf num den) n 0 with
    | error e => simp [hc] at h
    | ok i =>
      simp only [hc, Except.ok.injEq, Prod.mk.injEq] at h
      rw [← h.2]
      exact (hsort (scoreOf scores) uids).1

/-- The vector handed to `RouletteSelector` is left as it was. -/
theorem RouletteSelector_uids (debug : Bool) (rand : Nat → ℚ → ℚ) (uids : List Nat)
    (scores : UMap Nat ℚ) (n : Nat) (res uids1 : List Nat)
    (h : RouletteSelector debug rand uids scores n = .ok (res, uids1)) : uids1 = uids := by
  unfold RouletteSelector at h
  cases hf : rouletteFill debug scores uids 0 (WeightedSet.new uids.length) with
  | error e => simp [hf] at h
  | ok ws =>
    simp only [hf] at h
    cases hd : rouletteDraw rand uids ws n 0 with
    | error e => simp [hd] at h
    | ok r =>
      simp only [hd, Except.ok.injEq, Prod.mk.injEq] at h
      exact h.2.symm

/-- Insertion sort meets the contract of `std::sort`. -/
theorem insertionStdSort_isStdSort : IsStdSort insertionStdSort := by
  intro key l
  unfold insertionStdSort
  constructor
  · exact List.perm_insertionSort _ l
  · haveI : IsTotal Nat (fun a b => (fun a b => decide (key a < key b)) b a = false) :=
      ⟨fun a b => by
        simp only [decide_eq_false_iff_not, not_lt]
        exact le_total (key a) (key b)⟩
    haveI : IsTrans Nat (fun a b => (fun a b => decide (key a < key b)) b a = false) :=
      ⟨fun a b c => by
        simp only [decide_eq_false_iff_not, not_lt]
        exact le_trans⟩
    have hs := List.sorted_insertionSort
      (fun a b => (fun a b => decide (key a < key b)) b a = false) l
    exact List.Pairwise.imp (fun {a b} h => by
      simp only [decide_eq_false_iff_not, not_lt] at h
      exact h) hs

namespace MatchBin

variable {Val Tag : Type}

theorem Inv_perm {mb : MatchBin Val Tag} (h : Inv mb) {uids1 : List Nat}
    (hp : List.Perm uids1 mb.uids) : Inv { mb with uids := uids1 } := by
  obtain ⟨w1, w2, w3, nd, hv, hr, ht⟩ := h
  exact ⟨w1, w2, w3, (List.Perm.nodup_iff hp).2 nd,
    fun u => (hv u).trans (List.Perm.mem_iff hp).symm,
    fun u => (hr u).trans (List.Perm.mem_iff hp).symm,
    fun u => (ht u).trans (List.Perm.mem_iff hp).symm⟩

theorem Inv_finishMatch {mb : MatchBin Val Tag} (h : Inv mb)
    (r : Except Error (List Nat × List Nat))
    (hr : ∀ res uids1, r = .ok (res, uids1) → List.Perm uids1 mb.uids) :
    Inv (finishMatch mb r).2 := by
  cases r with
  | error e => exact h
  | ok p =>
    obtain ⟨res, uids1⟩ := p
    exact Inv_perm h (hr res uids1 rfl)

/-- Claim C4 (store invariant).  The three maps have the same keys, each once,
and the live-uid list holds exactly these keys, each once, so that `Size()` is
the length of the list.  This holds for the newly constructed store and is
preserved by `Put`, `Delete`, `Clear`, `AdjRegulator`, `SetRegulator` and by
`Match` with either selector, whatever the outcome of the operation. -/
theorem C4_store_invariant [DecidableEq Tag] [Inhabited Tag] (w : Nat) (debug : Bool)
    (sort : (Nat → Nat → Bool) → List Nat → List Nat) (hsort : IsStdSort sort) (num den : Int)
    (rand : Nat → ℚ → ℚ) (metric : Tag → Tag → ℚ) (mb : MatchBin Val Tag) (hinv : Inv mb) :
    Inv (new : MatchBin Val Tag) ∧
    Size mb = mb.uids.length ∧
    (∀ v t, Inv (Put w mb v t).2) ∧
    (∀ uid, Inv (Delete mb uid)) ∧
    Inv (Clear mb) ∧
    (∀ uid amt, Inv (AdjRegulator mb uid amt).2) ∧
    (∀ uid amt, Inv (SetRegulator debug mb uid amt).2) ∧
    (∀ query n, Inv (Match metric (ThreshSelector sort num den) mb query n).2) ∧
    (∀ query n, Inv (Match metric (RouletteSelector debug rand) mb query n).2) := by
  refine ⟨Inv_new, Size_eq_length hinv, fun v t => Inv_Put w hinv v t,
    fun uid => Inv_Delete hinv uid, Inv_Clear mb, fun uid amt => Inv_AdjRegulator hinv uid amt,
    fun uid amt => Inv_SetRegulator debug hinv uid amt, ?_, ?_⟩
  · intro query n
    obtain ⟨a, _, c, _⟩ := computeScores_spec metric mb hinv query
    simp only [Match, a, c]
    exact Inv_finishMatch hinv _ (fun res uids1 h =>
      ThreshSelector_perm sort hsort num den _ _ n res uids1 h)
  · intro query n
    obtain ⟨a, _, c, _⟩ := computeScores_spec metric mb hinv query
    simp only [Match, a, c]
    exact Inv_finishMatch hinv _ (fun res uids1 h => by
      rw [RouletteSelector_uids debug rand _ _ n res uids1 h])

end MatchBin

/-! ### `RouletteSelector` -/

namespace WeightedSet

/-- The descent of `Index` from a node whose subtree weight exceeds the
position stays inside the vector and ends at one of its nodes. -/
theorem IndexFrom_range (w : List WeightInfo) (h : TreeInv ⟨w⟩) :
    ∀ (g c : Nat) (x : ℚ), w.length - c ≤ g → c < w.length → 0 ≤ x → x < treeAt w c →
      ∃ id, IndexFrom w g x c = .ok id ∧ id < w.length ∧ 0 < itemAt w id := by
  intro g
  induction g with
  | zero => intro c x hg hc; omega
  | succ g ih =>
    intro c x hg hc hx0 hxt
    have hwc : w[c]? = some w[c] := List.getElem?_eq_getElem hc
    have hic : itemAt w c = w[c].item := itemAt_of_getElem? hwc
    have hI := h c hc
    simp only at hI
    by_cases hlt : x < w[c].item
    · exact ⟨c, by simp only [IndexFrom, hwc, if_pos hlt], hc, by rw [hic]; linarith⟩
    · have hl : LeftID c < w.length := by
        by_contra hge
        have e1 : treeAt w (LeftID c) = 0 := by
          simp [treeAt, List.getElem?_eq_none (show w.length ≤ LeftID c by omega)]
        have e2 : treeAt w (RightID c) = 0 := by
          simp [treeAt, List.getElem?_eq_none (show w.length ≤ RightID c by
            unfold LeftID RightID at *; omega)]
        rw [e1, e2, hic] at hI
        linarith
      have hwl : w[LeftID c]? = some w[LeftID c] := List.getElem?_eq_getElem hl
      have htl : treeAt w (LeftID c) = w[LeftID c].tree := treeAt_of_getElem? hwl
      by_cases hgo : x - w[c].item < w[LeftID c].tree
      · obtain ⟨id, e, hid⟩ := ih (LeftID c) (x - w[c].item) (by unfold LeftID; omega) hl
          (by linarith) (by rw [htl]; exact hgo)
        exact ⟨id, by simp only [IndexFrom, hwc, if_neg hlt, hwl, if_pos hgo]; exact e, hid⟩
      · have hr : RightID c < w.length := by
          by_contra hge
          have e2 : treeAt w (RightID c) = 0 := by
            simp [treeAt, List.getElem?_eq_none (show w.length ≤ RightID c by omega)]
          rw [e2, hic, htl] at hI
          linarith
        obtain ⟨id, e, hid⟩ := ih (RightID c) (x - w[c].item - w[LeftID c].tree)
          (by unfold RightID; omega) hr (by linarith) (by rw [hic, htl] at hI; linarith)
        exact ⟨id, by simp only [IndexFrom, hwc, if_neg hlt, hwl, if_neg hgo]; exact e, hid⟩

/-- With non-negative item weights the total weight is at least the weight of
the root item. -/
theorem item_root_le_total (w : List WeightInfo) (h : TreeInv ⟨w⟩)
    (hnn : ∀ i, 0 ≤ itemAt w i) (hlen : 0 < w.length) : itemAt w 0 ≤ treeAt w 0 := by
  have hs := preorder_sum w h w.length 0 (by omega)
  obtain ⟨s1, hs1⟩ : ∃ s1, w.length = s1 + 1 := ⟨w.length - 1, by omega⟩
  rw [hs1] at hs
  simp only [preorder, Nat.zero_lt_succ, if_true, List.map_cons, List.sum_cons] at hs
  have : 0 ≤ ((preorder (s1 + 1) s1 (LeftID 0) ++ preorder (s1 + 1) s1 (RightID 0)).map
      (itemAt w)).sum :=
    List.sum_nonneg (by
      intro y hy
      obtain ⟨j, _, rfl⟩ := List.mem_map.1 hy
      exact hnn j)
  linarith

end WeightedSet

/-- The first loop of `RouletteSelector` on non-negative scores: every call of
`Adjust` succeeds, the sampler keeps its invariant and its size, and every
entry written gets a positive weight. -/
theorem rouletteFill_spec (debug : Bool) (scores : UMap Nat ℚ) :
    ∀ (rest : List Nat) (i : Nat) (ws : WeightedSet), i + rest.length = ws.weight.length →
      WeightedSet.TreeInv ws → (∀ j, 0 ≤ WeightedSet.itemAt ws.weight j) → (∀ j, j < i → 0 < WeightedSet.itemAt ws.weight j) →
      (∀ u ∈ rest, 0 ≤ scoreOf scores u) →
      ∃ ws2, rouletteFill debug scores rest i ws = .ok ws2 ∧
        ws2.weight.length = ws.weight.length ∧ WeightedSet.TreeInv ws2 ∧
        (∀ j, 0 ≤ WeightedSet.itemAt ws2.weight j) ∧ (∀ j, j < ws2.weight.length → 0 < WeightedSet.itemAt ws2.weight j) := by
  intro rest
  induction rest with
  | nil =>
    intro i ws hlen hinv hnn hpos _
    exact ⟨ws, rfl, rfl, hinv, hnn, fun j hj => hpos j (by simp at hlen; omega)⟩
  | cons u rest ih =>
    intro i ws hlen hinv hnn hpos hsc
    simp only [List.length_cons] at hlen
    have hu : 0 ≤ scoreOf scores u := hsc u (List.mem_cons_self _ _)
    have hw : 0 < 1 / (skew + scoreOf scores u) := by
      apply div_pos one_pos
      have : (0 : ℚ) < skew := by unfold skew; norm_num
      linarith
    obtain ⟨ws1, e1, hl1, hit1, hinv1⟩ := WeightedSet.Adjust_spec ws i (1 / (skew + scoreOf scores u))
      (by omega) hinv
    obtain ⟨ws2, e2, hl2, hinv2, hnn2, hpos2⟩ := ih (i + 1) ws1 (by rw [hl1]; omega) hinv1
      (by
        intro j
        rw [hit1 j]
        split_ifs
        · exact le_of_lt hw
        · exact hnn j)
      (by
        intro j hj
        rw [hit1 j]
        split_ifs with hji
        · exact hw
        · exact hpos j (by omega))
      (fun u2 h2 => hsc u2 (List.mem_cons_of_mem _ h2))
    refine ⟨ws2, ?_, by rw [hl2, hl1], hinv2, hnn2, hpos2⟩
    have ha : emp_assert debug (decide (0 ≤ scoreOf scores u)) = .ok () := by
      simp [emp_assert, hu]
    simp only [rouletteFill, ha, e1]
    exact e2

/-- The second loop of `RouletteSelector` on a sampler of positive total
weight: each of the `k` draws resolves to an index of the uid vector. -/
theorem rouletteDraw_spec (rand : Nat → ℚ → ℚ) (hrand : IsRandomSource rand) (uids : List Nat)
    (ws : WeightedSet) (hlen : ws.weight.length = uids.length) (hinv : WeightedSet.TreeInv ws)
    (htot : 0 < WeightedSet.treeAt ws.weight 0) :
    ∀ (k j : Nat), ∃ res, rouletteDraw rand uids ws k j = .ok res ∧ res.length = k ∧
      ∀ u ∈ res, u ∈ uids := by
  have hpos : 0 < ws.weight.length := by
    by_contra h
    have : ws.weight[0]? = none := List.getElem?_eq_none (by omega)
    simp [WeightedSet.treeAt, this] at htot
  have hw0 : ws.weight[0]? = some ws.weight[0] := List.getElem?_eq_getElem hpos
  have ht0 : WeightedSet.treeAt ws.weight 0 = ws.weight[0].tree := WeightedSet.treeAt_of_getElem? hw0
  have hgw : GetWeight ws = .ok ws.weight[0].tree := by simp only [GetWeight, hw0]
  intro k
  induction k with
  | zero => intro j; exact ⟨[], rfl, rfl, fun u hu => by simp at hu⟩
  | succ k ih =>
    intro j
    obtain ⟨h0, h1⟩ := hrand j ws.weight[0].tree (by rw [← ht0]; exact htot)
    obtain ⟨idx, hidx, hlt, _⟩ := WeightedSet.IndexFrom_range ws.weight hinv (ws.weight.length + 1) 0
      (rand j ws.weight[0].tree) (by omega) hpos h0 (by rw [ht0]; exact h1)
    obtain ⟨res, hres, hl, hmem⟩ := ih (j + 1)
    have hb : idx < uids.length := by omega
    have hu : uids[idx]? = some uids[idx] := List.getElem?_eq_getElem hb
    have hget : vecGet uids idx = .ok uids[idx] := by simp only [vecGet, hu]
    refine ⟨uids[idx] :: res, ?_, by simp [hl], ?_⟩
    · have hI : WeightedSet.Index ws (rand j ws.weight[0].tree) = .ok idx := hidx
      simp only [rouletteDraw, hgw, hI, hget, hres]
    · intro u hu2
      rcases List.mem_cons.1 hu2 with e | e
      · rw [e]; exact List.getElem_mem _
      · exact hmem u e

/-- Claim C7, as amended (roulette selector range).  For every candidate list
that is not empty, or with `n = 0`, every score map whose scores on the
candidates are non-negative, every `n` and every random source,
`RouletteSelector` returns exactly `n` uids, each of them a candidate, and
leaves the candidate vector as it was. -/
theorem C7_roulette_range (debug : Bool) (rand : Nat → ℚ → ℚ) (hrand : IsRandomSource rand)
    (uids : List Nat) (scores : UMap Nat ℚ) (n : Nat) (hne : uids ≠ [] ∨ n = 0)
    (hscores : ∀ u ∈ uids, 0 ≤ scoreOf scores u) :
    ∃ res, RouletteSelector debug rand uids scores n = .ok (res, uids) ∧ res.length = n ∧
      ∀ u ∈ res, u ∈ uids := by
  have hnew : (WeightedSet.new uids.length).weight.length = uids.length := by
    simp [WeightedSet.new]
  obtain ⟨ws, hfill, hl, hinv, hnn, hpos⟩ := rouletteFill_spec debug scores uids 0
    (WeightedSet.new uids.length) (by rw [hnew]; omega) (WeightedSet.new_TreeInv _)
    (fun j => by rw [WeightedSet.new_itemAt]) (fun j hj => by omega) hscores
  rcases hne with hne | hn0
  · have hlen : 0 < ws.weight.length := by
      rw [hl, hnew]; exact List.length_pos.2 hne
    have htot : 0 < WeightedSet.treeAt ws.weight 0 :=
      lt_of_lt_of_le (hpos 0 hlen) (WeightedSet.item_root_le_total ws.weight hinv hnn hlen)
    obtain ⟨res, hd, hrl, hmem⟩ := rouletteDraw_spec rand hrand uids ws (by rw [hl, hnew]) hinv
      htot n 0
    exact ⟨res, by simp only [RouletteSelector, hfill, hd], hrl, hmem⟩
  · subst hn0
    exact ⟨[], by simp only [RouletteSelector, hfill, rouletteDraw], rfl,
      fun u hu => by simp at hu⟩

theorem midSource_isRandomSource : IsRandomSource midSource := by
  intro j max hmax
  unfold midSource
  constructor <;> linarith

/-- Counterexample to claim C7 as stated: on the empty candidate list with
`n = 1` the selector reads the total weight of an empty sampler and fails; it
returns no list at all, and no list of one candidate exists. -/
theorem C7_roulette_empty_counterexample :
    IsRandomSource midSource ∧
    RouletteSelector true midSource [] UMap.empty 1 = .error .out_of_bounds ∧
    RouletteSelector false midSource [] UMap.empty 1 = .error .out_of_bounds ∧
    ¬ ∃ res : List Nat, res.length = 1 ∧ ∀ u ∈ res, u ∈ ([] : List Nat) := by
  refine ⟨midSource_isRandomSource, by decide, by decide, ?_⟩
  rintro ⟨res, hl, hm⟩
  cases res with
  | nil => simp at hl
  | cons a r => exact absurd (hm a (List.mem_cons_self _ _)) (by simp)

/-- Witness of claim C7: four candidates, five draws. -/
theorem C7_roulette_range_witness :
    ∃ res, RouletteSelector true midSource [1, 2, 3, 0] [(1, 2), (2, 15), (3, 3), (0, 3)] 5
        = .ok (res, [1, 2, 3, 0]) ∧ res.length = 5 ∧ ∀ u ∈ res, u ∈ [1, 2, 3, 0] :=
  C7_roulette_range true midSource midSource_isRandomSource [1, 2, 3, 0]
    [(1, 2), (2, 15), (3, 3), (0, 3)] 5 (Or.inl (by decide)) (by decide!)

/-- Claim C2 fails on the code: with `ratio = -1/2` the threshold computed by
`ratio::num / ratio::den` is `0`, not `-1/2`, so the candidate of score `-1/4`
is returned although its score is not below `-1/2`. -/
theorem C2_thresh_integer_division :
    threshOf (-1) 2 = 0 ∧
    ThreshSelector insertionStdSort (-1) 2 [5] [(5, -1 / 4)] 1 = .ok ([5], [5]) ∧
    scoreOf [(5, -1 / 4)] 5 = -1 / 4 ∧
    ¬ ((-1 / 4 : ℚ) < (-1 : ℚ) / 2) := by
  refine ⟨by decide!, by decide!, by decide!, by norm_num⟩

namespace MatchBin

theorem twoItems_Inv : Inv twoItems := (PutAll_spec 2 [("a", 0), ("b", 15)] new Inv_new).1

/-- Witness of claim C1: in the store with tags `0` and `15` (regulators `1.0`),
the query `1` gives uid 1 the score `|1 - 0| + 1 = 2`. -/
theorem C1_match_scores_witness :
    twoItems.uids = [1, 2] ∧
    (computeScores Difference twoItems 1).scores.find 1 = some (Difference 1 0 + 1) ∧
    Difference 1 0 + 1 = 2 :=
  ⟨by decide,
    (C1_match_scores Difference twoItems twoItems_Inv 1 2).2.2.2.1 1 0 (by decide) (by decide)
      (by decide!),
    by decide!⟩

/-- Witness of claim C4: the store with two items, insertion sort, threshold 3. -/
theorem C4_store_invariant_witness :
    Inv twoItems ∧ Size twoItems = 2 ∧
    Inv (Match Difference (ThreshSelector insertionStdSort 3 1) twoItems 1 2).2 ∧
    Inv (Match Difference (RouletteSelector true midSource) twoItems 1 2).2 :=
  have h := C4_store_invariant 2 true insertionStdSort insertionStdSort_isStdSort 3 1 midSource
    Difference twoItems twoItems_Inv
  ⟨twoItems_Inv, h.2.1, h.2.2.2.2.2.2.2.1 1 2, h.2.2.2.2.2.2.2.2 1 2⟩

end MatchBin

/-! ### `ThreshSelector`: what both branches select -/

theorem atKey_of_defined (scores : UMap Nat ℚ) (u : Nat) (h : (scores.find u).isSome = true) :
    scores.atKey u = .ok (scoreOf scores u) := by
  obtain ⟨x, hx⟩ := Option.isSome_iff_exists.1 h
  simp [UMap.atKey, scoreOf, hx]

theorem scanStep_none (uids : List Nat) (scores : UMap Nat ℚ) (t : ℚ) (j uj : Nat)
    (hj : uids[j]? = some uj) (hd : (scores.find uj).isSome = true) :
    scanStep uids scores t none j = .ok (if scoreOf scores uj < t then some j else none) := by
  simp only [scanStep, vecGet, hj, atKey_of_defined scores uj hd]

theorem scanStep_some (uids : List Nat) (scores : UMap Nat ℚ) (t : ℚ) (j uj m um : Nat)
    (hj : uids[j]? = some uj) (hm : uids[m]? = some um) (hd : (scores.find uj).isSome = true)
    (hdm : (scores.find um).isSome = true) :
    scanStep uids scores t (some m) j
      = .ok (if scoreOf scores uj < scoreOf scores um
          then (if scoreOf scores uj < t then some j else some m) else some m) := by
  simp only [scanStep, vecGet, hj, hm, atKey_of_defined scores uj hd,
    atKey_of_defined scores um hdm]

/-- The scan of the selection branch never fails on a score map that covers
the vector, and it ends knowing the minimum of the whole tail. -/
theorem scanMin_spec (uids : List Nat) (scores : UMap Nat ℚ) (t : ℚ)
    (hdef : ∀ u ∈ uids, (scores.find u).isSome = true) (i : Nat) :
    ∀ (k j : Nat) (cur : Option Nat), j + k = uids.length → i ≤ j →
      IsMinFrom (scoreOf scores) t uids i j cur →
      ∃ r, scanMin uids scores t k j cur = .ok r ∧
        IsMinFrom (scoreOf scores) t uids i uids.length r := by
  intro k
  induction k with
  | zero =>
    intro j cur hk _ h
    have : j = uids.length := by omega
    subst this
    exact ⟨cur, rfl, h⟩
  | succ k ih =>
    intro j cur hk hij h
    have hjl : j < uids.length := by omega
    have hj : uids[j]? = some uids[j] := List.getElem?_eq_getElem hjl
    have hdj := hdef uids[j] (List.getElem_mem _)
    cases cur with
    | none =>
      have hstep := scanStep_none uids scores t j uids[j] hj hdj
      by_cases hlt : scoreOf scores uids[j] < t
      · rw [if_pos hlt] at hstep
        have hnext : IsMinFrom (scoreOf scores) t uids i (j + 1) (some j) := by
          refine ⟨hij, by omega, uids[j], hj, hlt, ?_⟩
          intro p hp1 hp2 u hu hut
          by_cases hpj : p = j
          · subst hpj
            rw [hj] at hu
            simp only [Option.some.injEq] at hu
            rw [hu]
          · exact absurd hut (h p hp1 (by omega) u hu)
        obtain ⟨r, hr, hmin⟩ := ih (j + 1) (some j) (by omega) (by omega) hnext
        exact ⟨r, by simp only [scanMin, hstep]; exact hr, hmin⟩
      · rw [if_neg hlt] at hstep
        have hnext : IsMinFrom (scoreOf scores) t uids i (j + 1) none := by
          intro p hp1 hp2 u hu
          by_cases hpj : p = j
          · subst hpj
            rw [hj] at hu
            simp only [Option.some.injEq] at hu
            rw [← hu]; exact hlt
          · exact h p hp1 (by omega) u hu
        obtain ⟨r, hr, hmin⟩ := ih (j + 1) none (by omega) (by omega) hnext
        exact ⟨r, by simp only [scanMin, hstep]; exact hr, hmin⟩
    | some m =>
      obtain ⟨him, hmj, um, hm, hmt, hmin⟩ := h
      have hml : m < uids.length := by omega
      have hdm : (scores.find um).isSome = true := by
        have : um ∈ uids := by
          rcases List.getElem?_eq_some.1 hm with ⟨hlt, e⟩
          rw [← e]; exact List.getElem_mem _
        exact hdef um this
      have hstep := scanStep_some uids scores t j uids[j] m um hj hm hdj hdm
      by_cases hlt : scoreOf scores uids[j] < scoreOf scores um
      · have hjt : scoreOf scores uids[j] < t := lt_trans hlt hmt
        rw [if_pos hlt, if_pos hjt] at hstep
        have hnext : IsMinFrom (scoreOf scores) t uids i (j + 1) (some j) := by
          refine ⟨hij, by omega, uids[j], hj, hjt, ?_⟩
          intro p hp1 hp2 u hu hut
          by_cases hpj : p = j
          · subst hpj
            rw [hj] at hu
            simp only [Option.some.injEq] at hu
            rw [hu]
          · exact le_trans (le_of_lt hlt) (hmin p hp1 (by omega) u hu hut)
        obtain ⟨r, hr, hmin2⟩ := ih (j + 1) (some j) (by omega) (by omega) hnext
        exact ⟨r, by simp only [scanMin, hstep]; exact hr, hmin2⟩
      · rw [if_neg hlt] at hstep
        have hnext : IsMinFrom (scoreOf scores) t uids i (j + 1) (some m) := by
          refine ⟨him, by omega, um, hm, hmt, ?_⟩
          intro p hp1 hp2 u hu hut
          by_cases hpj : p = j
          · subst hpj
            rw [hj] at hu
            simp only [Option.some.injEq] at hu
            rw [← hu]; exact not_lt.1 hlt
          · exact hmin p hp1 (by omega) u hu hut
        obtain ⟨r, hr, hmin2⟩ := ih (j + 1) (some m) (by omega) (by omega) hnext
        exact ⟨r, by simp only [scanMin, hstep]; exact hr, hmin2⟩

/-- Reading the vector after the exchange of the entries at `i` and `m`. -/
theorem getElem?_swap (l : List Nat) (i m ui um : Nat) (hi : l[i]? = some ui)
    (hm : l[m]? = some um) (p : Nat) :
    ((l.set i um).set m ui)[p]?
      = if p = m then some ui else if p = i then some um else l[p]? := by
  have hil : i < l.length := (List.getElem?_eq_some.1 hi).1
  have hml : m < l.length := (List.getElem?_eq_some.1 hm).1
  rw [List.getElem?_set, List.getElem?_set]
  by_cases h1 : m = p
  · subst h1
    simp [hml]
  · have h1b : ¬ p = m := fun e => h1 e.symm
    rw [if_neg h1, if_neg h1b]
    by_cases h2 : i = p
    · subst h2
      simp [hil]
    · have h2b : ¬ p = i := fun e => h2 e.symm
      rw [if_neg h2, if_neg h2b]

/-- One round of the selection: placing the minimum of the tail at position `i`. -/
theorem Selected_step (sc : Nat → ℚ) (t : ℚ) (l : List Nat) (i m ui : Nat)
    (hsel : Selected sc t i l) (hi : l[i]? = some ui)
    (hmin : IsMinFrom sc t l i l.length (some m)) (um : Nat) (hm : l[m]? = some um) :
    Selected sc t (i + 1) ((l.set i um).set m ui) := by
  obtain ⟨hil, hbelow, hsorted, hsplit⟩ := hsel
  obtain ⟨him, hml, um2, hm2, hmt, hle⟩ := hmin
  rw [hm] at hm2
  simp only [Option.some.injEq] at hm2
  subst hm2
  have hrd := getElem?_swap l i m ui um hi hm
  have hilt : i < l.length := (List.getElem?_eq_some.1 hi).1
  -- an entry of the new vector at or after `i` is an entry of the old one at or after `i`
  have hold : ∀ q, i ≤ q → ∀ b, ((l.set i um).set m ui)[q]? = some b →
      ∃ q2, i ≤ q2 ∧ l[q2]? = some b := by
    intro q hq b hb
    rw [hrd q] at hb
    by_cases h1 : q = m
    · rw [if_pos h1] at hb
      simp only [Option.some.injEq] at hb
      exact ⟨i, le_refl _, by rw [hi, hb]⟩
    · rw [if_neg h1] at hb
      by_cases h2 : q = i
      · rw [if_pos h2] at hb
        simp only [Option.some.injEq] at hb
        exact ⟨m, him, by rw [hm, hb]⟩
      · rw [if_neg h2] at hb
        exact ⟨q, hq, hb⟩
  have hfront : ∀ p, p < i → ((l.set i um).set m ui)[p]? = l[p]? := by
    intro p hp
    rw [hrd p, if_neg (by omega), if_neg (by omega)]
  have hati : ((l.set i um).set m ui)[i]? = some um := by
    rw [hrd i]
    by_cases h1 : i = m
    · rw [if_pos h1]
      rw [← h1, hi] at hm
      exact hm
    · rw [if_neg h1, if_pos rfl]
  refine ⟨by simp only [List.length_set]; omega, ?_, ?_, ?_⟩
  · intro p hp a ha
    by_cases hpi : p = i
    · subst hpi
      rw [hati] at ha
      simp only [Option.some.injEq] at ha
      rw [← ha]; exact hmt
    · rw [hfront p (by omega)] at ha
      exact hbelow p (by omega) a ha
  · intro p q hpq hq a b ha hb
    have hp : p < i := by omega
    rw [hfront p hp] at ha
    by_cases hqi : q = i
    · subst hqi
      rw [hati] at hb
      simp only [Option.some.injEq] at hb
      rw [← hb]
      exact hsplit p m hp him a um ha hm hmt
    · rw [hfront q (by omega)] at hb
      exact hsorted p q hpq (by omega) a b ha hb
  · intro p q hp hq a b ha hb hbt
    obtain ⟨q2, hq2, hb2⟩ := hold q (by omega) b hb
    by_cases hpi : p = i
    · subst hpi
      rw [hati] at ha
      simp only [Option.some.injEq] at ha
      rw [← ha]
      exact hle q2 hq2 (List.getElem?_eq_some.1 hb2).1 b hb2 hbt
    · rw [hfront p (by omega)] at ha
      exact hsplit p q2 (by omega) hq2 a b ha hb2 hbt

/-- The bounded selection sort on a score map that covers the vector: it never
fails, it rearranges the vector, and it stops after `k` rounds or when no
remaining entry is below the threshold. -/
theorem selectLoop_spec (scores : UMap Nat ℚ) (t : ℚ) :
    ∀ (k i : Nat) (l : List Nat), (∀ u ∈ l, (scores.find u).isSome = true) →
      Selected (scoreOf scores) t i l →
      ∃ i2 l2, selectLoop scores t k i l = .ok (i2, l2) ∧ List.Perm l2 l ∧
        Selected (scoreOf scores) t i2 l2 ∧ i2 ≤ i + k ∧
        (i2 = i + k ∨ ∀ q, i2 ≤ q → ∀ b, l2[q]? = some b → ¬ scoreOf scores b < t) := by
  intro k
  induction k with
  | zero =>
    intro i l _ hsel
    exact ⟨i, l, rfl, List.Perm.refl _, hsel, le_refl _, Or.inl rfl⟩
  | succ k ih =>
    intro i l hdef hsel
    obtain ⟨r, hr, hmin⟩ := scanMin_spec l scores t hdef i (l.length - i) i none
      (by have := hsel.1; omega) (le_refl _) (by intro p h1 h2; omega)
    cases r with
    | none =>
      refine ⟨i, l, by simp only [selectLoop, hr], List.Perm.refl _, hsel, by omega, Or.inr ?_⟩
      intro q hq b hb
      exact hmin q hq (List.getElem?_eq_some.1 hb).1 b hb
    | some m =>
      obtain ⟨him, hml, um, hm, hmt, hle⟩ := hmin
      have hil : i < l.length := by omega
      have hi : l[i]? = some l[i] := List.getElem?_eq_getElem hil
      have hsw : swapAt l i m = .ok ((l.set i um).set m l[i]) := by
        simp only [swapAt, hi, hm]
      have hperm := swap_perm l i m l[i] um hi hm
      have hsel2 := Selected_step (scoreOf scores) t l i m l[i] hsel hi
        ⟨him, hml, um, hm, hmt, hle⟩ um hm
      obtain ⟨i2, l2, e, hp2, hs2, hb2, hstop⟩ := ih (i + 1) _
        (fun u hu => hdef u ((List.Perm.mem_iff hperm).1 hu)) hsel2
      refine ⟨i2, l2, ?_, hp2.trans hperm, hs2, by omega, ?_⟩
      · simp only [selectLoop, hr, hsw]
        exact e
      · rcases hstop with h | h
        · exact Or.inl (by omega)
        · exact Or.inr h

/-- The count of the sorting branch on a score map that covers the vector. -/
theorem countBelow_spec (l : List Nat) (scores : UMap Nat ℚ) (t : ℚ)
    (hdef : ∀ u ∈ l, (scores.find u).isSome = true) :
    ∀ (k i : Nat), i ≤ l.length →
      (∀ p, p < i → ∀ a, l[p]? = some a → scoreOf scores a < t) →
      ∃ i2, countBelow l scores t k i = .ok i2 ∧ i2 ≤ i + k ∧ i2 ≤ l.length ∧
        (∀ p, p < i2 → ∀ a, l[p]? = some a → scoreOf scores a < t) ∧
        (i2 = i + k ∨ i2 = l.length ∨ ∃ b, l[i2]? = some b ∧ ¬ scoreOf scores b < t) := by
  intro k
  induction k with
  | zero => intro i hi h; exact ⟨i, rfl, le_refl _, hi, h, Or.inl rfl⟩
  | succ k ih =>
    intro i hi h
    by_cases hil : i < l.length
    · have hget : l[i]? = some l[i] := List.getElem?_eq_getElem hil
      have hat := atKey_of_defined scores l[i] (hdef _ (List.getElem_mem _))
      by_cases hlt : scoreOf scores l[i] < t
      · obtain ⟨i2, e, h1, h2, h3, h4⟩ := ih (i + 1) (by omega) (by
          intro p hp a ha
          by_cases hpi : p = i
          · subst hpi
            rw [hget] at ha
            simp only [Option.some.injEq] at ha
            rw [← ha]; exact hlt
          · exact h p (by omega) a ha)
        refine ⟨i2, ?_, by omega, h2, h3, ?_⟩
        · simp only [countBelow, hget, hat, if_pos hlt]
          exact e
        · rcases h4 with h4 | h4 | h4
          · exact Or.inl (by omega)
          · exact Or.inr (Or.inl h4)
          · exact Or.inr (Or.inr h4)
      · exact ⟨i, by simp only [countBelow, hget, hat, if_neg hlt], by omega, hi, h,
          Or.inr (Or.inr ⟨l[i], hget, hlt⟩)⟩
    · have hnone : l[i]? = none := List.getElem?_eq_none (by omega)
      exact ⟨i, by simp only [countBelow, hnone], by omega, hi, h, Or.inr (Or.inl (by omega))⟩

theorem sorted_getElem? (sc : Nat → ℚ) (l : List Nat)
    (hs : List.Pairwise (fun a b => sc a ≤ sc b) l) (p q : Nat) (hpq : p < q) (a b : Nat)
    (ha : l[p]? = some a) (hb : l[q]? = some b) : sc a ≤ sc b := by
  obtain ⟨hp, ea⟩ := List.getElem?_eq_some.1 ha
  obtain ⟨hq, eb⟩ := List.getElem?_eq_some.1 hb
  rw [← ea, ← eb]
  exact List.pairwise_iff_getElem.1 hs p q hp hq hpq

/-- What `ThreshSelector` does on a score map that covers the candidates, for
any implementation of `std::sort` and in either branch: it never fails; it
rearranges the vector; it returns the first `i ≤ n` entries of the rearranged
vector, which are below the threshold `threshOf num den`, ascending by score
and not worse than any entry left out; and it stops short of `n` only when no
entry left out is below the threshold. -/
theorem ThreshSelector_spec (sort : (Nat → Nat → Bool) → List Nat → List Nat)
    (hsort : IsStdSort sort) (num den : Int) (uids : List Nat) (scores : UMap Nat ℚ) (n : Nat)
    (hdef : ∀ u ∈ uids, (scores.find u).isSome = true) :
    ∃ i uids1, ThreshSelector sort num den uids scores n = .ok (uids1.take i, uids1) ∧
      List.Perm uids1 uids ∧ Selected (scoreOf scores) (threshOf num den) i uids1 ∧ i ≤ n ∧
      (i = n ∨ ∀ q, i ≤ q → ∀ b, uids1[q]? = some b → ¬ scoreOf scores b < threshOf num den) := by
  by_cases hbr : 2 ^ n < uids.length
  · obtain ⟨i2, l2, e, hp, hs, hb, hstop⟩ := selectLoop_spec scores (threshOf num den) n 0 uids
      hdef ⟨Nat.zero_le _, fun p hp => by omega, fun p q _ hq => by omega,
        fun p q hp => by omega⟩
    refine ⟨i2, l2, ?_, hp, hs, by omega, ?_⟩
    · simp only [ThreshSelector, if_pos hbr, e]
    · rcases hstop with h | h
      · exact Or.inl (by omega)
      · exact Or.inr h
  · obtain ⟨hperm, hsorted⟩ := hsort (scoreOf scores) uids
    have hdef2 : ∀ u ∈ sort (fun a b => decide (scoreOf scores a < scoreOf scores b)) uids,
        (scores.find u).isSome = true := fun u hu => hdef u ((List.Perm.mem_iff hperm).1 hu)
    obtain ⟨i2, e, h1, h2, h3, h4⟩ := countBelow_spec _ scores (threshOf num den) hdef2 n 0
      (Nat.zero_le _) (fun p hp => by omega)
    have hguard : ¬ (2 ≤ uids.length ∧ ¬ ∀ u ∈ uids, (scores.find u).isSome = true) :=
      fun h => h.2 hdef
    refine ⟨i2, _, ?_, hperm, ⟨h2, h3, ?_, ?_⟩, by omega, ?_⟩
    · simp only [ThreshSelector, if_neg hbr, if_neg hguard, e]
    · intro p q hpq _ a b ha hb
      exact sorted_getElem? _ _ hsorted p q hpq a b ha hb
    · intro p q hp hq a b ha hb _
      exact sorted_getElem? _ _ hsorted p q (by omega) a b ha hb
    · rcases h4 with h4 | h4 | ⟨b0, hb0, hnb⟩
      · exact Or.inl (by omega)
      · right
        intro q hq b hb
        have := (List.getElem?_eq_some.1 hb).1
        omega
      · right
        intro q hq b hb hlt
        by_cases hqi : q = i2
        · subst hqi
          rw [hb0] at hb
          simp only [Option.some.injEq] at hb
          rw [hb] at hnb
          exact hnb hlt
        · have := sorted_getElem? _ _ hsorted i2 q (by omega) b0 b hb0 hb
          exact hnb (lt_of_le_of_lt this hlt)

/-- The selected prefix read element by element. -/
theorem mem_take_getElem? (l : List Nat) (i a : Nat) (h : a ∈ l.take i) :
    ∃ p, p < i ∧ l[p]? = some a := by
  obtain ⟨p, hp⟩ := List.mem_iff_getElem?.1 h
  rw [List.getElem?_take] at hp
  by_cases hpi : p < i
  · rw [if_pos hpi] at hp; exact ⟨p, hpi, hp⟩
  · rw [if_neg hpi] at hp; simp at hp

/-- The result of `ThreshSelector` measured against the threshold the code
computes: every returned uid is a candidate with score below
`threshOf num den`, the scores ascend, and the length is at most `n` and at
most the number of candidates below that threshold. -/
theorem ThreshSelector_sound (sort : (Nat → Nat → Bool) → List Nat → List Nat)
    (hsort : IsStdSort sort) (num den : Int) (uids : List Nat) (scores : UMap Nat ℚ) (n : Nat)
    (hdef : ∀ u ∈ uids, (scores.find u).isSome = true) :
    ∃ res uids1, ThreshSelector sort num den uids scores n = .ok (res, uids1) ∧
      (∀ u ∈ res, u ∈ uids ∧ scoreOf scores u < threshOf num den) ∧
      List.Pairwise (fun a b => scoreOf scores a ≤ scoreOf scores b) res ∧
      res.length ≤ n ∧
      res.length ≤ uids.countP (fun u => decide (scoreOf scores u < threshOf num den)) := by
  obtain ⟨i, uids1, e, hperm, ⟨hil, hbelow, hsorted, _⟩, hin, _⟩ :=
    ThreshSelector_spec sort hsort num den uids scores n hdef
  have hall : ∀ u ∈ uids1.take i, scoreOf scores u < threshOf num den := by
    intro u hu
    obtain ⟨p, hp, hpu⟩ := mem_take_getElem? uids1 i u hu
    exact hbelow p hp u hpu
  refine ⟨uids1.take i, uids1, e, ?_, ?_, ?_, ?_⟩
  · intro u hu
    exact ⟨(List.Perm.mem_iff hperm).1 (List.mem_of_mem_take hu), hall u hu⟩
  · rw [List.pairwise_iff_getElem]
    intro p q hp hq hpq
    rw [List.length_take] at hp hq
    rw [List.getElem_take, List.getElem_take]
    exact hsorted p q hpq (by omega) _ _ (List.getElem?_eq_getElem (by omega))
      (List.getElem?_eq_getElem (by omega))
  · rw [List.length_take]; omega
  · have h1 : (uids1.take i).countP (fun u => decide (scoreOf scores u < threshOf num den))
        = (uids1.take i).length :=
      List.countP_eq_length.2 (fun a ha => decide_eq_true (hall a ha))
    rw [← h1, ← List.Perm.countP_eq _ hperm]
    exact List.Sublist.countP_le _ (List.take_sublist i uids1)

/-- For a ratio that is not negative the integer quotient the code computes
is not above the ratio. -/
theorem threshOf_le (num den : Int) (hnum : 0 ≤ num) (hden : 0 < den) :
    threshOf num den ≤ (num : ℚ) / (den : ℚ) := by
  unfold threshOf
  rw [Int.tdiv_eq_ediv hnum (le_of_lt hden)]
  have hd : (0 : ℚ) < (den : ℚ) := by exact_mod_cast hden
  rw [le_div_iff₀ hd]
  have := Int.ediv_mul_le num (ne_of_gt hden)
  exact_mod_cast this

/-- Where claim C2 holds on the code: for a ratio `num/den ≥ 0` the truncated
threshold is not above `num/den`, so every returned uid is a candidate with
score below `num/den`, the scores ascend, and the length is at most `n` and at
most the number of candidates with score below `num/den`. -/
theorem ThreshSelector_nonneg_ratio (sort : (Nat → Nat → Bool) → List Nat → List Nat)
    (hsort : IsStdSort sort) (num den : Int) (hnum : 0 ≤ num) (hden : 0 < den)
    (uids : List Nat) (scores : UMap Nat ℚ) (n : Nat)
    (hdef : ∀ u ∈ uids, (scores.find u).isSome = true) :
    ∃ res uids1, ThreshSelector sort num den uids scores n = .ok (res, uids1) ∧
      (∀ u ∈ res, u ∈ uids ∧ scoreOf scores u < (num : ℚ) / (den : ℚ)) ∧
      List.Pairwise (fun a b => scoreOf scores a ≤ scoreOf scores b) res ∧
      res.length ≤ n ∧
      res.length ≤ uids.countP (fun u => decide (scoreOf scores u < (num : ℚ) / (den : ℚ))) := by
  obtain ⟨res, uids1, e, h1, h2, h3, h4⟩ :=
    ThreshSelector_sound sort hsort num den uids scores n hdef
  have hle := threshOf_le num den hnum hden
  refine ⟨res, uids1, e, fun u hu => ⟨(h1 u hu).1, lt_of_lt_of_le (h1 u hu).2 hle⟩, h2, h3, ?_⟩
  refine le_trans h4 ?_
  apply List.countP_mono_left
  intro u _ hu
  simp only [decide_eq_true_eq] at hu ⊢
  exact lt_of_lt_of_le hu hle

/-! ### The regulator operations -/

namespace MatchBin

variable {Val Tag : Type}

/-- Under the invariant the live uids are the uids with a regulator. -/
theorem live_iff_regulator {mb : MatchBin Val Tag} (h : Inv mb) (uid : Nat) :
    uid ∈ mb.uids ↔ (mb.regulators.find uid).isSome = true := by
  obtain ⟨_, _, _, _, _, hr, _⟩ := h
  rw [UMap.find_isSome_iff]
  exact (hr uid).symm

/-- Claim C11 (AdjRegulator).  Under the invariant the live uids are exactly
the uids with a regulator.  For a uid with regulator `r`, `AdjRegulator(uid,
delta)` succeeds, sets the regulator of `uid` to `max(0, r + delta)` and
changes nothing else: the other regulators, the keys of the regulator map, the
values, the tags, the live-uid list and the stepper.  For a uid without a
regulator it throws `std::out_of_range` and leaves the store as it was, with no
regulator entry for `uid`. -/
theorem C11_adj_regulator (mb : MatchBin Val Tag) (uid : Nat) (delta : ℚ) :
    (Inv mb → (uid ∈ mb.uids ↔ (mb.regulators.find uid).isSome = true)) ∧
    (∀ r, mb.regulators.find uid = some r →
      (AdjRegulator mb uid delta).1 = .ok () ∧
      (AdjRegulator mb uid delta).2.regulators.find uid = some (max 0 (r + delta)) ∧
      (∀ u, u ≠ uid →
        (AdjRegulator mb uid delta).2.regulators.find u = mb.regulators.find u) ∧
      (AdjRegulator mb uid delta).2.regulators.keys = mb.regulators.keys ∧
      (AdjRegulator mb uid delta).2.values = mb.values ∧
      (AdjRegulator mb uid delta).2.tags = mb.tags ∧
      (AdjRegulator mb uid delta).2.uids = mb.uids ∧
      (AdjRegulator mb uid delta).2.uid_stepper = mb.uid_stepper) ∧
    (mb.regulators.find uid = none →
      AdjRegulator mb uid delta = (.error .out_of_range, mb) ∧
      (AdjRegulator mb uid delta).2.regulators.find uid = none) := by
  refine ⟨fun h => live_iff_regulator h uid, ?_, ?_⟩
  · intro r hr
    have hk : uid ∈ mb.regulators.keys := (UMap.find_isSome_iff _ _).1 (by rw [hr]; rfl)
    have he : AdjRegulator mb uid delta
        = (.ok (), { mb with regulators := mb.regulators.assign uid (max 0 (r + delta)) }) := by
      simp only [AdjRegulator, UMap.atKey, hr]
    rw [he]
    refine ⟨rfl, ?_, ?_, UMap.keys_assign_of_mem _ _ _ hk, rfl, rfl, rfl, rfl⟩
    · simp [UMap.find_assign]
    · intro u hu
      simp [UMap.find_assign, hu]
  · intro hn
    have he : AdjRegulator mb uid delta = (.error .out_of_range, mb) := by
      simp only [AdjRegulator, UMap.atKey, hn]
    rw [he]
    exact ⟨rfl, hn⟩

theorem SetRegulator_ok (debug : Bool) (mb : MatchBin Val Tag) (uid : Nat) (amt r : ℚ)
    (hr : mb.regulators.find uid = some r) (h0 : 0 ≤ amt) :
    SetRegulator debug mb uid amt
      = (.ok (), { mb with regulators := mb.regulators.assign uid amt }) := by
  have ha : emp_assert debug (decide (0 ≤ amt)) = .ok () := by simp [emp_assert, h0]
  simp only [SetRegulator, ha, UMap.atKey, hr]

theorem RegsNonneg_assign {regs : UMap Nat ℚ} (h : RegsNonneg regs) (uid : Nat) (r : ℚ)
    (hr : 0 ≤ r) : RegsNonneg (regs.assign uid r) := by
  intro u x hx
  rw [UMap.find_assign] at hx
  by_cases hu : u = uid
  · rw [if_pos hu] at hx
    simp only [Option.some.injEq] at hx
    rw [← hx]; exact hr
  · rw [if_neg hu] at hx
    exact h u x hx

theorem RegsNonneg_erase {regs : UMap Nat ℚ} (h : RegsNonneg regs) (uid : Nat) :
    RegsNonneg (regs.erase uid) := by
  intro u x hx
  rw [UMap.find_erase] at hx
  by_cases hu : u = uid
  · rw [if_pos hu] at hx; simp at hx
  · rw [if_neg hu] at hx
    exact h u x hx

theorem RegsNonneg_empty : RegsNonneg (UMap.empty : UMap Nat ℚ) := by
  intro u x hx
  simp [UMap.empty, UMap.find] at hx

theorem RegsNonneg_Put (w : Nat) (mb : MatchBin Val Tag) (v : Val) (t : Tag)
    (h : RegsNonneg mb.regulators) : RegsNonneg (Put w mb v t).2.regulators := by
  rcases Put_eq w mb v t with ⟨s, _, he⟩ | ⟨e, s, _, he⟩
  · rw [he]
    exact RegsNonneg_assign h s 1 zero_le_one
  · rw [he]; exact h

theorem RegsNonneg_AdjRegulator (mb : MatchBin Val Tag) (uid : Nat) (amt : ℚ)
    (h : RegsNonneg mb.regulators) : RegsNonneg (AdjRegulator mb uid amt).2.regulators := by
  unfold AdjRegulator UMap.atKey
  cases hf : mb.regulators.find uid with
  | none => exact h
  | some r => exact RegsNonneg_assign h uid _ (le_max_left _ _)

/-- With the assertion checked, `SetRegulator` writes no negative regulator. -/
theorem RegsNonneg_SetRegulator (mb : MatchBin Val Tag) (uid : Nat) (amt : ℚ)
    (h : RegsNonneg mb.regulators) : RegsNonneg (SetRegulator true mb uid amt).2.regulators := by
  unfold SetRegulator UMap.atKey
  by_cases h0 : 0 ≤ amt
  · have ha : emp_assert true (decide (0 ≤ amt)) = .ok () := by simp [emp_assert, h0]
    rw [ha]
    cases hf : mb.regulators.find uid with
    | none => exact h
    | some r => exact RegsNonneg_assign h uid amt h0
  · have ha : emp_assert true (decide (0 ≤ amt)) = .error .assert_failed := by
      simp [emp_assert, h0]
    rw [ha]
    exact h

variable [DecidableEq Tag] [Inhabited Tag]

theorem RegsNonneg_scoreStep (st : ScoreState Tag) (uid : Nat) (h : RegsNonneg st.regulators) :
    RegsNonneg (scoreStep st uid).regulators := by
  simp only [scoreStep, UMap.subscript]
  cases hf : st.regulators.find uid with
  | none => exact RegsNonneg_assign h uid default (le_refl _)
  | some r => exact h

theorem RegsNonneg_foldl_scoreStep :
    ∀ (l : List Nat) (st : ScoreState Tag), RegsNonneg st.regulators →
      RegsNonneg (l.foldl scoreStep st).regulators := by
  intro l
  induction l with
  | nil => intro st h; exact h
  | cons x l ih => intro st h; exact ih _ (RegsNonneg_scoreStep st x h)

/-- Whatever the metric and the selector, `Match` writes no negative regulator. -/
theorem RegsNonneg_Match (metric : Tag → Tag → ℚ) (select : Selector) (mb : MatchBin Val Tag)
    (query : Tag) (n : Nat) (h : RegsNonneg mb.regulators) :
    RegsNonneg (Match metric select mb query n).2.regulators := by
  have hs : RegsNonneg (computeScores metric mb query).regulators :=
    RegsNonneg_foldl_scoreStep mb.uids _ h
  simp only [Match, finishMatch]
  cases select mb.uids (computeScores metric mb query).scores n with
  | error e => exact hs
  | ok p => exact hs

theorem RegsNonneg_step (w : Nat) (mb : MatchBin Val Tag) (op : Op Val Tag)
    (h : RegsNonneg mb.regulators) : RegsNonneg (step w true mb op).regulators := by
  cases op with
  | put v t => exact RegsNonneg_Put w mb v t h
  | delete uid => exact RegsNonneg_erase h uid
  | clear => exact RegsNonneg_empty
  | adjRegulator uid amt => exact RegsNonneg_AdjRegulator mb uid amt h
  | setRegulator uid amt => exact RegsNonneg_SetRegulator mb uid amt h
  | matchQuery metric select query n => exact RegsNonneg_Match metric select mb query n h

theorem RegsNonneg_foldl_step (w : Nat) :
    ∀ (ops : List (Op Val Tag)) (mb : MatchBin Val Tag), RegsNonneg mb.regulators →
      RegsNonneg (ops.foldl (step w true) mb).regulators := by
  intro ops
  induction ops with
  | nil => intro mb h; exact h
  | cons op ops ih => intro mb h; exact ih _ (RegsNonneg_step w mb op h)

/-- Claim C12 (SetRegulator), with `emp_assert` checked.  For a uid with a
regulator (under the invariant: a live uid), `SetRegulator(uid, value)` with
`value < 0` fails on the assertion and leaves the whole store, the regulator of
`uid` included, as it was; with `value ≥ 0` it succeeds, sets the regulator of
`uid` to `value` and changes nothing else.  Hence in every store reached from
the newly constructed one by calls of the interface no regulator is negative. -/
theorem C12_set_regulator (mb : MatchBin Val Tag) (uid : Nat) (value r : ℚ)
    (hlive : mb.regulators.find uid = some r) :
    (Inv mb → (uid ∈ mb.uids ↔ (mb.regulators.find uid).isSome = true)) ∧
    (value < 0 → SetRegulator true mb uid value = (.error .assert_failed, mb)) ∧
    (0 ≤ value →
      (SetRegulator true mb uid value).1 = .ok () ∧
      (SetRegulator true mb uid value).2.regulators.find uid = some value ∧
      (∀ u, u ≠ uid →
        (SetRegulator true mb uid value).2.regulators.find u = mb.regulators.find u) ∧
      (SetRegulator true mb uid value).2.regulators.keys = mb.regulators.keys ∧
      (SetRegulator true mb uid value).2.values = mb.values ∧
      (SetRegulator true mb uid value).2.tags = mb.tags ∧
      (SetRegulator true mb uid value).2.uids = mb.uids ∧
      (SetRegulator true mb uid value).2.uid_stepper = mb.uid_stepper) ∧
    (∀ (w : Nat) (ops : List (Op Val Tag)) (u : Nat) (x : ℚ),
      (run w true ops).regulators.find u = some x → 0 ≤ x) := by
  refine ⟨fun h => live_iff_regulator h uid, ?_, ?_, ?_⟩
  · intro hneg
    have ha : emp_assert true (decide (0 ≤ value)) = .error .assert_failed := by
      simp [emp_assert, not_le.2 hneg]
    simp only [SetRegulator, ha]
  · intro h0
    have hk : uid ∈ mb.regulators.keys := (UMap.find_isSome_iff _ _).1 (by rw [hlive]; rfl)
    rw [SetRegulator_ok true mb uid value r hlive h0]
    refine ⟨rfl, ?_, ?_, UMap.keys_assign_of_mem _ _ _ hk, rfl, rfl, rfl, rfl⟩
    · simp [UMap.find_assign]
    · intro u hu
      simp [UMap.find_assign, hu]
  · intro w ops u x hx
    exact RegsNonneg_foldl_step w ops new RegsNonneg_empty u x hx

end MatchBin

namespace MatchBin

variable {Val Tag : Type} [DecidableEq Tag] [Inhabited Tag]

/-- Witness of claim C12: in the store with uids 1 and 2 (regulators `1.0`),
`SetRegulator(1, -1)` fails and changes nothing, `SetRegulator(1, 0.5)` sets
the regulator. -/
theorem C12_set_regulator_witness :
    twoItems.regulators.find 1 = some 1 ∧
    SetRegulator true twoItems 1 (-1) = (.error .assert_failed, twoItems) ∧
    (SetRegulator true twoItems 1 (1 / 2)).2.regulators.find 1 = some (1 / 2) :=
  ⟨by decide!,
    (C12_set_regulator twoItems 1 (-1) 1 (by decide!)).2.1 (by norm_num),
    ((C12_set_regulator twoItems 1 (1 / 2) 1 (by decide!)).2.2.1 (by norm_num)).2.1⟩

/-- The score of a live uid, read off the store. -/
theorem scoreIn_live (metric : Tag → Tag → ℚ) (query : Tag) (mb : MatchBin Val Tag)
    (hinv : Inv mb) (uid : Nat) (hl : uid ∈ mb.uids) (t : Tag) (r : ℚ)
    (ht : mb.tags.find uid = some t) (hr : mb.regulators.find uid = some r) :
    scoreIn metric query mb uid = some (metric query t * r + r) := by
  obtain ⟨_, _, _, d⟩ := computeScores_spec metric mb hinv query
  unfold scoreIn
  rw [d uid, if_pos hl]
  simp only [regulated, ht, hr]

/-- The regulated distance grows with the regulator when the distance is not
negative. -/
theorem regulated_mono (d r1 r2 : ℚ) (hd : 0 ≤ d) (hle : r1 ≤ r2) :
    d * r1 + r1 ≤ d * r2 + r2 := by
  have := mul_le_mul_of_nonneg_left hle hd
  linarith

/-- Claim C13 (regulator monotonicity).  For a non-negative metric, a query
and a uid that is live in a store with tag `t` and regulator `r ≥ 0`: in any
store where the uid is live with the same tag and a regulator `r2 ≥ r` (resp.
`r2 ≤ r`) its `Match` score is not smaller (resp. not larger).  In particular
`AdjRegulator` with `delta ≥ 0` and `SetRegulator` with `value ≥ r` do not
decrease the score, `AdjRegulator` with `delta ≤ 0` and `SetRegulator` with
`0 ≤ value ≤ r` do not increase it. -/
theorem C13_regulator_monotone (metric : Tag → Tag → ℚ) (hmetric : ∀ a b, 0 ≤ metric a b)
    (query : Tag) (mb : MatchBin Val Tag) (hinv : Inv mb) (uid : Nat) (hl : uid ∈ mb.uids)
    (t : Tag) (r : ℚ) (ht : mb.tags.find uid = some t) (hr : mb.regulators.find uid = some r)
    (hr0 : 0 ≤ r) :
    scoreIn metric query mb uid = some (metric query t * r + r) ∧
    (∀ (mb2 : MatchBin Val Tag) (r2 : ℚ), Inv mb2 → uid ∈ mb2.uids →
      mb2.tags.find uid = some t → mb2.regulators.find uid = some r2 →
      ∃ s2, scoreIn metric query mb2 uid = some s2 ∧
        (r ≤ r2 → metric query t * r + r ≤ s2) ∧ (r2 ≤ r → s2 ≤ metric query t * r + r)) ∧
    (∀ delta, ∃ s2, scoreIn metric query (AdjRegulator mb uid delta).2 uid = some s2 ∧
      (0 ≤ delta → metric query t * r + r ≤ s2) ∧ (delta ≤ 0 → s2 ≤ metric query t * r + r)) ∧
    (∀ debug value, 0 ≤ value →
      ∃ s2, scoreIn metric query (SetRegulator debug mb uid value).2 uid = some s2 ∧
        (r ≤ value → metric query t * r + r ≤ s2) ∧ (value ≤ r → s2 ≤ metric query t * r + r)) := by
  have hd : 0 ≤ metric query t := hmetric query t
  have gen : ∀ (mb2 : MatchBin Val Tag) (r2 : ℚ), Inv mb2 → uid ∈ mb2.uids →
      mb2.tags.find uid = some t → mb2.regulators.find uid = some r2 →
      ∃ s2, scoreIn metric query mb2 uid = some s2 ∧
        (r ≤ r2 → metric query t * r + r ≤ s2) ∧ (r2 ≤ r → s2 ≤ metric query t * r + r) := by
    intro mb2 r2 hinv2 hl2 ht2 hr2
    exact ⟨_, scoreIn_live metric query mb2 hinv2 uid hl2 t r2 ht2 hr2,
      fun h => regulated_mono _ _ _ hd h, fun h => regulated_mono _ _ _ hd h⟩
  have hk : uid ∈ mb.regulators.keys := (UMap.find_isSome_iff _ _).1 (by rw [hr]; rfl)
  refine ⟨scoreIn_live metric query mb hinv uid hl t r ht hr, gen, ?_, ?_⟩
  · intro delta
    have he : (AdjRegulator mb uid delta).2
        = { mb with regulators := mb.regulators.assign uid (max 0 (r + delta)) } := by
      simp only [AdjRegulator, UMap.atKey, hr]
    rw [he]
    obtain ⟨s2, hs, h1, h2⟩ := gen
      { mb with regulators := mb.regulators.assign uid (max 0 (r + delta)) } (max 0 (r + delta))
      (Inv_regulators hinv hk _) hl ht (by simp [UMap.find_assign])
    refine ⟨s2, hs, fun hdl => h1 (le_max_of_le_right (by linarith)), fun hdl => h2 ?_⟩
    exact max_le hr0 (by linarith)
  · intro debug value h0
    rw [SetRegulator_ok debug mb uid value r hr h0]
    exact gen { mb with regulators := mb.regulators.assign uid value } value
      (Inv_regulators hinv hk _) hl ht (by simp [UMap.find_assign])

/-- Witness of claim C13: uid 1 of the store with tags `0` and `15`, query `1`;
raising its regulator from `1.0` to `2.0` raises its score from 2 to 4. -/
theorem C13_regulator_monotone_witness :
    scoreIn Difference 1 twoItems 1 = some 2 ∧
    scoreIn Difference 1 (SetRegulator true twoItems 1 2).2 1 = some 4 ∧
    ∃ s2, scoreIn Difference 1 (SetRegulator true twoItems 1 2).2 1 = some s2 ∧
      (1 ≤ (2 : ℚ) → Difference 1 0 * 1 + 1 ≤ s2) ∧ ((2 : ℚ) ≤ 1 → s2 ≤ Difference 1 0 * 1 + 1) :=
  ⟨by decide!, by decide!,
    (C13_regulator_monotone Difference (fun a b => by unfold Difference; positivity) 1 twoItems
      twoItems_Inv 1 (by decide) 0 1 (by decide) (by decide!) zero_le_one).2.2.2 true 2
      (by norm_num)⟩

end MatchBin

/-! ### `MatchBin::Match`: how often the metric is called -/

namespace UMap

variable {K V : Type} [DecidableEq K]

theorem find_of_mem_entries (m : UMap K V) (h : m.WF) (k : K) (v : V) (hm : (k, v) ∈ m.entries) :
    m.find k = some v := by
  induction m with
  | nil => simp [entries] at hm
  | cons e m ih =>
    obtain ⟨k1, v1⟩ := e
    have hnd : (k1 :: keys m).Nodup := h
    rw [find_cons]
    rcases List.mem_cons.1 hm with e | e
    · simp only [Prod.mk.injEq] at e
      rw [if_pos e.1.symm, e.2]
    · have hk : k ∈ keys m := List.mem_map_of_mem Prod.fst e
      have hne : ¬ k1 = k := fun eq => (List.nodup_cons.1 hnd).1 (eq ▸ hk)
      rw [if_neg hne]
      exact ih (List.nodup_cons.1 hnd).2 e

end UMap

namespace MatchBin

variable {Val Tag : Type} [DecidableEq Tag]

theorem foldl_cacheStepS_counting (metric : Tag → Tag → ℚ) (query : Tag) :
    ∀ (l : List (Nat × Tag)) (st : UMap Tag ℚ × List (Tag × Tag)),
      st.2 = st.1.keys.map (fun t => (query, t)) →
      (l.foldl (cacheStepS (countingMetric metric) query) st).1
        = l.foldl (cacheStep metric query) st.1 ∧
      (l.foldl (cacheStepS (countingMetric metric) query) st).2
        = (l.foldl (cacheStep metric query) st.1).keys.map (fun t => (query, t)) := by
  intro l
  induction l with
  | nil => intro st h; exact ⟨rfl, h⟩
  | cons e l ih =>
    intro st h
    simp only [List.foldl_cons]
    cases hf : st.1.find e.2 with
    | none =>
      have h1 : cacheStepS (countingMetric metric) query st e
          = (st.1.assign e.2 (metric query e.2), st.2 ++ [(query, e.2)]) := by
        simp only [cacheStepS, hf, countingMetric]
      have h2 : cacheStep metric query st.1 e = st.1.assign e.2 (metric query e.2) := by
        simp only [cacheStep, hf]
      rw [h1, h2]
      have := ih (st.1.assign e.2 (metric query e.2), st.2 ++ [(query, e.2)]) (by
        simp only
        rw [UMap.keys_assign_of_not_mem _ _ _ ((UMap.find_eq_none_iff _ _).1 hf), h,
          List.map_append, List.map_singleton])
      exact this
    | some d =>
      have h1 : cacheStepS (countingMetric metric) query st e = st := by
        simp only [cacheStepS, hf]
      have h2 : cacheStep metric query st.1 e = st.1 := by
        simp only [cacheStep, hf]
      rw [h1, h2]
      exact ih st h

theorem foldl_cacheStep_WF (metric : Tag → Tag → ℚ) (query : Tag) :
    ∀ (l : List (Nat × Tag)) (cache : UMap Tag ℚ), cache.WF →
      (l.foldl (cacheStep metric query) cache).WF := by
  intro l
  induction l with
  | nil => intro cache h; exact h
  | cons e l ih =>
    intro cache h
    simp only [List.foldl_cons]
    apply ih
    unfold cacheStep
    cases cache.find e.2 with
    | none => exact UMap.WF_assign _ _ _ h
    | some d => exact h

theorem foldl_cacheStep_keys (metric : Tag → Tag → ℚ) (query : Tag) :
    ∀ (l : List (Nat × Tag)) (cache : UMap Tag ℚ) (t : Tag),
      t ∈ (l.foldl (cacheStep metric query) cache).keys → t ∈ cache.keys ∨ ∃ e ∈ l, e.2 = t := by
  intro l
  induction l with
  | nil => intro cache t h; exact Or.inl h
  | cons e l ih =>
    intro cache t h
    simp only [List.foldl_cons] at h
    rcases ih _ t h with h1 | ⟨e2, he2, h2⟩
    · unfold cacheStep at h1
      cases hf : cache.find e.2 with
      | none =>
        rw [hf] at h1
        rcases (UMap.mem_keys_assign _ _ _ _).1 h1 with h3 | h3
        · exact Or.inr ⟨e, List.mem_cons_self _ _, h3.symm⟩
        · exact Or.inl h3
      | some d =>
        rw [hf] at h1
        exact Or.inl h1
    · exact Or.inr ⟨e2, List.mem_cons_of_mem _ he2, h2⟩

variable [Inhabited Tag]

/-- Claim C14 (distance cache).  `Match` is run with a call-counting stub for
the metric: an object that returns the distances of `metric` and records the
arguments of every call.  On a store that satisfies the invariant, for every
selector, query and `n`, the call returns and leaves the store exactly as
`Match` with `metric` itself does, and the calls recorded during it are: no
call twice, every call with `query` as its first argument, and a call on tag
`t` exactly when `t` is the tag of a live uid.  So the number of metric calls
is the number of distinct stored tags, which is at most the number of live
uids. -/
theorem C14_metric_calls (metric : Tag → Tag → ℚ) (select : Selector) (query : Tag) (n : Nat)
    (mb : MatchBin Val Tag) (hinv : Inv mb) :
    (MatchS (countingMetric metric) select mb [] query n).1 = Match metric select mb query n ∧
    (MatchCalls metric select mb query n).Nodup ∧
    (∀ a t, (a, t) ∈ MatchCalls metric select mb query n ↔
      a = query ∧ ∃ uid ∈ mb.uids, mb.tags.find uid = some t) ∧
    (MatchCalls metric select mb query n).length
      = ((mb.tags.entries.map Prod.snd).dedup).length ∧
    (MatchCalls metric select mb query n).length ≤ mb.uids.length := by
  obtain ⟨_, _, wt, hnd, _, _, htk⟩ := hinv
  obtain ⟨h1, h2⟩ := foldl_cacheStepS_counting metric query mb.tags.entries (UMap.empty, []) rfl
  have hwf : (buildMatches metric query mb.tags).WF :=
    foldl_cacheStep_WF metric query mb.tags.entries UMap.empty (by
      unfold UMap.WF; simp [UMap.keys, UMap.entries, UMap.empty])
  have hb1 : (buildMatchesS (countingMetric metric) query mb.tags []).1
      = buildMatches metric query mb.tags := h1
  have hcalls : MatchCalls metric select mb query n
      = (buildMatches metric query mb.tags).keys.map (fun t => (query, t)) := h2
  have hkeys : ∀ t, t ∈ (buildMatches metric query mb.tags).keys ↔
      ∃ uid ∈ mb.uids, mb.tags.find uid = some t := by
    intro t
    constructor
    · intro h
      rcases foldl_cacheStep_keys metric query mb.tags.entries UMap.empty t h with h3 | ⟨e, he, h3⟩
      · simp [UMap.keys, UMap.entries, UMap.empty] at h3
      · have hf : mb.tags.find e.1 = some t :=
          UMap.find_of_mem_entries _ wt e.1 t (by rw [← h3]; exact he)
        refine ⟨e.1, (htk e.1).1 ?_, hf⟩
        rw [← UMap.find_isSome_iff, hf]
        rfl
    · rintro ⟨uid, _, hu⟩
      rw [← UMap.find_isSome_iff, buildMatches_find metric query mb.tags uid t hu]
      rfl
  have hmem : ∀ a t, (a, t) ∈ MatchCalls metric select mb query n ↔
      a = query ∧ ∃ uid ∈ mb.uids, mb.tags.find uid = some t := by
    intro a t
    rw [hcalls, List.mem_map, ← hkeys t]
    constructor
    · rintro ⟨t1, ht1, e⟩
      simp only [Prod.mk.injEq] at e
      exact ⟨e.1.symm, e.2 ▸ ht1⟩
    · rintro ⟨rfl, ht⟩
      exact ⟨t, ht, rfl⟩
  have hlen : (MatchCalls metric select mb query n).length
      = (buildMatches metric query mb.tags).keys.length := by
    rw [hcalls, List.length_map]
  have hdd : (buildMatches metric query mb.tags).keys.length
      = ((mb.tags.entries.map Prod.snd).dedup).length := by
    apply List.Perm.length_eq
    rw [List.perm_ext_iff_of_nodup hwf (List.nodup_dedup _)]
    intro t
    rw [hkeys t, List.mem_dedup, List.mem_map]
    constructor
    · rintro ⟨uid, _, hu⟩
      exact ⟨(uid, t), UMap.mem_entries_of_find _ _ _ hu, rfl⟩
    · rintro ⟨e, he, h3⟩
      have hf : mb.tags.find e.1 = some t :=
        UMap.find_of_mem_entries _ wt e.1 t (by rw [← h3]; exact he)
      refine ⟨e.1, (htk e.1).1 ?_, hf⟩
      rw [← UMap.find_isSome_iff, hf]
      rfl
  refine ⟨?_, ?_, hmem, hlen.trans hdd, ?_⟩
  · simp only [MatchS, Match, computeScores, hb1]
  · rw [hcalls]
    exact List.Nodup.map (fun a b e => (Prod.mk.injEq _ _ _ _ ▸ e : _ ∧ _).2) hwf
  · rw [hlen, hdd]
    calc ((mb.tags.entries.map Prod.snd).dedup).length
        ≤ (mb.tags.entries.map Prod.snd).length := (List.dedup_sublist _).length_le
      _ = mb.tags.keys.length := by simp [UMap.keys]
      _ = mb.uids.length :=
          List.Perm.length_eq ((List.perm_ext_iff_of_nodup wt hnd).2 htk)

theorem fiveSameTag_Inv : Inv fiveSameTag :=
  (PutAll_spec 3 [("a", 7), ("b", 7), ("c", 7), ("d", 7), ("e", 7)] new Inv_new).1

/-- Witness of claim C14: with five items sharing the tag `7`, one call of
`Match` calls the metric exactly once, on `(query, 7)`. -/
theorem C14_metric_calls_witness :
    fiveSameTag.uids = [1, 2, 3, 4, 5] ∧
    MatchCalls Difference (ThreshSelector insertionStdSort 100 1) fiveSameTag 1 3 = [(1, 7)] ∧
    (MatchS (countingMetric Difference) (ThreshSelector insertionStdSort 100 1) fiveSameTag [] 1 3).1
      = Match Difference (ThreshSelector insertionStdSort 100 1) fiveSameTag 1 3 ∧
    (MatchCalls Difference (ThreshSelector insertionStdSort 100 1) fiveSameTag 1 3).length
      = ((fiveSameTag.tags.entries.map Prod.snd).dedup).length :=
  ⟨by decide, by decide!,
    (C14_metric_calls Difference (ThreshSelector insertionStdSort 100 1) 1 3 fiveSameTag
      fiveSameTag_Inv).1,
    (C14_metric_calls Difference (ThreshSelector insertionStdSort 100 1) 1 3 fiveSameTag
      fiveSameTag_Inv).2.2.2.1⟩

end MatchBin

/-! ### `MatchBin::Match`: what it leaves of the store -/

namespace MatchBin

variable {Val Tag : Type}

theorem finishMatch_frame (mb : MatchBin Val Tag) (r : Except Error (List Nat × List Nat)) :
    (finishMatch mb r).2.values = mb.values ∧ (finishMatch mb r).2.tags = mb.tags ∧
    (finishMatch mb r).2.regulators = mb.regulators ∧
    (finishMatch mb r).2.uid_stepper = mb.uid_stepper ∧
    ((finishMatch mb r).2.uids = mb.uids ∨ ∃ res, r = .ok (res, (finishMatch mb r).2.uids)) := by
  cases r with
  | error e => exact ⟨rfl, rfl, rfl, rfl, Or.inl rfl⟩
  | ok p =>
    obtain ⟨res, uids1⟩ := p
    exact ⟨rfl, rfl, rfl, rfl, Or.inr ⟨res, rfl⟩⟩

variable [DecidableEq Tag] [Inhabited Tag]

/-- Counterexample to claim C15 as stated: in the store with uids `[1, 2]`
(tags `0` and `15`) the query `14` scores uid 2 better than uid 1;
`ThreshSelector` sorts the member vector in place, and after the call the
live-uid list is `[2, 1]`, no longer in insertion order. -/
theorem C15_thresh_reorders_counterexample :
    Inv twoItems ∧ twoItems.uids = [1, 2] ∧
    (Match Difference (ThreshSelector insertionStdSort 100 1) twoItems 14 2).1 = .ok [2, 1] ∧
    (Match Difference (ThreshSelector insertionStdSort 100 1) twoItems 14 2).2.uids = [2, 1] ∧
    (Match Difference (ThreshSelector insertionStdSort 100 1) twoItems 14 2).2.uids
      ≠ twoItems.uids :=
  ⟨twoItems_Inv, by decide, by decide!, by decide!, by decide!⟩

/-- Claim C15, as amended (what `Match` leaves of the store).  On a store that
satisfies the invariant, `Match` with either selector leaves the value, tag
and regulator maps and the stepper as they were.  With `RouletteSelector` the
whole store, live-uid list included, is unchanged.  With `ThreshSelector` the
live-uid list holds the same uids as before, rearranged. -/
theorem C15_match_frame (metric : Tag → Tag → ℚ) (mb : MatchBin Val Tag) (hinv : Inv mb)
    (query : Tag) (n : Nat) (sort : (Nat → Nat → Bool) → List Nat → List Nat)
    (hsort : IsStdSort sort) (num den : Int) (debug : Bool) (rand : Nat → ℚ → ℚ) :
    ((Match metric (ThreshSelector sort num den) mb query n).2.values = mb.values ∧
      (Match metric (ThreshSelector sort num den) mb query n).2.tags = mb.tags ∧
      (Match metric (ThreshSelector sort num den) mb query n).2.regulators = mb.regulators ∧
      (Match metric (ThreshSelector sort num den) mb query n).2.uid_stepper = mb.uid_stepper ∧
      List.Perm (Match metric (ThreshSelector sort num den) mb query n).2.uids mb.uids) ∧
    (Match metric (RouletteSelector debug rand) mb query n).2 = mb := by
  obtain ⟨a, _, c, _⟩ := computeScores_spec metric mb hinv query
  constructor
  · have hM : Match metric (ThreshSelector sort num den) mb query n
        = finishMatch mb (ThreshSelector sort num den mb.uids
            (computeScores metric mb query).scores n) := by
      simp only [Match, a, c]
    rw [hM]
    obtain ⟨h1, h2, h3, h4, h5⟩ := finishMatch_frame mb
      (ThreshSelector sort num den mb.uids (computeScores metric mb query).scores n)
    refine ⟨h1, h2, h3, h4, ?_⟩
    rcases h5 with h5 | ⟨res, h5⟩
    · rw [h5]
    · exact ThreshSelector_perm sort hsort num den _ _ n res _ h5
  · have hM : Match metric (RouletteSelector debug rand) mb query n
        = finishMatch mb (RouletteSelector debug rand mb.uids
            (computeScores metric mb query).scores n) := by
      simp only [Match, a, c]
    rw [hM]
    cases hr : RouletteSelector debug rand mb.uids (computeScores metric mb query).scores n with
    | error e => rfl
    | ok p =>
      obtain ⟨res, uids1⟩ := p
      have := RouletteSelector_uids debug rand _ _ n res uids1 hr
      subst this
      rfl

/-- Witness of claim C15: the store with uids `[1, 2]`, query `14`. -/
theorem C15_match_frame_witness :
    List.Perm (Match Difference (ThreshSelector insertionStdSort 100 1) twoItems 14 2).2.uids
      twoItems.uids ∧
    (Match Difference (RouletteSelector true midSource) twoItems 14 2).2 = twoItems :=
  have h := C15_match_frame Difference twoItems twoItems_Inv 14 2 insertionStdSort
    insertionStdSort_isStdSort 100 1 true midSource
  ⟨h.1.2.2.2.2, h.2⟩

end MatchBin

/-! ### `WeightedSet::Adjust`: what it changes -/

namespace WeightedSet

theorem ancestors_lt : ∀ (fuel c a : Nat), a ∈ ancestors fuel c → a < c := by
  intro fuel
  induction fuel with
  | zero => intro c a h; simp [ancestors] at h
  | succ fuel ih =>
    intro c a h
    by_cases hc : 0 < c
    · simp only [ancestors, if_pos hc, List.mem_cons] at h
      have hp := ParentID_lt hc
      rcases h with h | h
      · omega
      · have := ih _ _ h
        omega
    · simp [ancestors, hc] at h

/-- The root is an ancestor of every other node. -/
theorem ancestors_root : ∀ (fuel c : Nat), c ≤ fuel → 0 < c → 0 ∈ ancestors fuel c := by
  intro fuel
  induction fuel with
  | zero => intro c h1 h2; omega
  | succ fuel ih =>
    intro c h1 h2
    simp only [ancestors, if_pos h2, List.mem_cons]
    by_cases hp : 0 < ParentID c
    · exact Or.inr (ih _ (by have := ParentID_lt h2; omega) hp)
    · exact Or.inl (by omega)

/-- The walk of `Adjust` from node `c` to the root adds `d` to the subtree
weight of each proper ancestor of `c`, once, and changes nothing else. -/
theorem adjustLoop_tree (d : ℚ) :
    ∀ (fuel c : Nat) (w : List WeightInfo), c ≤ fuel → c < w.length →
      ∃ w2, adjustLoop d fuel c w = .ok w2 ∧ w2.length = w.length ∧
        (∀ i, itemAt w2 i = itemAt w i) ∧
        (∀ i, treeAt w2 i = treeAt w i + (if i ∈ ancestors fuel c then d else 0)) := by
  intro fuel
  induction fuel with
  | zero =>
    intro c w hcf _
    have hc0 : c = 0 := by omega
    subst hc0
    exact ⟨w, by simp [adjustLoop], rfl, fun _ => rfl, fun i => by simp [ancestors]⟩
  | succ fuel ih =>
    intro c w hcf hcl
    by_cases hc : 0 < c
    · have hp := ParentID_lt hc
      have hpl : ParentID c < w.length := by omega
      have hx : w[ParentID c]? = some w[ParentID c] := List.getElem?_eq_getElem hpl
      obtain ⟨w2, e, hl, hit, htr⟩ := ih (ParentID c)
        (w.set (ParentID c) { w[ParentID c] with tree := w[ParentID c].tree + d }) (by omega)
        (by rw [List.length_set]; exact hpl)
      refine ⟨w2, ?_, ?_, ?_, ?_⟩
      · simp only [adjustLoop, if_pos hc, addTree, hx]
        exact e
      · rw [hl, List.length_set]
      · intro i
        rw [hit i, itemAt_set w _ _ hpl]
        by_cases hi : i = ParentID c
        · subst hi; simp [itemAt, hx]
        · simp [hi]
      · intro i
        rw [htr i, treeAt_set w _ _ hpl]
        simp only [ancestors, if_pos hc, List.mem_cons]
        by_cases hi : i = ParentID c
        · have hni : i ∉ ancestors fuel (ParentID c) := fun h => by
            have := ancestors_lt _ _ _ h
            omega
          rw [if_pos hi, if_neg hni, if_pos (Or.inl hi), add_zero]
          subst hi
          rw [treeAt_of_getElem? hx]
        · rw [if_neg hi]
          by_cases ha : i ∈ ancestors fuel (ParentID c)
          · rw [if_pos ha, if_pos (Or.inr ha)]
          · rw [if_neg ha, if_neg (by rintro (h | h); exact hi h; exact ha h)]
    · exact ⟨w, by simp [adjustLoop, hc], rfl, fun _ => rfl, fun i => by simp [ancestors, hc]⟩

/-- Claim C16 (effect of `Adjust`).  In any state, for `id` inside the vector:
`Adjust(id, new_weight)` succeeds and keeps the capacity; the item weight of
`id` becomes `new_weight` and no other item weight changes; the subtree weight
of `id` and of each proper ancestor of `id` (the root among them) grows by
exactly `delta = new_weight - item_weight[id]`, and no other subtree weight
changes. -/
theorem C16_adjust_frame (ws : WeightedSet) (id : Nat) (new_weight : ℚ)
    (hid : id < ws.weight.length) :
    ∃ ws2, Adjust ws id new_weight = .ok ws2 ∧ ws2.weight.length = ws.weight.length ∧
      (∀ i, itemAt ws2.weight i = if i = id then new_weight else itemAt ws.weight i) ∧
      (∀ i, treeAt ws2.weight i
        = treeAt ws.weight i
          + (if i = id ∨ i ∈ ancestors id id then new_weight - itemAt ws.weight id else 0)) ∧
      (0 < id → 0 ∈ ancestors id id) ∧
      (∀ a, a ∈ ancestors id id → a < id ∧
        (a = ParentID id ∨ ∃ c, c ∈ ancestors id id ∧ 0 < c ∧ a = ParentID c)) := by
  have hx : ws.weight[id]? = some ws.weight[id] := List.getElem?_eq_getElem hid
  have hxi : itemAt ws.weight id = ws.weight[id].item := itemAt_of_getElem? hx
  have hxt : treeAt ws.weight id = ws.weight[id].tree := treeAt_of_getElem? hx
  obtain ⟨w2, e, hl, hit, htr⟩ := adjustLoop_tree (new_weight - ws.weight[id].item) id id
    (ws.weight.set id
      { item := new_weight, tree := ws.weight[id].tree + (new_weight - ws.weight[id].item) })
    (le_refl _) (by rw [List.length_set]; exact hid)
  refine ⟨⟨w2⟩, ?_, ?_, ?_, ?_, fun h => ancestors_root id id (le_refl _) h, ?_⟩
  · simp only [Adjust, hx, e]
  · simp only [hl, List.length_set]
  · intro i
    simp only [hit i]
    rw [itemAt_set _ _ _ hid]
  · intro i
    simp only [htr i]
    rw [treeAt_set _ _ _ hid, hxi]
    by_cases hi : i = id
    · have hni : i ∉ ancestors id id := fun h => by
        have := ancestors_lt _ _ _ h
        omega
      rw [if_pos hi, if_neg hni, if_pos (Or.inl hi), add_zero]
      subst hi
      rw [hxt]
    · rw [if_neg hi]
      by_cases ha : i ∈ ancestors id id
      · rw [if_pos ha, if_pos (Or.inr ha)]
      · rw [if_neg ha, if_neg (by rintro (h | h); exact hi h; exact ha h)]
  · intro a ha
    refine ⟨ancestors_lt _ _ _ ha, ?_⟩
    have key : ∀ (fuel c : Nat), a ∈ ancestors fuel c →
        a = ParentID c ∨ ∃ c2, c2 ∈ ancestors fuel c ∧ 0 < c2 ∧ a = ParentID c2 := by
      intro fuel
      induction fuel with
      | zero => intro c h; simp [ancestors] at h
      | succ fuel ih =>
        intro c h
        by_cases hc : 0 < c
        · simp only [ancestors, if_pos hc, List.mem_cons] at h ⊢
          rcases h with h | h
          · exact Or.inl h
          · right
            rcases ih _ h with h2 | ⟨c2, hc2, hpos, h2⟩
            · have hpp : 0 < ParentID c := by
                by_contra hz
                have : ParentID c = 0 := by omega
                rw [this] at h
                cases fuel with
                | zero => simp [ancestors] at h
                | succ f => simp [ancestors] at h
              exact ⟨ParentID c, Or.inl rfl, hpp, h2⟩
            · exact ⟨c2, Or.inr hc2, hpos, h2⟩
        · simp [ancestors, hc] at h
    exact key id id ha

/-- Witness of claim C16: capacity 4 with all weights zero, `Adjust(3, 2)`;
the ancestors of node 3 are nodes 1 and 0. -/
theorem C16_adjust_frame_witness :
    ancestors 3 3 = [1, 0] ∧
    ∃ ws2, Adjust (new 4) 3 2 = .ok ws2 ∧ ws2.weight.length = (new 4).weight.length ∧
      (∀ i, itemAt ws2.weight i = if i = 3 then 2 else itemAt (new 4).weight i) ∧
      (∀ i, treeAt ws2.weight i
        = treeAt (new 4).weight i
          + (if i = 3 ∨ i ∈ ancestors 3 3 then 2 - itemAt (new 4).weight 3 else 0)) :=
  ⟨by decide,
    have h := C16_adjust_frame (new 4) 3 2 (by decide)
    match h with
    | ⟨ws2, a, b, c, d, _⟩ => ⟨ws2, a, b, c, d⟩⟩

end WeightedSet

/-! ### The Hamming scenario -/

/-- Any `std::sort` leaves two elements whose keys already ascend in place. -/
theorem sort_pair (sort : (Nat → Nat → Bool) → List Nat → List Nat) (hsort : IsStdSort sort)
    (key : Nat → ℚ) (a b : Nat) (hab : key a < key b) :
    sort (fun x y => decide (key x < key y)) [a, b] = [a, b] := by
  obtain ⟨hperm, hsorted⟩ := hsort key [a, b]
  generalize sort (fun x y => decide (key x < key y)) [a, b] = l at hperm hsorted
  have hlen : l.length = 2 := by rw [List.Perm.length_eq hperm]; rfl
  match l, hlen with
  | [x, y], _ =>
    have hx : x ∈ [a, b] := (List.Perm.mem_iff hperm).1 (by simp)
    have hy : y ∈ [a, b] := (List.Perm.mem_iff hperm).1 (by simp)
    have ha : a ∈ [x, y] := (List.Perm.mem_iff hperm).2 (by simp)
    have hb : b ∈ [x, y] := (List.Perm.mem_iff hperm).2 (by simp)
    have hxy : key x ≤ key y := by
      simpa using hsorted
    have hne : a ≠ b := fun e => by rw [e] at hab; exact lt_irrefl _ hab
    simp only [List.mem_cons, List.mem_singleton, List.not_mem_nil, or_false] at hx hy ha hb
    rcases hx with rfl | rfl
    · rcases hy with rfl | rfl
      · rcases hb with h | h <;> exact absurd h.symm hne
      · rfl
    · rcases hy with rfl | rfl
      · exact absurd hab (not_lt.2 hxy)
      · rcases ha with h | h <;> exact absurd h hne

namespace MatchBin

/-- Claim C17 (Hamming scenario).  In a new store over 4-bit tags with the
Hamming metric and `ThreshSelector<std::ratio<3,1>>`, whatever the
implementation of `std::sort`: `Put(v1, 0b0000)` returns uid 1, `Put(v2,
0b1111)` returns uid 2, the query `0b0001` scores them `1 + 1 = 2` and
`3 + 1 = 4` (three of the four bits of `0b1111` differ from `0b0001`), and
`Match(0b0001, 2)` returns exactly `[1]`. -/
theorem C17_hamming_scenario (sort : (Nat → Nat → Bool) → List Nat → List Nat)
    (hsort : IsStdSort sort) :
    (PutAll 64 (new : MatchBin String Nat) [("v1", 0b0000), ("v2", 0b1111)]).1 = [.ok 1, .ok 2] ∧
    scoreIn (HammingDistance 4) 0b0001 hammingStore 1 = some 2 ∧
    scoreIn (HammingDistance 4) 0b0001 hammingStore 2 = some 4 ∧
    (Match (HammingDistance 4) (ThreshSelector sort 3 1) hammingStore 0b0001 2).1 = .ok [1] := by
  refine ⟨by decide, by decide!, by decide!, ?_⟩
  have hu : hammingStore.uids = [1, 2] := by decide
  have hsc : (computeScores (HammingDistance 4) hammingStore 0b0001).scores
      = ([(1, 2), (2, 4)] : List (Nat × ℚ)) := by decide!
  have hk : scoreOf ([(1, 2), (2, 4)] : List (Nat × ℚ)) 1
      < scoreOf ([(1, 2), (2, 4)] : List (Nat × ℚ)) 2 := by decide!
  have hs := sort_pair sort hsort (scoreOf ([(1, 2), (2, 4)] : List (Nat × ℚ))) 1 2 hk
  have hguard : ¬ (2 ≤ ([1, 2] : List Nat).length ∧
      ¬ ∀ u ∈ ([1, 2] : List Nat),
        (UMap.find ([(1, 2), (2, 4)] : List (Nat × ℚ)) u).isSome = true) := by decide!
  have hbr : ¬ 2 ^ 2 < ([1, 2] : List Nat).length := by decide
  have hcount : countBelow [1, 2] ([(1, 2), (2, 4)] : List (Nat × ℚ)) (threshOf 3 1) 2 0
      = .ok 1 := by decide!
  have hT : ThreshSelector sort 3 1 [1, 2] ([(1, 2), (2, 4)] : List (Nat × ℚ)) 2
      = .ok ([1], [1, 2]) := by
    simp only [ThreshSelector, if_neg hbr, if_neg hguard, hs, hcount]
    rfl
  simp only [Match, hu, hsc, hT, finishMatch]

/-- Witness of claim C17, with insertion sort for `std::sort`. -/
theorem C17_hamming_scenario_witness :
    (Match (HammingDistance 4) (ThreshSelector insertionStdSort 3 1) hammingStore 0b0001 2).1
      = .ok [1] :=
  (C17_hamming_scenario insertionStdSort insertionStdSort_isStdSort).2.2.2

end MatchBin

/-! ### `ThreshSelector`: the best candidates, and the two branches compared -/

/-- The selector is its two branches under the test `n < log2(uids.size())`. -/
theorem ThreshSelector_branches (sort : (Nat → Nat → Bool) → List Nat → List Nat)
    (num den : Int) (uids : List Nat) (scores : UMap Nat ℚ) (n : Nat) :
    ThreshSelector sort num den uids scores n
      = if 2 ^ n < uids.length then threshSelectBranch (threshOf num den) uids scores n
        else threshSortBranch sort (threshOf num den) uids scores n := rfl

/-- The selection branch on a score map that covers the candidates, whatever
`n` and the number of candidates. -/
theorem threshSelectBranch_spec (thresh : ℚ) (uids : List Nat) (scores : UMap Nat ℚ) (n : Nat)
    (hdef : ∀ u ∈ uids, (scores.find u).isSome = true) :
    ∃ i uids1, threshSelectBranch thresh uids scores n = .ok (uids1.take i, uids1) ∧
      List.Perm uids1 uids ∧ Selected (scoreOf scores) thresh i uids1 ∧ i ≤ n ∧
      (i = n ∨ ∀ q, i ≤ q → ∀ b, uids1[q]? = some b → ¬ scoreOf scores b < thresh) := by
  obtain ⟨i2, l2, e, hp, hs, hb, hstop⟩ := selectLoop_spec scores thresh n 0 uids
    hdef ⟨Nat.zero_le _, fun p hp => by omega, fun p q _ hq => by omega,
      fun p q hp => by omega⟩
  refine ⟨i2, l2, ?_, hp, hs, by omega, ?_⟩
  · simp only [threshSelectBranch, e]
  · rcases hstop with h | h
    · exact Or.inl (by omega)
    · exact Or.inr h

/-- The sorting branch on a score map that covers the candidates, whatever
`n`, the number of candidates and the implementation of `std::sort`. -/
theorem threshSortBranch_spec (sort : (Nat → Nat → Bool) → List Nat → List Nat)
    (hsort : IsStdSort sort) (thresh : ℚ) (uids : List Nat) (scores : UMap Nat ℚ) (n : Nat)
    (hdef : ∀ u ∈ uids, (scores.find u).isSome = true) :
    ∃ i uids1, threshSortBranch sort thresh uids scores n = .ok (uids1.take i, uids1) ∧
      List.Perm uids1 uids ∧ Selected (scoreOf scores) thresh i uids1 ∧ i ≤ n ∧
      (i = n ∨ ∀ q, i ≤ q → ∀ b, uids1[q]? = some b → ¬ scoreOf scores b < thresh) := by
  obtain ⟨hperm, hsorted⟩ := hsort (scoreOf scores) uids
  have hdef2 : ∀ u ∈ sort (fun a b => decide (scoreOf scores a < scoreOf scores b)) uids,
      (scores.find u).isSome = true := fun u hu => hdef u ((List.Perm.mem_iff hperm).1 hu)
  obtain ⟨i2, e, h1, h2, h3, h4⟩ := countBelow_spec _ scores thresh hdef2 n 0
    (Nat.zero_le _) (fun p hp => by omega)
  have hguard : ¬ (2 ≤ uids.length ∧ ¬ ∀ u ∈ uids, (scores.find u).isSome = true) :=
    fun h => h.2 hdef
  refine ⟨i2, _, ?_, hperm, ⟨h2, h3, ?_, ?_⟩, by omega, ?_⟩
  · simp only [threshSortBranch, if_neg hguard, e]
  · intro p q hpq _ a b ha hb
    exact sorted_getElem? _ _ hsorted p q hpq a b ha hb
  · intro p q hp hq a b ha hb _
    exact sorted_getElem? _ _ hsorted p q (by omega) a b ha hb
  · rcases h4 with h4 | h4 | ⟨b0, hb0, hnb⟩
    · exact Or.inl (by omega)
    · right
      intro q hq b hb
      have := (List.getElem?_eq_some.1 hb).1
      omega
    · right
      intro q hq b hb hlt
      by_cases hqi : q = i2
      · subst hqi
        rw [hb0] at hb
        simp only [Option.some.injEq] at hb
        rw [hb] at hnb
        exact hnb hlt
      · have := sorted_getElem? _ _ hsorted i2 q (by omega) b0 b hb0 hb
        exact hnb (lt_of_le_of_lt this hlt)

theorem mem_drop_getElem? (l : List Nat) (i b : Nat) (h : b ∈ l.drop i) :
    ∃ q, i ≤ q ∧ l[q]? = some b := by
  obtain ⟨k, hk⟩ := List.mem_iff_getElem?.1 h
  rw [List.getElem?_drop] at hk
  exact ⟨i + k, by omega, hk⟩

/-- The selection state read on the lists: the selected prefix has `i` entries,
all below the threshold and ascending, and no entry left out scores less than
a selected one. -/
theorem Selected_lists (sc : Nat → ℚ) (t : ℚ) (i : Nat) (l : List Nat) (h : Selected sc t i l) :
    (l.take i).length = i ∧ (∀ a ∈ l.take i, sc a < t) ∧
    List.Pairwise (fun a b => sc a ≤ sc b) (l.take i) ∧
    (∀ a ∈ l.take i, ∀ b ∈ l.drop i, sc a ≤ sc b) := by
  obtain ⟨hil, hbelow, hsorted, hsplit⟩ := h
  have hall : ∀ a ∈ l.take i, sc a < t := by
    intro a ha
    obtain ⟨p, hp, hpa⟩ := mem_take_getElem? l i a ha
    exact hbelow p hp a hpa
  refine ⟨by rw [List.length_take]; omega, hall, ?_, ?_⟩
  · rw [List.pairwise_iff_getElem]
    intro p q hp hq hpq
    rw [List.length_take] at hp hq
    rw [List.getElem_take, List.getElem_take]
    exact hsorted p q hpq (by omega) _ _ (List.getElem?_eq_getElem (by omega))
      (List.getElem?_eq_getElem (by omega))
  · intro a ha b hb
    obtain ⟨p, hp, hpa⟩ := mem_take_getElem? l i a ha
    obtain ⟨q, hq, hqb⟩ := mem_drop_getElem? l i b hb
    by_cases hbt : sc b < t
    · exact hsplit p q hp hq a b hpa hqb hbt
    · exact le_trans (le_of_lt (hbelow p hp a hpa)) (not_lt.1 hbt)

/-- The number of entries selected is `min(n, q)`, `q` the number of
candidates below the threshold. -/
theorem Selected_count (sc : Nat → ℚ) (t : ℚ) (i n : Nat) (l uids : List Nat)
    (hperm : List.Perm l uids) (h : Selected sc t i l) (hin : i ≤ n)
    (hstop : i = n ∨ ∀ q, i ≤ q → ∀ b, l[q]? = some b → ¬ sc b < t) :
    i = min n (uids.countP (fun u => decide (sc u < t))) := by
  obtain ⟨hlen, hall, _, _⟩ := Selected_lists sc t i l h
  have hsum : uids.countP (fun u => decide (sc u < t))
      = (l.take i).countP (fun u => decide (sc u < t))
        + (l.drop i).countP (fun u => decide (sc u < t)) := by
    rw [← List.Perm.countP_eq _ hperm, ← List.countP_append, List.take_append_drop]
  have htake : (l.take i).countP (fun u => decide (sc u < t)) = i := by
    rw [List.countP_eq_length.2 (fun a ha => decide_eq_true (hall a ha)), hlen]
  rcases hstop with h1 | h1
  · omega
  · have hdrop : (l.drop i).countP (fun u => decide (sc u < t)) = 0 := by
      rw [List.countP_eq_zero]
      intro b hb
      obtain ⟨q, hq, hqb⟩ := mem_drop_getElem? l i b hb
      simp only [decide_eq_true_eq]
      exact h1 q hq b hqb
    omega

/-- The selected scores are determined by the candidates: two rearrangements of
the same candidates that are both in the selection state with the same count
have the same sequence of selected scores. -/
theorem Selected_scores_unique (sc : Nat → ℚ) (t : ℚ) (i : Nat) (l1 l2 : List Nat)
    (hperm : List.Perm l1 l2) (h1 : Selected sc t i l1) (h2 : Selected sc t i l2) :
    (l1.take i).map sc = (l2.take i).map sc := by
  obtain ⟨hlen1, _, hs1, hc1⟩ := Selected_lists sc t i l1 h1
  obtain ⟨hlen2, _, hs2, hc2⟩ := Selected_lists sc t i l2 h2
  have build : ∀ l : List Nat, List.Pairwise (fun a b => sc a ≤ sc b) (l.take i) →
      (∀ a ∈ l.take i, ∀ b ∈ l.drop i, sc a ≤ sc b) →
      List.Sorted (· ≤ ·)
        ((l.take i).map sc ++ List.insertionSort (· ≤ ·) ((l.drop i).map sc)) ∧
      List.Perm ((l.take i).map sc ++ List.insertionSort (· ≤ ·) ((l.drop i).map sc))
        (l.map sc) := by
    intro l hs hc
    constructor
    · unfold List.Sorted
      rw [List.pairwise_append]
      refine ⟨List.pairwise_map.2 hs, List.sorted_insertionSort _ _, ?_⟩
      intro x hx y hy
      obtain ⟨a, ha, rfl⟩ := List.mem_map.1 hx
      rw [List.mem_insertionSort] at hy
      obtain ⟨b, hb, rfl⟩ := List.mem_map.1 hy
      exact hc a ha b hb
    · have : l.map sc = (l.take i).map sc ++ (l.drop i).map sc := by
        rw [← List.map_append, List.take_append_drop]
      rw [this]
      exact List.Perm.append (List.Perm.refl _) (List.perm_insertionSort _ _)
  obtain ⟨s1, p1⟩ := build l1 hs1 hc1
  obtain ⟨s2, p2⟩ := build l2 hs2 hc2
  have heq := List.eq_of_perm_of_sorted ((p1.trans (hperm.map sc)).trans p2.symm) s1 s2
  have t1 := @List.take_left' ℚ ((l1.take i).map sc)
    (List.insertionSort (· ≤ ·) ((l1.drop i).map sc)) i
    (show ((l1.take i).map sc).length = i by rw [List.length_map, hlen1])
  have t2 := @List.take_left' ℚ ((l2.take i).map sc)
    (List.insertionSort (· ≤ ·) ((l2.drop i).map sc)) i
    (show ((l2.take i).map sc).length = i by rw [List.length_map, hlen2])
  rw [← t1, ← t2, heq]

/-- Two lists with the same image under a map that tells their elements apart
are equal. -/
theorem eq_of_map_eq {f : Nat → ℚ} :
    ∀ (l1 l2 : List Nat), (∀ a ∈ l1, ∀ b ∈ l2, f a = f b → a = b) →
      l1.map f = l2.map f → l1 = l2 := by
  intro l1
  induction l1 with
  | nil =>
    intro l2 _ h
    cases l2 with
    | nil => rfl
    | cons b l2 => simp at h
  | cons a l1 ih =>
    intro l2 hinj h
    cases l2 with
    | nil => simp at h
    | cons b l2 =>
      simp only [List.map_cons, List.cons.injEq] at h
      have hab : a = b := hinj a (List.mem_cons_self _ _) b (List.mem_cons_self _ _) h.1
      rw [hab, ih l2 (fun x hx y hy => hinj x (List.mem_cons_of_mem _ hx) y
        (List.mem_cons_of_mem _ hy)) h.2]

/-- Against the threshold the code computes, `ThreshSelector` returns the best
qualifying candidates: `min(n, q)` of them, `q` the number of candidates with
score below `threshOf num den`, and no candidate left out scores less than a
returned one. -/
theorem ThreshSelector_best (sort : (Nat → Nat → Bool) → List Nat → List Nat)
    (hsort : IsStdSort sort) (num den : Int) (uids : List Nat) (scores : UMap Nat ℚ) (n : Nat)
    (hdef : ∀ u ∈ uids, (scores.find u).isSome = true) :
    ∃ i uids1, ThreshSelector sort num den uids scores n = .ok (uids1.take i, uids1) ∧
      List.Perm uids1 uids ∧
      (uids1.take i).length
        = min n (uids.countP (fun u => decide (scoreOf scores u < threshOf num den))) ∧
      ∀ a ∈ uids1.take i, ∀ b ∈ uids1.drop i, ¬ scoreOf scores b < scoreOf scores a := by
  obtain ⟨i, uids1, e, hperm, hsel, hin, hstop⟩ :=
    ThreshSelector_spec sort hsort num den uids scores n hdef
  obtain ⟨hlen, _, _, hc⟩ := Selected_lists _ _ i uids1 hsel
  refine ⟨i, uids1, e, hperm, ?_, fun a ha b hb => not_lt.2 (hc a ha b hb)⟩
  rw [hlen]
  exact Selected_count _ _ i n uids1 uids hperm hsel hin hstop

/-- Claim C18 fails on the code: with `ratio = 1/2` the threshold computed by
`ratio::num / ratio::den` is `0`, so the one candidate, of score `1/4`, which
is below `1/2`, is not returned: the result is empty although `min(n, q) = 1`. -/
theorem C18_thresh_fraction_truncated :
    threshOf 1 2 = 0 ∧
    ThreshSelector insertionStdSort 1 2 [5] [(5, 1 / 4)] 1 = .ok ([], [5]) ∧
    scoreOf [(5, 1 / 4)] 5 = 1 / 4 ∧
    ([5] : List Nat).countP (fun u => decide (scoreOf [(5, 1 / 4)] u < (1 : ℚ) / 2)) = 1 ∧
    ([] : List Nat).length ≠ min 1 1 := by
  refine ⟨by decide!, by decide!, by decide!, by decide!, by decide⟩

/-- Claim C20 (the two branches agree).  For every threshold, every candidate
list, every score map that covers the candidates, every `n` and every
implementation of `std::sort`: the bounded selection sort and the full sort
both succeed and return lists with the same sequence of scores, and the same
list of uids when no two candidates have the same score.  `ThreshSelector`
returns one or the other according to the test `n < log2(uids.size())`. -/
theorem C20_branches_agree (sort : (Nat → Nat → Bool) → List Nat → List Nat)
    (hsort : IsStdSort sort) (thresh : ℚ) (uids : List Nat) (scores : UMap Nat ℚ) (n : Nat)
    (hdef : ∀ u ∈ uids, (scores.find u).isSome = true) :
    ∃ r1 u1 r2 u2,
      threshSelectBranch thresh uids scores n = .ok (r1, u1) ∧
      threshSortBranch sort thresh uids scores n = .ok (r2, u2) ∧
      r1.map (scoreOf scores) = r2.map (scoreOf scores) ∧
      ((∀ a ∈ uids, ∀ b ∈ uids, scoreOf scores a = scoreOf scores b → a = b) → r1 = r2) ∧
      (∀ num den, threshOf num den = thresh →
        ThreshSelector sort num den uids scores n
          = if 2 ^ n < uids.length then .ok (r1, u1) else .ok (r2, u2)) := by
  obtain ⟨i1, l1, e1, hp1, hs1, hin1, hstop1⟩ := threshSelectBranch_spec thresh uids scores n hdef
  obtain ⟨i2, l2, e2, hp2, hs2, hin2, hstop2⟩ :=
    threshSortBranch_spec sort hsort thresh uids scores n hdef
  have hi1 := Selected_count _ _ i1 n l1 uids hp1 hs1 hin1 hstop1
  have hi2 := Selected_count _ _ i2 n l2 uids hp2 hs2 hin2 hstop2
  have hi : i2 = i1 := by rw [hi1, hi2]
  subst hi
  have hsc := Selected_scores_unique (scoreOf scores) thresh i2 l1 l2 (hp1.trans hp2.symm) hs1 hs2
  refine ⟨l1.take i2, l1, l2.take i2, l2, e1, e2, hsc, ?_, ?_⟩
  · intro hinj
    apply eq_of_map_eq _ _ _ hsc
    intro a ha b hb hab
    exact hinj a ((List.Perm.mem_iff hp1).1 (List.mem_of_mem_take ha)) b
      ((List.Perm.mem_iff hp2).1 (List.mem_of_mem_take hb)) hab
  · intro num den ht
    rw [ThreshSelector_branches, ht, e1, e2]

/-- Witness of claim C20: five candidates, threshold 10, `n = 2`; both
branches return `[4, 2]`. -/
theorem C20_branches_agree_witness :
    threshSelectBranch 10 [1, 2, 3, 4, 5] [(1, 5), (2, 3), (3, 4), (4, 1), (5, 9)] 2
      = .ok ([4, 2], [4, 2, 3, 1, 5]) ∧
    threshSortBranch insertionStdSort 10 [1, 2, 3, 4, 5] [(1, 5), (2, 3), (3, 4), (4, 1), (5, 9)] 2
      = .ok ([4, 2], [4, 2, 3, 1, 5]) ∧
    ∃ r1 u1 r2 u2,
      threshSelectBranch 10 [1, 2, 3, 4, 5] [(1, 5), (2, 3), (3, 4), (4, 1), (5, 9)] 2
        = .ok (r1, u1) ∧
      threshSortBranch insertionStdSort 10 [1, 2, 3, 4, 5]
        [(1, 5), (2, 3), (3, 4), (4, 1), (5, 9)] 2 = .ok (r2, u2) ∧
      r1.map (scoreOf [(1, 5), (2, 3), (3, 4), (4, 1), (5, 9)])
        = r2.map (scoreOf [(1, 5), (2, 3), (3, 4), (4, 1), (5, 9)]) :=
  ⟨by decide!, by decide!,
    match C20_branches_agree insertionStdSort insertionStdSort_isStdSort 10 [1, 2, 3, 4, 5]
      [(1, 5), (2, 3), (3, 4), (4, 1), (5, 9)] 2 (by decide) with
    | ⟨r1, u1, r2, u2, a, b, c, _⟩ => ⟨r1, u1, r2, u2, a, b, c⟩⟩

/-! ### The `Push` metric -/

theorem PushDifference_eq (M a b : Nat) (hM : M + 1 < 2 ^ 31) (ha : a ≤ M) (hb : b ≤ M) :
    PushDifference M a b = ((M + 1) + b - a) % (M + 1) ∧
    PushDifference M a b = if a ≤ b then b - a else (M + 1) - (a - b) := by
  have h31 : (2 : Nat) ^ 31 = 2147483648 := by norm_num
  have h64 : (2 : Nat) ^ 64 = 18446744073709551616 := by norm_num
  rw [h31] at hM
  have hm : (M + 1) % 2 ^ 64 = M + 1 := Nat.mod_eq_of_lt (by rw [h64]; omega)
  have hinner : ((M + 1 + b) % 2 ^ 64 + (2 ^ 64 - a)) % 2 ^ 64 = M + 1 + b - a := by
    rw [h64]; omega
  have hval : ((M + 1) + b - a) % (M + 1) = if a ≤ b then b - a else (M + 1) - (a - b) := by
    by_cases hab : a ≤ b
    · rw [if_pos hab]
      have : M + 1 + b - a = (b - a) + (M + 1) := by omega
      rw [this, Nat.add_mod_right]
      exact Nat.mod_eq_of_lt (by omega)
    · rw [if_neg hab]
      have : M + 1 + b - a = (M + 1) - (a - b) := by omega
      rw [this]
      exact Nat.mod_eq_of_lt (by omega)
  have hpd : PushDifference M a b = ((M + 1) + b - a) % (M + 1) := by
    simp only [PushDifference, hm, hinner, Nat.mod_mod]
  exact ⟨hpd, by rw [hpd, hval]⟩

/-- Claim C19 (circular forward distance).  For `M ≥ 0` (with `M + 1` an
`int`) and tags `a`, `b` in `[0, M]`: `Push<M>(a, b)` is
`((M+1) + b - a) mod (M+1)`, that is `b - a` when `b ≥ a` and
`(M+1) - (a - b)` when `b < a`; it lies in `[0, M]`, it is `0` exactly when
`a = b`, and `Push(a, b) + Push(b, a) = M + 1` whenever `a ≠ b`. -/
theorem C19_push_distance (M a b : Nat) (hM : M + 1 < 2 ^ 31) (ha : a ≤ M) (hb : b ≤ M) :
    Push M a b = ((((M + 1) + b - a) % (M + 1) : Nat) : ℚ) ∧
    (a ≤ b → Push M a b = ((b - a : Nat) : ℚ)) ∧
    (b < a → Push M a b = (((M + 1) - (a - b) : Nat) : ℚ)) ∧
    0 ≤ Push M a b ∧ Push M a b ≤ (M : ℚ) ∧
    (Push M a b = 0 ↔ a = b) ∧
    (a ≠ b → Push M a b + Push M b a = (M : ℚ) + 1) := by
  obtain ⟨h1, h2⟩ := PushDifference_eq M a b hM ha hb
  obtain ⟨_, h3⟩ := PushDifference_eq M b a hM hb ha
  refine ⟨by rw [Push, h1], ?_, ?_, ?_, ?_, ?_, ?_⟩
  · intro hab
    rw [Push, h2, if_pos hab]
  · intro hab
    rw [Push, h2, if_neg (by omega)]
  · unfold Push; positivity
  · unfold Push
    have : PushDifference M a b ≤ M := by
      rw [h2]; split_ifs <;> omega
    exact_mod_cast this
  · unfold Push
    rw [Nat.cast_eq_zero, h2]
    split_ifs <;> omega
  · intro hne
    unfold Push
    have : PushDifference M a b + PushDifference M b a = M + 1 := by
      rw [h2, h3]; split_ifs <;> omega
    exact_mod_cast this

/-- Witness of claim C19: `Push<1000>(998, 3)` and `Push<1000>(3, 998)`. -/
theorem C19_push_distance_witness :
    Push 1000 998 3 = 6 ∧ Push 1000 3 998 = 995 ∧ Push 1000 998 3 + Push 1000 3 998 = 1001 :=
  have h := C19_push_distance 1000 998 3 (by decide) (by decide) (by decide)
  ⟨by rw [h.2.2.1 (by decide)]; norm_num, by decide!, by rw [h.2.2.2.2.2.2 (by decide)]; norm_num⟩

/-! ### `WeightedSet::Index`: termination and the indices it reads -/

namespace WeightedSet

/-- Recording the reads does not change what the descent returns. -/
theorem IndexFromReads_fst (w : List WeightInfo) :
    ∀ (fuel : Nat) (x : ℚ) (c : Nat), (IndexFromReads w fuel x c).1 = IndexFrom w fuel x c := by
  intro fuel
  induction fuel with
  | zero => intro x c; rfl
  | succ fuel ih =>
    intro x c
    cases hc : w[c]? with
    | none => simp only [IndexFromReads, IndexFrom, hc]
    | some wc =>
      by_cases hlt : x < wc.item
      · simp only [IndexFromReads, IndexFrom, hc, if_pos hlt]
      · cases hl : w[LeftID c]? with
        | none => simp only [IndexFromReads, IndexFrom, hc, if_neg hlt, hl]
        | some wl =>
          by_cases hgo : x - wc.item < wl.tree
          · simp only [IndexFromReads, IndexFrom, hc, if_neg hlt, hl, if_pos hgo, ih]
          · simp only [IndexFromReads, IndexFrom, hc, if_neg hlt, hl, if_neg hgo, ih]

/-- Under the invariant the descent from a node whose subtree weight exceeds
the position reads inside the vector only. -/
theorem IndexFromReads_bounds (w : List WeightInfo) (h : TreeInv ⟨w⟩) :
    ∀ (g c : Nat) (x : ℚ), w.length - c ≤ g → c < w.length → 0 ≤ x → x < treeAt w c →
      ∀ j ∈ (IndexFromReads w g x c).2, j < w.length := by
  intro g
  induction g with
  | zero => intro c x hg hc; omega
  | succ g ih =>
    intro c x hg hc hx0 hxt
    have hwc : w[c]? = some w[c] := List.getElem?_eq_getElem hc
    have hic : itemAt w c = w[c].item := itemAt_of_getElem? hwc
    have hI := h c hc
    simp only at hI
    by_cases hlt : x < w[c].item
    · intro j hj
      simp only [IndexFromReads, hwc, if_pos hlt, List.mem_singleton] at hj
      omega
    · have hl : LeftID c < w.length := by
        by_contra hge
        have e1 : treeAt w (LeftID c) = 0 := by
          simp [treeAt, List.getElem?_eq_none (show w.length ≤ LeftID c by omega)]
        have e2 : treeAt w (RightID c) = 0 := by
          simp [treeAt, List.getElem?_eq_none (show w.length ≤ RightID c by
            unfold LeftID RightID at *; omega)]
        rw [e1, e2, hic] at hI
        linarith
      have hwl : w[LeftID c]? = some w[LeftID c] := List.getElem?_eq_getElem hl
      have htl : treeAt w (LeftID c) = w[LeftID c].tree := treeAt_of_getElem? hwl
      by_cases hgo : x - w[c].item < w[LeftID c].tree
      · have hrec := ih (LeftID c) (x - w[c].item) (by unfold LeftID; omega) hl
          (by linarith) (by rw [htl]; exact hgo)
        intro j hj
        simp only [IndexFromReads, hwc, if_neg hlt, hwl, if_pos hgo, List.mem_cons] at hj
        rcases hj with hj | hj | hj
        · omega
        · omega
        · exact hrec j hj
      · have hr : RightID c < w.length := by
          by_contra hge
          have e2 : treeAt w (RightID c) = 0 := by
            simp [treeAt, List.getElem?_eq_none (show w.length ≤ RightID c by omega)]
          rw [e2, hic, htl] at hI
          linarith
        have hrec := ih (RightID c) (x - w[c].item - w[LeftID c].tree)
          (by unfold RightID; omega) hr (by linarith) (by rw [hic, htl] at hI; linarith)
        intro j hj
        simp only [IndexFromReads, hwc, if_neg hlt, hwl, if_neg hgo, List.mem_cons] at hj
        rcases hj with hj | hj | hj
        · omega
        · omega
        · exact hrec j hj

/-- Claim C21 (safety of `Index`).  In a state that satisfies the sampler
invariant, for every `x` with `0 ≤ x < total weight` (the subtree weight of
the root): the descent `Index(x)` terminates on the fuel it is run with, and on
any larger fuel with the same result; every node index it reads lies in
`[0, capacity)`; and it returns an id in `[0, capacity)` whose item weight is
strictly positive.  Non-negative item weights are not needed for this. -/
theorem C21_index_safe (ws : WeightedSet) (hinv : TreeInv ws) (x : ℚ) (h0 : 0 ≤ x)
    (hx : x < treeAt ws.weight 0) :
    ∃ id, Index ws x = .ok id ∧ id < ws.GetSize ∧ 0 < itemAt ws.weight id ∧
      (∀ fuel, ws.weight.length + 1 ≤ fuel → IndexFrom ws.weight fuel x 0 = .ok id) ∧
      (IndexFromReads ws.weight (ws.weight.length + 1) x 0).1 = .ok id ∧
      ∀ j ∈ IndexReads ws x, j < ws.GetSize := by
  have hpos : 0 < ws.weight.length := by
    by_contra h
    have : ws.weight[0]? = none := List.getElem?_eq_none (by omega)
    simp only [treeAt, this] at hx
    linarith
  obtain ⟨id, hid, hlt, hit⟩ := IndexFrom_range ws.weight hinv (ws.weight.length + 1) 0 x
    (by omega) hpos h0 hx
  refine ⟨id, hid, hlt, hit, ?_, ?_, ?_⟩
  · intro fuel hf
    -- a run that has returned returns the same on any larger fuel
    have mono : ∀ (g c : Nat) (y : ℚ) (r : Nat), IndexFrom ws.weight g y c = .ok r →
        ∀ g2, g ≤ g2 → IndexFrom ws.weight g2 y c = .ok r := by
      intro g
      induction g with
      | zero => intro c y r h; simp [IndexFrom] at h
      | succ g ih =>
        intro c y r h g2 hg2
        obtain ⟨g3, rfl⟩ : ∃ g3, g2 = g3 + 1 := ⟨g2 - 1, by omega⟩
        cases hc : ws.weight[c]? with
        | none => simp [IndexFrom, hc] at h
        | some wc =>
          by_cases hlt2 : y < wc.item
          · simp only [IndexFrom, hc, if_pos hlt2] at h ⊢
            exact h
          · cases hl : ws.weight[LeftID c]? with
            | none => simp [IndexFrom, hc, hlt2, hl] at h
            | some wl =>
              by_cases hgo : y - wc.item < wl.tree
              · simp only [IndexFrom, hc, if_neg hlt2, hl, if_pos hgo] at h ⊢
                exact ih _ _ _ h g3 (by omega)
              · simp only [IndexFrom, hc, if_neg hlt2, hl, if_neg hgo] at h ⊢
                exact ih _ _ _ h g3 (by omega)
    exact mono _ 0 x id hid fuel hf
  · rw [IndexFromReads_fst]; exact hid
  · exact IndexFromReads_bounds ws.weight hinv (ws.weight.length + 1) 0 x (by omega) hpos h0 hx

/-- Witness of claim C21: the state after `Adjust(0, 1.0)`, `Adjust(1, 3.0)` on
capacity 4 (total weight 4) and `x = 3/2`: `Index` reads nodes 0, 1, 1 and
returns 1. -/
theorem C21_index_safe_witness :
    treeAt sample4.weight 0 = 4 ∧ IndexReads sample4 (3 / 2) = [0, 1, 1] ∧
    ∃ id, Index sample4 (3 / 2) = .ok id ∧ id < sample4.GetSize ∧
      0 < itemAt sample4.weight id ∧
      (∀ fuel, sample4.weight.length + 1 ≤ fuel →
        IndexFrom sample4.weight fuel (3 / 2) 0 = .ok id) ∧
      (IndexFromReads sample4.weight (sample4.weight.length + 1) (3 / 2) 0).1 = .ok id ∧
      ∀ j ∈ IndexReads sample4 (3 / 2), j < sample4.GetSize :=
  ⟨by decide!, by decide!,
    C21_index_safe sample4 sample4_TreeInv (3 / 2) (by decide!) (by decide!)⟩

end WeightedSet

end emp
